import Mathlib

/-! # snrkos sorted set (`src/util/sorted_set.c`)

A shallow embedding of the skip list behind `struct sorted_set`.

* Memory is explicit.  All `struct node` objects live in one heap, a list
  indexed by allocation order; a `struct node *` is an index into it and
  `NULL` is `none`.  A `struct sorted_set` header is a record of its three
  fields.  Several sets can live in the same heap.
* A `char` is its integer value (`Int`), a `char *` buffer is the list of
  chars readable from the pointer.  Reading past the end of a buffer, or
  past the end of a `next` array, is undefined behaviour and makes the
  operation return `none`.
* `size_t` values are natural numbers (sizes are bounded by what was
  allocated, no wrap-around is modelled except for `layers - 1`).
* `void *` data is the pointer value, a natural number, `0` for `NULL`.
* The value returned by `random_level()` inside `sorted_set_add_key` is an
  explicit argument `new_level`.  Function `random_level` itself is modelled
  on the stream of values that `rand()` returns, with a bound on the number
  of calls of `rand()`.
* A `next` array that comes from `malloc` holds `NULL` in every entry until
  it is written; `sorted_set_add_key` and `sorted_set_maker_create` write
  every entry of a node before they return.  The `landmarks` array of the
  maker is different: an entry that was never written cannot be read.
* Loops that follow pointers take their iteration bound from the heap size:
  a chain that visits more nodes than the heap holds never ends.
* The key of a node is the first `length` chars of its buffer.  `key_compare`
  scans `max(a->length, b->length)` chars of both buffers, so on keys of
  different lengths it looks at what the buffers hold behind the shorter key.
  `WF` is the invariant of sets whose keys are NUL-terminated strings stored
  with their string length, where that scan is the order of the strings;
  `SWF` is its structural part, which holds whatever the keys are.
-/

namespace SortedSet

/-- The C `struct node`: forward links (one per level), key buffer, length, data. -/
structure node where
  next : List (Option Nat)
  key : List Int
  length : Nat
  data : Nat
deriving DecidableEq, Repr

/-- The C `struct sorted_set`: head links, layer count, element count. -/
structure sorted_set where
  next : List (Option Nat)
  layers : Nat
  size : Nat
deriving DecidableEq, Repr

/-- The heap of allocated nodes; a node pointer is an index. -/
abbrev Heap := List node

/-- A `struct node *` that is known not to be `NULL`: either the set header
cast to a node (`(struct node *)sorted_set`) or a heap node. -/
inductive NodeRef where
  | set : NodeRef
  | node : Nat → NodeRef
deriving DecidableEq, Repr

/-- The C `enum sorted_set_add_key_result`. -/
inductive sorted_set_add_key_result where
  | SORTED_SET_ADD_KEY_UNIQUE : sorted_set_add_key_result
  | SORTED_SET_ADD_KEY_DUPLICATE : sorted_set_add_key_result
deriving DecidableEq, Repr

open sorted_set_add_key_result

/-- The C `strlen`: number of chars before the first NUL; `none` if the buffer
holds no NUL. -/
def strlen : List Int → Option Nat
  | [] => none
  | c :: cs => if c = 0 then some 0 else (strlen cs).map (· + 1)

/-- The C `strdup`: a fresh NUL-terminated copy of the string in the buffer. -/
def strdup (s : List Int) : Option (List Int) :=
  (strlen s).map (fun n => s.take n ++ [0])

/-- The number of chars `strndup(s, n)` copies: `strnlen(s, n)`. -/
def strnlen : List Int → Nat → Option Nat
  | _, 0 => some 0
  | [], _ + 1 => none
  | c :: cs, n + 1 => if c = 0 then some 0 else (strnlen cs n).map (· + 1)

/-- Function `util_strndup` (`strndup`): a fresh NUL-terminated copy of at most `n`
chars of `s`. -/
def util_strndup (s : List Int) (n : Nat) : Option (List Int) :=
  (strnlen s n).map (fun m => s.take m ++ [0])

/-- Function `sorted_set_create`: an empty set with one layer. -/
def sorted_set_create : sorted_set :=
  { next := [none], layers := 1, size := 0 }

/-- Function `sorted_set_size`. -/
def sorted_set_size (s : sorted_set) : Nat := s.size

/-- The body of the `for` loop of `key_compare`, at index `i` with `n`
iterations left. -/
def key_compare_loop (a b : node) : Nat → Nat → Option Int
  | _, 0 => some 0
  | i, n + 1 =>
    match a.key[i]?, b.key[i]? with
    | some x, some y =>
      if x ≠ y then some (x - y) else key_compare_loop a b (i + 1) n
    | _, _ => none

/-- Function `key_compare`: 0 when equal, negative when a < b, positive when a > b. -/
def key_compare (a b : node) : Option Int :=
  let length := if a.length > b.length then a.length else b.length
  key_compare_loop a b 0 length

/-- The `next` array a node pointer gives access to. -/
def next_array (h : Heap) (s : sorted_set) : NodeRef → Option (List (Option Nat))
  | .set => some s.next
  | .node i => (h[i]?).map (·.next)

/-- Read `r->next[layer]`. -/
def load_next (h : Heap) (s : sorted_set) (r : NodeRef) (layer : Nat) :
    Option (Option Nat) :=
  (next_array h s r).bind (·[layer]?)

/-- Write `r->next[layer] = v`. -/
def store_next (h : Heap) (s : sorted_set) (r : NodeRef) (layer : Nat)
    (v : Option Nat) : Option (Heap × sorted_set) :=
  match r with
  | .set =>
    if layer < s.next.length then some (h, { s with next := s.next.set layer v })
    else none
  | .node i =>
    match h[i]? with
    | some nd =>
      if layer < nd.next.length then
        some (h.set i { nd with next := nd.next.set layer v }, s)
      else none
    | none => none

/-- The inner `while (node->next[layer])` loop of `sorted_set_add_key` and
`sorted_set_lookup`; on a match it also reports the matching node. -/
def search_level (h : Heap) (s : sorted_set) (probe : node) (layer : Nat) :
    Nat → NodeRef → Option (Option Nat × NodeRef)
  | 0, _ => none
  | fuel + 1, nd =>
    match load_next h s nd layer with
    | none => none
    | some none => some (none, nd)
    | some (some n) =>
      match h[n]? with
      | none => none
      | some nx =>
        match key_compare probe nx with
        | none => none
        | some compare =>
          if compare = 0 then some (some n, nd)
          else if compare > 0 then search_level h s probe layer fuel (.node n)
          else some (none, nd)

/-- The outer `for (;;)` loop of `sorted_set_add_key`, entered at `layer`
with `node` and the `update` array; `some none` is the DUPLICATE exit. -/
def search (h : Heap) (s : sorted_set) (probe : node) :
    Nat → NodeRef → List (Option NodeRef) → Option (Option (List (Option NodeRef)))
  | 0, nd, update =>
    match search_level h s probe 0 (h.length + 1) nd with
    | none => none
    | some (some _, _) => some none
    | some (none, nd') => some (some (update.set 0 (some nd')))
  | layer + 1, nd, update =>
    match search_level h s probe (layer + 1) (h.length + 1) nd with
    | none => none
    | some (some _, _) => some none
    | some (none, nd') => search h s probe layer nd' (update.set (layer + 1) (some nd'))

/-- One iteration of the splice loops:
`new_node->next[i] = update[i]->next[i]; update[i]->next[i] = new_node;`. -/
def splice_step (new_node : Nat) (update : List (Option NodeRef))
    (st : Heap × sorted_set) (i : Nat) : Option (Heap × sorted_set) :=
  match update[i]? with
  | some (some u) =>
    match load_next st.1 st.2 u i with
    | some v =>
      match store_next st.1 st.2 (.node new_node) i v with
      | some st1 => store_next st1.1 st1.2 u i (some new_node)
      | none => none
    | none => none
  | _ => none

/-- One iteration of the loop over the new levels:
`sorted_set->next[i] = new_node; new_node->next[i] = NULL;`. -/
def grow_step (new_node : Nat) (st : Heap × sorted_set) (i : Nat) :
    Option (Heap × sorted_set) :=
  match store_next st.1 st.2 .set i (some new_node) with
  | some st1 => store_next st1.1 st1.2 (.node new_node) i none
  | none => none

/-- Function `sorted_set_add_key`, with the level drawn by `random_level()` given as
`new_level`. -/
def sorted_set_add_key (h : Heap) (s : sorted_set) (key : List Int)
    (length : Nat) (data : Nat) (new_level : Nat) :
    Option (sorted_set_add_key_result × Heap × sorted_set) :=
  match (if length = 0 then strlen key else some length) with
  | none => none
  | some length =>
    -- `update`: entries from `new_level` on are NULL, the others not yet set
    let update : List (Option NodeRef) := List.replicate s.layers none
    -- `layers - 1` wraps for `layers = 0` and `next[SIZE_MAX]` is out of range
    if s.layers = 0 then none else
    let probe : node := { next := [], key := key, length := length, data := 0 }
    match search h s probe (s.layers - 1) .set update with
    | none => none
    | some none => some (SORTED_SET_ADD_KEY_DUPLICATE, h, s)
    | some (some update) =>
      let s1 : sorted_set := { s with size := s.size + 1 }
      let new_node := h.length
      let h1 : Heap := h ++
        [{ next := List.replicate new_level none, key := key, length := length,
           data := data }]
      if new_level ≤ s1.layers then
        ((List.range new_level).foldlM (splice_step new_node update) (h1, s1)).map
          (fun st => (SORTED_SET_ADD_KEY_UNIQUE, st.1, st.2))
      else
        match (List.range s1.layers).foldlM (splice_step new_node update) (h1, s1) with
        | none => none
        | some st =>
          let s2 : sorted_set :=
            { st.2 with next := st.2.next ++ List.replicate (new_level - st.2.layers) none }
          match (List.range' s2.layers (new_level - s2.layers)).foldlM
              (grow_step new_node) (st.1, s2) with
          | none => none
          | some st3 =>
            some (SORTED_SET_ADD_KEY_UNIQUE, st3.1, { st3.2 with layers := new_level })

/-- The `while (node)` loop of `sorted_set_apply`: the arguments
`(key, length, data)` of the successive calls of `fn`. -/
def apply_loop (h : Heap) : Nat → Option Nat → Option (List (List Int × Nat × Nat))
  | _, none => some []
  | 0, some _ => none
  | fuel + 1, some n =>
    match h[n]? with
    | none => none
    | some nd =>
      match nd.next[0]? with
      | none => none
      | some nx => (apply_loop h fuel nx).map (fun l => (nd.key, nd.length, nd.data) :: l)

/-- Function `sorted_set_apply`: the list of calls made to `fn`, in order. -/
def sorted_set_apply (h : Heap) (s : sorted_set) :
    Option (List (List Int × Nat × Nat)) :=
  if s.layers = 0 then some [] else
  match s.next[0]? with
  | none => none
  | some p => apply_loop h h.length p

/-- The outer `for (;;)` loop of `sorted_set_lookup`, entered at `layer`
with `node`: the matching node, if one is met. -/
def lookup_search (h : Heap) (s : sorted_set) (probe : node) :
    Nat → NodeRef → Option (Option Nat)
  | 0, nd =>
    match search_level h s probe 0 (h.length + 1) nd with
    | none => none
    | some (some n, _) => some (some n)
    | some (none, _) => some none
  | layer + 1, nd =>
    match search_level h s probe (layer + 1) (h.length + 1) nd with
    | none => none
    | some (some n, _) => some (some n)
    | some (none, nd') => lookup_search h s probe layer nd'

/-- Function `sorted_set_lookup`: `some none` is the `NULL` result, otherwise the
`struct sorted_set_lookup_result` the returned pointer gives access to, the
`key`, `length` and `data` fields of the matching node. -/
def sorted_set_lookup (h : Heap) (s : sorted_set) (key : List Int) (length : Nat) :
    Option (Option (List Int × Nat × Nat)) :=
  -- `layers - 1` wraps for `layers = 0` and `next[SIZE_MAX]` is out of range
  if s.layers = 0 then none else
  match lookup_search h s { next := [], key := key, length := length, data := 0 }
      (s.layers - 1) .set with
  | none => none
  | some none => some none
  | some (some n) => (h[n]?).map (fun nd => some (nd.key, nd.length, nd.data))

/-- The `for` loop of `sorted_set_flatten_keys` with `n` iterations left. -/
def flatten_loop (h : Heap) : Nat → Option Nat → Option (List (List Int))
  | 0, _ => some []
  | _ + 1, none => none
  | n + 1, some p =>
    match h[p]? with
    | none => none
    | some nd =>
      match nd.next[0]? with
      | none => none
      | some nx => (flatten_loop h n nx).map (fun l => nd.key :: l)

/-- Function `sorted_set_flatten_keys`: the returned array, and what was stored in
`*n_keys_out`; `n_keys_out` tells whether that pointer is non-null. -/
def sorted_set_flatten_keys (h : Heap) (s : sorted_set) (n_keys_out : Bool) :
    Option (List (List Int) × Option Nat) :=
  match s.next[0]? with
  | none => none
  | some p =>
    (flatten_loop h s.size p).map
      (fun keys => (keys, if n_keys_out then some s.size else none))

/-- Function `sorted_set_add_key_copy`: `sorted_set_add_key` on a copy of the key. -/
def sorted_set_add_key_copy (h : Heap) (s : sorted_set) (key : List Int)
    (length : Nat) (data : Nat) (new_level : Nat) :
    Option (sorted_set_add_key_result × Heap × sorted_set) :=
  if length ≠ 0 then
    match util_strndup key length with
    | none => none
    | some k => sorted_set_add_key h s k length data new_level
  else
    match strdup key with
    | none => none
    | some k => sorted_set_add_key h s k length data new_level

/-- The second loop of `sorted_set_difference`, `while (a_node)`; `lv` gives
the level drawn by each call of `random_level()` and `n` counts the calls
made so far. -/
def difference_rest (lv : Nat → Nat) :
    Nat → Heap → sorted_set → Nat → Option Nat → Option (Heap × sorted_set)
  | _, h, out, _, none => some (h, out)
  | 0, _, _, _, some _ => none
  | fuel + 1, h, out, n, some a =>
    match h[a]? with
    | none => none
    | some an =>
      match sorted_set_add_key_copy h out an.key an.length an.data (lv n) with
      | none => none
      | some (_, h', out') =>
        match (h'[a]?).bind (fun an' => an'.next[0]?) with
        | none => none
        | some a' => difference_rest lv fuel h' out' (n + 1) a'

/-- The first loop of `sorted_set_difference`, `while (a_node && b_node)`,
followed by the second one. -/
def difference_loop (lv : Nat → Nat) (fuel2 : Nat) :
    Nat → Heap → sorted_set → Nat → Option Nat → Option Nat → Option (Heap × sorted_set)
  | _, h, out, n, none, _ => difference_rest lv fuel2 h out n none
  | _, h, out, n, some a, none => difference_rest lv fuel2 h out n (some a)
  | 0, _, _, _, some _, some _ => none
  | fuel + 1, h, out, n, some a, some b =>
    match h[a]?, h[b]? with
    | some an, some bn =>
      match key_compare an bn with
      | none => none
      | some result =>
        if result = 0 then
          match an.next[0]?, bn.next[0]? with
          | some a', some b' => difference_loop lv fuel2 fuel h out n a' b'
          | _, _ => none
        else if result < 0 then
          match sorted_set_add_key_copy h out an.key an.length an.data (lv n) with
          | none => none
          | some (_, h', out') =>
            match (h'[a]?).bind (fun an' => an'.next[0]?) with
            | none => none
            | some a' => difference_loop lv fuel2 fuel h' out' (n + 1) a' (some b)
        else
          match bn.next[0]? with
          | none => none
          | some b' => difference_loop lv fuel2 fuel h out n (some a) b'
    | _, _ => none

/-- Function `sorted_set_difference`: the heap after the call and the header of the
new set. -/
def sorted_set_difference (h : Heap) (a b : sorted_set) (lv : Nat → Nat) :
    Option (Heap × sorted_set) :=
  match a.next[0]?, b.next[0]? with
  | some a_node, some b_node =>
    difference_loop lv (h.length + 1) (2 * h.length + 1) h sorted_set_create 0 a_node b_node
  | _, _ => none

/-- Function `sorted_set_add_keys_copy`, iterations `i .. i + m - 1` of its loop:
`keys`, `lengths` and `data` are the arrays passed (`none` for a null
`lengths` or `data` pointer) and `lv i` is the level `random_level()` draws
in iteration `i`. -/
def add_keys_copy_loop (keys : List (List Int)) (lengths : Option (List Nat))
    (data : Option (List Nat)) (lv : Nat → Nat) :
    Nat → Nat → Heap → sorted_set → Option (Heap × sorted_set)
  | 0, _, h, s => some (h, s)
  | m + 1, i, h, s =>
    match keys[i]? with
    | none => none
    | some key =>
      match (match lengths with
        | some ls => ls[i]?
        | none => strlen key) with
      | none => none
      | some length =>
        match util_strndup key length, (match data with
          | some ds => ds[i]?
          | none => some 0) with
        | some k, some d =>
          match sorted_set_add_key h s k length d (lv i) with
          | none => none
          | some (_, h', s') => add_keys_copy_loop keys lengths data lv m (i + 1) h' s'
        | _, _ => none

/-- Function `sorted_set_add_keys_copy`. -/
def sorted_set_add_keys_copy (h : Heap) (s : sorted_set) (keys : List (List Int))
    (lengths : Option (List Nat)) (data : Option (List Nat)) (n_keys : Nat)
    (lv : Nat → Nat) : Option (Heap × sorted_set) :=
  add_keys_copy_loop keys lengths data lv n_keys 0 h s

/-- The loop of `sorted_set_add_keys_copy` written out as calls of
`sorted_set_add_key_copy`, as the interface describes it:
`sorted_set_add_key_copy(set, keys[i], L, D)` for `i .. i + m - 1` in order,
where `L` is `lengths[i]`, or 0 when `lengths` is null, and `D` is
`data[i]`, or `NULL` when `data` is null. -/
def add_key_copy_calls (keys : List (List Int)) (lengths : Option (List Nat))
    (data : Option (List Nat)) (lv : Nat → Nat) :
    Nat → Nat → Heap → sorted_set → Option (Heap × sorted_set)
  | 0, _, h, s => some (h, s)
  | m + 1, i, h, s =>
    match keys[i]?, (match lengths with
      | some ls => ls[i]?
      | none => some 0), (match data with
      | some ds => ds[i]?
      | none => some 0) with
    | some key, some length, some d =>
      match sorted_set_add_key_copy h s key length d (lv i) with
      | none => none
      | some (_, h', s') => add_key_copy_calls keys lengths data lv m (i + 1) h' s'
    | _, _, _ => none

/-! ## The `sorted_set_maker` -/

/-- The C `struct sorted_set_maker`: the embedded set and the node the next key
goes to. -/
structure sorted_set_maker where
  sorted_set : sorted_set
  next : Option Nat
deriving DecidableEq, Repr

/-- The `size_t` value of `i - 1`: it wraps to `SIZE_MAX` at 0 (64-bit
`size_t`). -/
def size_dec (i : Nat) : Nat := if i = 0 then 2 ^ 64 - 1 else i - 1

/-- The loop `for (size_t n = n_keys; n > 1; n /= 2) layers++;` of
`sorted_set_maker_create`, with a bound on its iterations. -/
def maker_layers_loop : Nat → Nat → Nat → Nat
  | 0, _, layers => layers
  | fuel + 1, n, layers =>
    if n > 1 then maker_layers_loop fuel (n / 2) (layers + 1) else layers

/-- The layer count `sorted_set_maker_create(n_keys)` computes. -/
def maker_layers (n_keys : Nat) : Nat := maker_layers_loop n_keys n_keys 0

/-- The loop `for (size_t n = n_keys / 2; n > 1; n /= 2) { landmarks[i] = n; i--; }`
on the `landmarks` array, whose entries are `none` until they are
written. -/
def maker_landmarks_loop : Nat → Nat → Nat → List (Option Nat) → Option (List (Option Nat))
  | 0, _, _, landmarks => some landmarks
  | fuel + 1, n, i, landmarks =>
    if n > 1 then
      if i < landmarks.length then
        maker_landmarks_loop fuel (n / 2) (size_dec i) (landmarks.set i (some n))
      else none
    else some landmarks

/-- The loop `for (size_t j = layers - 1; j > 0; j--)` that picks the layer
of node `i`, entered with `j`: the value of `layer` behind it. Reading an
entry of `landmarks` that is out of range or was never written, and a
modulo by zero, are undefined. -/
def maker_level_loop (landmarks : List (Option Nat)) (i : Nat) : Nat → Option Nat
  | 0 => some 0
  | j + 1 =>
    match landmarks[j + 1]? with
    | some (some m) =>
      if m = 0 then none
      else if i % m = 0 then some (j + 1)
      else maker_level_loop landmarks i j
    | _ => none

/-- One iteration of the linking loop of `sorted_set_maker_create`:
`update[j]->next[j] = node; update[j] = node;`. -/
def maker_link_step (new_node : Nat) (st : Heap × sorted_set × List NodeRef) (j : Nat) :
    Option (Heap × sorted_set × List NodeRef) :=
  match st.2.2[j]? with
  | some u =>
    match store_next st.1 st.2.1 u j (some new_node) with
    | some st1 => some (st1.1, st1.2, st.2.2.set j (.node new_node))
    | none => none
  | none => none

/-- One iteration of the loop over the nodes of `sorted_set_maker_create`:
node `i` gets its number of layers, is allocated with `key`, `length` and
`data` zero, and is linked behind `update[j]` on each of its layers. -/
def maker_node_step (layers : Nat) (landmarks : List (Option Nat))
    (st : Heap × sorted_set × List NodeRef) (i : Nat) :
    Option (Heap × sorted_set × List NodeRef) :=
  match maker_level_loop landmarks i (size_dec layers) with
  | none => none
  | some layer =>
    (List.range (layer + 1)).foldlM (maker_link_step st.1.length)
      (st.1 ++ [{ next := List.replicate (layer + 1) none, key := [], length := 0,
                  data := 0 }], st.2.1, st.2.2)

/-- One iteration of the last loop of `sorted_set_maker_create`:
`update[i]->next[i] = NULL;`. -/
def maker_end_step (st : Heap × sorted_set × List NodeRef) (i : Nat) :
    Option (Heap × sorted_set × List NodeRef) :=
  match st.2.2[i]? with
  | some u => (store_next st.1 st.2.1 u i none).map (fun st1 => (st1.1, st1.2, st.2.2))
  | none => none

/-- Function `sorted_set_maker_create`: the heap with the skeleton of `n_keys`
nodes and the maker. `assert(n_keys > 0)` fails for 0. -/
def sorted_set_maker_create (h : Heap) (n_keys : Nat) : Option (Heap × sorted_set_maker) :=
  if n_keys = 0 then none else
  let layers := maker_layers n_keys
  match maker_landmarks_loop n_keys (n_keys / 2) (size_dec layers)
      (List.replicate layers none) with
  | none => none
  | some landmarks =>
    let s0 : sorted_set := { next := List.replicate layers none, layers := layers, size := 0 }
    match (List.range n_keys).foldlM (maker_node_step layers landmarks)
        (h, s0, List.replicate layers NodeRef.set) with
    | none => none
    | some st =>
      match (List.range layers).foldlM maker_end_step st with
      | none => none
      | some st' =>
        match st'.2.1.next[0]? with
        | none => none
        | some first => some (st'.1, { sorted_set := st'.2.1, next := first })

/-- Function `sorted_set_maker_complete`. -/
def sorted_set_maker_complete (m : sorted_set_maker) : Bool := m.next.isNone

/-- Function `sorted_set_maker_finalize`: the set that was made; the
`assert` fails when the maker is not complete. -/
def sorted_set_maker_finalize (m : sorted_set_maker) : Option sorted_set :=
  if sorted_set_maker_complete m then some m.sorted_set else none

/-- Function `sorted_set_maker_add_key`: the value returned, the heap and the
maker after the call. -/
def sorted_set_maker_add_key (h : Heap) (m : sorted_set_maker) (key : List Int)
    (length : Nat) (data : Nat) : Option (Bool × Heap × sorted_set_maker) :=
  match m.next with
  | none => none
  | some i =>
    match h[i]? with
    | none => none
    | some nd =>
      match nd.next[0]? with
      | none => none
      | some nx =>
        some (nx.isNone, h.set i { nd with key := key, length := length, data := data },
          { m with next := nx })

/-- A sequence of `sorted_set_maker_add_key` calls on the same maker: the
values returned and the final state. -/
def maker_add_keys : Heap → sorted_set_maker → List (List Int × Nat × Nat) →
    Option (List Bool × Heap × sorted_set_maker)
  | h, m, [] => some ([], h, m)
  | h, m, e :: es =>
    match sorted_set_maker_add_key h m e.1 e.2.1 e.2.2 with
    | none => none
    | some (r, h', m') => (maker_add_keys h' m' es).map (fun x => (r :: x.1, x.2))

/-- A maker created for as many keys as the list holds, the keys added in
order, and the maker finalized: the values returned by the additions, the
heap and the set. -/
def maker_build (h : Heap) (es : List (List Int × Nat × Nat)) : Option (List Bool × Heap × sorted_set) :=
  match sorted_set_maker_create h es.length with
  | none => none
  | some (h1, m) =>
    match maker_add_keys h1 m es with
    | none => none
    | some (rs, h2, m2) => (sorted_set_maker_finalize m2).map (fun s => (rs, h2, s))

/-! ## Keys as NUL-terminated strings -/

/-- Comparison of two NUL-terminated strings, given without their
terminators: the difference of the chars at the first position where the
terminated strings differ, 0 if there is none. -/
def str_cmp : List Int → List Int → Int
  | [], [] => 0
  | [], y :: _ => -y
  | x :: _, [] => x
  | x :: xs, y :: ys => if x = y then str_cmp xs ys else x - y

/-- The order `key_compare` induces on NUL-terminated keys. -/
def key_lt (s t : List Int) : Prop := str_cmp s t < 0

instance (s t : List Int) : Decidable (key_lt s t) := by
  unfold key_lt; infer_instance

/-- The comparison loop, on the buffers that remain to be read. -/
def buf_cmp : List Int → List Int → Nat → Option Int
  | _, _, 0 => some 0
  | x :: xs, y :: ys, n + 1 => if x ≠ y then some (x - y) else buf_cmp xs ys n
  | _, _, _ + 1 => none

/-! ## The skip list invariant -/

/-- Number of levels of heap node `i` (length of its `next` array). -/
def level (h : Heap) (i : Nat) : Nat :=
  match h[i]? with
  | some nd => nd.next.length
  | none => 0

/-- The key of heap node `i`: the first `length` chars of its buffer. -/
def keyAt (h : Heap) (i : Nat) : List Int :=
  match h[i]? with
  | some nd => nd.key.take nd.length
  | none => []

/-- Heap node `i` holds a NUL-terminated key whose length is its string
length. -/
def ValidNode (h : Heap) (i : Nat) : Prop :=
  ∃ nd, h[i]? = some nd ∧ strlen nd.key = some nd.length

/-- The level-`L` links starting at `r` run through exactly the nodes of the
list, in order, and end in `NULL`. -/
def Linked (h : Heap) (s : sorted_set) (L : Nat) : NodeRef → List Nat → Prop
  | r, [] => load_next h s r L = some none
  | r, a :: rest => load_next h s r L = some (some a) ∧ Linked h s L (.node a) rest

/-- The last node of a chain that starts at `r`. -/
def lastRef : NodeRef → List Nat → NodeRef
  | r, [] => r
  | _, a :: rest => lastRef (.node a) rest

/-- The nodes of `order` that take part in level `L`. -/
def chain (h : Heap) (order : List Nat) (L : Nat) : List Nat :=
  order.filter (fun i => decide (L < level h i))

/-- Test whether the key of node `i` is smaller than `k`. -/
def ltKey (h : Heap) (k : List Int) (i : Nat) : Bool :=
  decide (key_lt (keyAt h i) k)

/-- The node after which a node with key `k` goes at level `L`: the last node
of the level-`L` chain with a smaller key, or the set header. -/
def updateRef (h : Heap) (order : List Nat) (k : List Int) (L : Nat) : NodeRef :=
  lastRef .set ((chain h order L).filter (ltKey h k))

/-- The skip list invariant: `order` lists the nodes of the set in level-0
order. -/
structure WF (h : Heap) (s : sorted_set) (order : List Nat) : Prop where
  layers_pos : 1 ≤ s.layers
  next_len : s.next.length = s.layers
  size_eq : s.size = order.length
  nodup : order.Nodup
  lvl : ∀ i ∈ order, 1 ≤ level h i ∧ level h i ≤ s.layers
  valid : ∀ i ∈ order, ValidNode h i
  sorted : order.Pairwise (fun i j => key_lt (keyAt h i) (keyAt h j))
  linked : ∀ L, L < s.layers → Linked h s L .set (chain h order L)

/-- The structural part of the skip list invariant, which does not look at
the keys: `order` lists the nodes of the set in level-0 order, and the
level-`L` links run through the nodes of `order` that have more than `L`
levels. -/
structure SWF (h : Heap) (s : sorted_set) (order : List Nat) : Prop where
  layers_pos : 1 ≤ s.layers
  next_len : s.next.length = s.layers
  size_eq : s.size = order.length
  nodup : order.Nodup
  bound : ∀ i ∈ order, i < h.length
  lvl : ∀ i ∈ order, 1 ≤ level h i ∧ level h i ≤ s.layers
  linked : ∀ L, L < s.layers → Linked h s L .set (chain h order L)

/-- The comparison of the probe with node `x` is defined and positive: the
search moves on to `x`. -/
def CmpPos (h : Heap) (probe : node) (x : Nat) : Prop :=
  ∃ nd c, h[x]? = some nd ∧ key_compare probe nd = some c ∧ 0 < c

/-- The comparison of the probe with node `x` is defined and negative: the
search stops in front of `x`. -/
def CmpNeg (h : Heap) (probe : node) (x : Nat) : Prop :=
  ∃ nd c, h[x]? = some nd ∧ key_compare probe nd = some c ∧ c < 0

/-- The search is at `r`, the last node of the nodes `P` it has left behind
(the set header when there are none), and `r` takes part in level `l`. -/
def EndsAt (h : Heap) (P : List Nat) (r : NodeRef) (l : Nat) : Prop :=
  (P = [] ∧ r = .set) ∨ ∃ P0 u, P = P0 ++ [u] ∧ r = .node u ∧ l < level h u

/-! ## Writing links -/

/-- Two states that differ only in the contents of `next` arrays. -/
structure SameShape (h h' : Heap) (s s' : sorted_set) : Prop where
  len : h'.length = h.length
  flds : ∀ (i : Nat) (nd : node), h[i]? = some nd → ∃ nd' : node, h'[i]? = some nd' ∧
    nd'.key = nd.key ∧
    nd'.length = nd.length ∧ nd'.data = nd.data ∧ nd'.next.length = nd.next.length
  layers : s'.layers = s.layers
  size : s'.size = s.size
  nlen : s'.next.length = s.next.length

/-- What a successful `sorted_set_add_key` leaves behind, in terms of reads:
`h'`, `s'` is the state after a node with the given fields and `new_level`
levels was spliced in behind the nodes `pre` of the set `pre ++ post`. -/
structure Spliced (h : Heap) (s : sorted_set) (pre : List Nat) (key : List Int)
    (len data new_level : Nat) (h' : Heap) (s' : sorted_set) : Prop where
  hlen : h'.length = h.length + 1
  old : ∀ (i : Nat) (nd : node), h[i]? = some nd → ∃ nd' : node, h'[i]? = some nd' ∧
    nd'.key = nd.key ∧ nd'.length = nd.length ∧ nd'.data = nd.data ∧
    nd'.next.length = nd.next.length
  fresh : ∃ nd : node, h'[h.length]? = some nd ∧ nd.key = key ∧ nd.length = len ∧
    nd.data = data ∧ nd.next.length = new_level
  layers : s'.layers = max s.layers new_level
  nlen : s'.next.length = s'.layers
  size : s'.size = s.size + 1
  lo : ∀ L, L < s.layers → L < new_level →
    load_next h' s' (.node h.length) L = load_next h s (lastRef .set (chain h pre L)) L ∧
    load_next h' s' (lastRef .set (chain h pre L)) L = some (some h.length) ∧
    ∀ x, x ≠ .node h.length → x ≠ lastRef .set (chain h pre L) →
      (x = .set ∨ ∃ a, a < h.length ∧ x = .node a) →
      load_next h' s' x L = load_next h s x L
  mid : ∀ L, new_level ≤ L → L < s.layers →
    ∀ x, (x = .set ∨ ∃ a, a < h.length ∧ x = .node a) →
      load_next h' s' x L = load_next h s x L
  hi : ∀ L, s.layers ≤ L → L < new_level →
    load_next h' s' .set L = some (some h.length) ∧
    load_next h' s' (.node h.length) L = some none
  frame : ∀ j, j < h.length → j ∉ pre → h'[j]? = h[j]?

/-! ## The set as a list of entries -/

/-- What `fn` is called with for one node: key pointer, length, data. -/
abbrev Entry := List Int × Nat × Nat

/-- The key of an entry: the first `length` chars of its buffer. -/
def ekey (e : Entry) : List Int := e.1.take e.2.1

/-- The entry of heap node `i`. -/
def entryAt (h : Heap) (i : Nat) : Entry :=
  match h[i]? with
  | some nd => (nd.key, nd.length, nd.data)
  | none => ([], 0, 0)

/-- The entries of the nodes of `order`. -/
def entries (h : Heap) (order : List Nat) : List Entry := order.map (entryAt h)

/-- Insertion of an entry into a sorted list of entries with distinct keys:
nothing happens when the key is there, otherwise the entry goes behind the
entries with a smaller key. -/
def insert_entry (e : Entry) (l : List Entry) : List Entry :=
  if ∃ x ∈ l, ekey x = ekey e then l
  else l.filter (fun x => decide (key_lt (ekey x) (ekey e))) ++
    e :: l.filter (fun x => !decide (key_lt (ekey x) (ekey e)))

/-- The result `sorted_set_add_key` reports for an entry. -/
def insert_result (e : Entry) (l : List Entry) : sorted_set_add_key_result :=
  if ∃ x ∈ l, ekey x = ekey e then SORTED_SET_ADD_KEY_DUPLICATE
  else SORTED_SET_ADD_KEY_UNIQUE

/-! ## Sequences of `sorted_set_add_key` calls -/

/-- The arguments of one `sorted_set_add_key` call, with the level
`random_level()` draws in it. -/
structure add_call where
  key : List Int
  length : Nat
  data : Nat
  new_level : Nat
deriving DecidableEq, Repr

/-- A sequence of `sorted_set_add_key` calls on the same set: the results of
the calls and the final state. -/
def run_add_keys : Heap → sorted_set → List add_call →
    Option (List sorted_set_add_key_result × Heap × sorted_set)
  | h, s, [] => some ([], h, s)
  | h, s, c :: cs =>
    match sorted_set_add_key h s c.key c.length c.data c.new_level with
    | none => none
    | some (r, h', s') => (run_add_keys h' s' cs).map (fun x => (r :: x.1, x.2))

/-- The call passes a NUL-terminated key, with length 0 or its string
length, and the level drawn is at least 1 (as `random_level` ensures). -/
def ValidCall (c : add_call) : Prop :=
  (strlen c.key).isSome = true ∧ (c.length = 0 ∨ some c.length = strlen c.key) ∧
    1 ≤ c.new_level

instance (c : add_call) : Decidable (ValidCall c) := by
  unfold ValidCall; infer_instance

/-- The entry a call stores when its key is new. -/
def call_entry (c : add_call) : Entry := (c.key, (strlen c.key).getD 0, c.data)

/-- The key of a call, without its terminator. -/
def call_key (c : add_call) : List Int := ekey (call_entry c)

/-- A sequence of calls on a list of entries: results and final entries. -/
def model_run : List Entry → List add_call → List sorted_set_add_key_result × List Entry
  | l, [] => ([], l)
  | l, c :: cs =>
    (insert_result (call_entry c) l :: (model_run (insert_entry (call_entry c) l) cs).1,
      (model_run (insert_entry (call_entry c) l) cs).2)

/-! ## `sorted_set_difference` -/

/-- The entry `sorted_set_add_key_copy` stores for an entry of another set:
a fresh NUL-terminated copy of the key, the same length and data. -/
def copy_entry (e : Entry) : Entry := (e.1.take e.2.1 ++ [0], e.2.1, e.2.2)

/-- The state of the output set of `sorted_set_difference` while it runs on
the heap `h0`: it is well-formed, its nodes were allocated after the call
began, and the nodes that existed before are as they were. -/
structure OutInv (h0 h : Heap) (out : sorted_set) (oo : List Nat) : Prop where
  wf : WF h out oo
  len : h0.length ≤ h.length
  frame : ∀ i, i < h0.length → h[i]? = h0[i]?
  fresh : ∀ j ∈ oo, h0.length ≤ j

/-- The state of the output set of `sorted_set_difference` while it runs on
the heap `h0`, for sets with arbitrary keys: the output set has the
structure of a skip list, its nodes were allocated after the call began, and
the nodes that existed before are as they were. -/
structure OutFrame (h0 h : Heap) (out : sorted_set) (oo : List Nat) : Prop where
  swf : SWF h out oo
  len : h0.length ≤ h.length
  frame : ∀ i, i < h0.length → h[i]? = h0[i]?
  fresh : ∀ j ∈ oo, h0.length ≤ j

/-! ## The maker's skeleton -/

/-- The state of the loop over the nodes of `sorted_set_maker_create` after
`k` nodes, for a maker with `layers` layers and the landmarks `lm`, created
on the heap `h0`: the nodes are the `k` nodes allocated since, in order,
they have the structure of a skip list (but for the `size` field, which
stays 0), `update[j]` is the last node of layer `j`, the nodes have no key
yet, and node `i` has the layer count picked for it. -/
structure MakerInv (h0 : Heap) (lm : List (Option Nat)) (layers k : Nat) (h : Heap)
    (s : sorted_set) (update : List NodeRef) : Prop where
  len : h.length = h0.length + k
  frame : ∀ i, i < h0.length → h[i]? = h0[i]?
  swf : SWF h { s with size := k } (List.range' h0.length k)
  layers_eq : s.layers = layers
  size_zero : s.size = 0
  upd_len : update.length = layers
  upd : ∀ j, j < layers →
    update[j]? = some (lastRef .set (chain h (List.range' h0.length k) j))
  blank : ∀ i, i < k → ∃ nd, h[h0.length + i]? = some nd ∧ nd.key = [] ∧ nd.length = 0 ∧
    nd.data = 0
  lvl : ∀ i, i < k → ∃ v, maker_level_loop lm i (layers - 1) = some v ∧
    level h (h0.length + i) = v + 1

/-- The state of a maker for `N` keys, whose skeleton is the nodes
`base .. base + N - 1` with header `s`, after `k` keys were added: the maker
stands at node `k`, or at `NULL` when `k = N`, and the first `k` nodes hold
the entries `done`. -/
structure MakerFill (base N : Nat) (s : sorted_set) (k : Nat) (done : List Entry)
    (h : Heap) (m : sorted_set_maker) : Prop where
  set_eq : m.sorted_set = s
  next_eq : m.next = if k < N then some (base + k) else none
  swf : SWF h { s with size := N } (List.range' base N)
  filled : entries h (List.range' base k) = done

/-! ## Order under `key_compare` -/

/-- The calls of a sequence that returned UNIQUE, in order. -/
def unique_calls (calls : List add_call) (rs : List sorted_set_add_key_result) :
    List add_call :=
  ((calls.zip rs).filter (fun p => decide (p.2 = SORTED_SET_ADD_KEY_UNIQUE))).map (fun p => p.1)

/-- The state a sequence of `sorted_set_add_key` calls on a set created in
the heap `h0` ends in. -/
def build (h0 : Heap) (calls : List add_call) : Heap × sorted_set :=
  match run_add_keys h0 sorted_set_create calls with
  | some (_, h, s) => (h, s)
  | none => (h0, sorted_set_create)

/-! ## Example data -/

/-- The set holding only the key `"ab"`, with data 7. -/
def ex_calls_ab : List add_call :=
  [⟨[97, 98, 0], 0, 7, 1⟩]

/-- Scenario 1: insert `("b",1)`, `("a",2)`, `("c",3)`, lengths computed by
the set; the levels are a possible draw. -/
def ex_calls_abc : List add_call :=
  [⟨[98, 0], 0, 1, 1⟩, ⟨[97, 0], 0, 2, 3⟩, ⟨[99, 0], 0, 3, 2⟩]

/-- Scenario 2: insert `"a"` twice, with data `1` then `2`. -/
def ex_calls_aa : List add_call :=
  [⟨[97, 0], 0, 1, 2⟩, ⟨[97, 0], 0, 2, 1⟩]

/-- The set `{"b"}` of scenario 3. -/
def ex_calls_b : List add_call :=
  [⟨[98, 0], 0, 0, 2⟩]

/-- The key `"abc"` (length 3), then the key `"ab"` given as the first 2
bytes of the buffer `"abd"`. -/
def ex_calls_prefix : List add_call :=
  [⟨[97, 98, 99, 0], 3, 1, 1⟩, ⟨[97, 98, 100, 0], 2, 2, 1⟩]

/-- The set holding the key `"abc"` (length 3). -/
def ex_calls_abc3 : List add_call :=
  [⟨[97, 98, 99, 0], 3, 1, 1⟩]

/-- The set holding the key `"ab"`, given as the first 2 bytes of the buffer
`"abd"`. -/
def ex_calls_ab_of_abd : List add_call :=
  [⟨[97, 98, 100, 0], 2, 1, 1⟩]

/-- The set holding the key `"abd"` (length 3). -/
def ex_calls_abd3 : List add_call :=
  [⟨[97, 98, 100, 0], 3, 2, 1⟩]

/-! # Theorems -/

theorem key_compare_loop_eq (a b : node) (n i : Nat) :
    key_compare_loop a b i n = buf_cmp (a.key.drop i) (b.key.drop i) n := by
  induction n generalizing i with
  | zero => simp [key_compare_loop, buf_cmp]
  | succ n ih =>
    rw [key_compare_loop]
    rcases ha : a.key.drop i with _ | ⟨x, xs⟩
    · have : a.key[i]? = none := by
        have := List.drop_eq_nil_iff.mp ha
        exact List.getElem?_eq_none this
      simp [this, buf_cmp]
    · have hax : a.key[i]? = some x := by
        have := congrArg List.head? ha
        simpa [List.head?_drop] using this
      have hax' : a.key.drop (i + 1) = xs := by
        have := congrArg List.tail ha
        simpa [List.tail_drop] using this
      rcases hb : b.key.drop i with _ | ⟨y, ys⟩
      · have : b.key[i]? = none := by
          have := List.drop_eq_nil_iff.mp hb
          exact List.getElem?_eq_none this
        simp [this, hax, buf_cmp]
      · have hbx : b.key[i]? = some y := by
          have := congrArg List.head? hb
          simpa [List.head?_drop] using this
        have hbx' : b.key.drop (i + 1) = ys := by
          have := congrArg List.tail hb
          simpa [List.tail_drop] using this
        simp only [hax, hbx, buf_cmp, ih, hax', hbx']

theorem strlen_eq_some {buf : List Int} {n : Nat} (h : strlen buf = some n) :
    ∃ s r, buf = s ++ 0 :: r ∧ (0 : Int) ∉ s ∧ s.length = n := by
  induction buf generalizing n with
  | nil => simp [strlen] at h
  | cons c cs ih =>
    rw [strlen] at h
    by_cases hc : c = 0
    · simp [hc] at h
      exact ⟨[], cs, by simp [hc], by simp, by simp [h]⟩
    · simp only [hc, if_false, Option.map_eq_some'] at h
      obtain ⟨m, hm, rfl⟩ := h
      obtain ⟨s, r, rfl, hs, hl⟩ := ih hm
      refine ⟨c :: s, r, by simp, ?_, by simp [hl]⟩
      simp only [List.mem_cons, not_or]
      exact ⟨fun h0 => hc h0.symm, hs⟩

theorem strlen_append {s r : List Int} (hs : (0 : Int) ∉ s) :
    strlen (s ++ 0 :: r) = some s.length := by
  induction s with
  | nil => simp [strlen]
  | cons c cs ih =>
    simp only [List.mem_cons, not_or] at hs
    have hc : c ≠ 0 := fun h => hs.1 h.symm
    simp [strlen, hc, ih hs.2]

theorem buf_cmp_cstr {s t : List Int} (hs : (0 : Int) ∉ s) (ht : (0 : Int) ∉ t)
    (r q : List Int) :
    buf_cmp (s ++ 0 :: r) (t ++ 0 :: q) (max s.length t.length) = some (str_cmp s t) := by
  induction s generalizing t with
  | nil =>
    cases t with
    | nil => simp [buf_cmp, str_cmp]
    | cons y ys =>
      simp only [List.mem_cons, not_or] at ht
      have hy : (0 : Int) ≠ y := ht.1
      simp [buf_cmp, str_cmp, hy]
  | cons x xs ih =>
    simp only [List.mem_cons, not_or] at hs
    cases t with
    | nil =>
      have hx : x ≠ 0 := fun h => hs.1 h.symm
      simp [buf_cmp, str_cmp, hx]
    | cons y ys =>
      simp only [List.mem_cons, not_or] at ht
      have hmax : max (x :: xs).length (y :: ys).length = max xs.length ys.length + 1 := by
        simp only [List.length_cons]; omega
      rw [hmax]
      simp only [List.cons_append, buf_cmp, str_cmp]
      by_cases hxy : x = y
      · simp [hxy, ih hs.2 ht.2]
      · simp [hxy]

/-- On NUL-terminated keys whose length is the string length, `key_compare`
is defined and is the string comparison of the two keys. -/
theorem key_compare_cstr {a b : node} (ha : strlen a.key = some a.length)
    (hb : strlen b.key = some b.length) :
    key_compare a b = some (str_cmp (a.key.take a.length) (b.key.take b.length)) := by
  obtain ⟨s, r, hs, hs0, hsl⟩ := strlen_eq_some ha
  obtain ⟨t, q, ht, ht0, htl⟩ := strlen_eq_some hb
  have h1 : a.key.take a.length = s := by rw [hs, ← hsl]; simp
  have h2 : b.key.take b.length = t := by rw [ht, ← htl]; simp
  have hm : (if a.length > b.length then a.length else b.length) = max s.length t.length := by
    rw [hsl, htl]; split <;> omega
  unfold key_compare
  simp only [hm, key_compare_loop_eq, List.drop_zero, h1, h2]
  rw [hs, ht]
  exact buf_cmp_cstr hs0 ht0 r q

theorem str_cmp_self (s : List Int) : str_cmp s s = 0 := by
  induction s with
  | nil => rfl
  | cons x xs ih => simp [str_cmp, ih]

theorem str_cmp_neg (s t : List Int) : str_cmp t s = - str_cmp s t := by
  induction s generalizing t with
  | nil => cases t <;> simp [str_cmp]
  | cons x xs ih =>
    cases t with
    | nil => simp [str_cmp]
    | cons y ys =>
      simp only [str_cmp]
      by_cases hxy : x = y
      · simp [hxy, ih]
      · have : ¬ y = x := fun h => hxy h.symm
        simp [hxy, this]

theorem str_cmp_eq_zero {s t : List Int} (hs : (0 : Int) ∉ s) (ht : (0 : Int) ∉ t)
    (h : str_cmp s t = 0) : s = t := by
  induction s generalizing t with
  | nil =>
    cases t with
    | nil => rfl
    | cons y ys =>
      simp only [List.mem_cons, not_or] at ht
      simp only [str_cmp] at h
      exact absurd (by omega : (0 : Int) = y) ht.1
  | cons x xs ih =>
    simp only [List.mem_cons, not_or] at hs
    cases t with
    | nil =>
      simp only [str_cmp] at h
      exact absurd (by omega : (0 : Int) = x) hs.1
    | cons y ys =>
      simp only [List.mem_cons, not_or] at ht
      simp only [str_cmp] at h
      by_cases hxy : x = y
      · simp only [hxy, if_true] at h
        rw [hxy, ih hs.2 ht.2 h]
      · simp only [hxy, if_false] at h
        exact absurd (by omega : x = y) hxy

theorem key_lt_trans {a b c : List Int} (hab : key_lt a b) (hbc : key_lt b c) :
    key_lt a c := by
  unfold key_lt at *
  induction a generalizing b c with
  | nil =>
    cases b with
    | nil => simp [str_cmp] at hab
    | cons y ys =>
      cases c with
      | nil => simp only [str_cmp] at hab hbc; omega
      | cons z zs =>
        simp only [str_cmp] at hab hbc ⊢
        split at hbc <;> omega
  | cons x xs ih =>
    cases b with
    | nil =>
      cases c with
      | nil => simp [str_cmp] at hbc
      | cons z zs =>
        simp only [str_cmp] at hab hbc ⊢
        split
        · omega
        · omega
    | cons y ys =>
      cases c with
      | nil =>
        simp only [str_cmp] at hab hbc ⊢
        split at hab <;> omega
      | cons z zs =>
        simp only [str_cmp] at hab hbc ⊢
        by_cases hxy : x = y
        · by_cases hyz : y = z
          · simp only [hxy, hyz, if_true] at hab hbc ⊢
            exact ih hab hbc
          · simp only [hxy, hyz, if_true, if_false] at hab hbc ⊢
            exact hbc
        · by_cases hyz : y = z
          · subst hyz
            simp only [hxy, if_false] at hab ⊢
            exact hab
          · simp only [hxy, hyz, if_false] at hab hbc
            have hxz : ¬ x = z := by omega
            simp only [hxz, if_false]; omega

theorem key_lt_irrefl (a : List Int) : ¬ key_lt a a := by
  simp [key_lt, str_cmp_self]

theorem key_lt_asymm {a b : List Int} (h : key_lt a b) : ¬ key_lt b a := by
  unfold key_lt at *; rw [str_cmp_neg a b]; omega

theorem strlen_take_nonul {buf : List Int} {n : Nat} (h : strlen buf = some n) :
    (0 : Int) ∉ buf.take n := by
  obtain ⟨s, r, rfl, hs, rfl⟩ := strlen_eq_some h
  simpa using hs

theorem ValidNode.lt {h : Heap} {i : Nat} (hv : ValidNode h i) : i < h.length := by
  obtain ⟨nd, hnd, _⟩ := hv
  exact (List.getElem?_eq_some_iff.mp hnd).1

theorem ValidNode.nonul {h : Heap} {i : Nat} (hv : ValidNode h i) :
    (0 : Int) ∉ keyAt h i := by
  obtain ⟨nd, hnd, hs⟩ := hv
  simp only [keyAt, hnd]
  exact strlen_take_nonul hs

theorem lastRef_append (r : NodeRef) (l₁ l₂ : List Nat) :
    lastRef r (l₁ ++ l₂) = lastRef (lastRef r l₁) l₂ := by
  induction l₁ generalizing r with
  | nil => rfl
  | cons a l ih => simp [lastRef, ih]

theorem Linked_append {h : Heap} {s : sorted_set} {L : Nat} {r : NodeRef}
    {l₁ l₂ : List Nat} (hl : Linked h s L r (l₁ ++ l₂)) :
    Linked h s L (lastRef r l₁) l₂ := by
  induction l₁ generalizing r with
  | nil => simpa [lastRef] using hl
  | cons a l ih =>
    simp only [List.cons_append, Linked] at hl
    simpa [lastRef] using ih hl.2

theorem Linked_load {h : Heap} {s : sorted_set} {L : Nat} {r : NodeRef}
    {l : List Nat} (hl : Linked h s L r l) : load_next h s r L = some l.head? := by
  cases l with
  | nil => simpa [Linked] using hl
  | cons a l => simpa [Linked] using hl.1

theorem Linked_congr {h h' : Heap} {s s' : sorted_set} {L : Nat} {r : NodeRef}
    {l : List Nat} (hl : Linked h s L r l)
    (hr : load_next h' s' r L = load_next h s r L)
    (hx : ∀ a ∈ l, load_next h' s' (.node a) L = load_next h s (.node a) L) :
    Linked h' s' L r l := by
  induction l generalizing r with
  | nil => simpa [Linked, hr] using hl
  | cons a l ih =>
    simp only [Linked] at hl ⊢
    refine ⟨by rw [hr]; exact hl.1, ih hl.2 (hx a (by simp)) ?_⟩
    intro b hb
    exact hx b (by simp [hb])

/-- The inner loop on a chain that does not hold the probed key: it stops at
the last node whose key is smaller. -/
theorem search_level_absent {h : Heap} {s : sorted_set} {probe : node} {L : Nat}
    (hp : strlen probe.key = some probe.length) (suffix : List Nat) :
    ∀ (r : NodeRef) (fuel : Nat), Linked h s L r suffix →
      (∀ i ∈ suffix, ValidNode h i) →
      suffix.Pairwise (fun i j => key_lt (keyAt h i) (keyAt h j)) →
      (∀ i ∈ suffix, keyAt h i ≠ probe.key.take probe.length) →
      suffix.length < fuel →
      search_level h s probe L fuel r =
        some (none, lastRef r (suffix.filter (ltKey h (probe.key.take probe.length)))) := by
  induction suffix with
  | nil =>
    intro r fuel hl _ _ _ hf
    obtain ⟨f, rfl⟩ : ∃ f, fuel = f + 1 := ⟨fuel - 1, by simp at hf; omega⟩
    simp only [Linked] at hl
    simp [search_level, hl, lastRef]
  | cons a rest ih =>
    intro r fuel hl hv hs hne hf
    obtain ⟨f, rfl⟩ : ∃ f, fuel = f + 1 := ⟨fuel - 1, by simp at hf; omega⟩
    simp only [Linked] at hl
    obtain ⟨nd, hnd, hnv⟩ := hv a (by simp)
    have hka : keyAt h a = nd.key.take nd.length := by simp [keyAt, hnd]
    have hcmp := key_compare_cstr hp hnv
    rw [← hka] at hcmp
    have hne0 : str_cmp (probe.key.take probe.length) (keyAt h a) ≠ 0 := by
      intro h0
      have := str_cmp_eq_zero (strlen_take_nonul hp)
        (ValidNode.nonul (hv a (by simp))) h0
      exact hne a (by simp) this.symm
    rw [search_level]
    simp only [hl.1, hnd, hcmp, hne0, if_false]
    rw [List.pairwise_cons] at hs
    by_cases hgt : str_cmp (probe.key.take probe.length) (keyAt h a) > 0
    · have hlt : key_lt (keyAt h a) (probe.key.take probe.length) := by
        unfold key_lt; rw [str_cmp_neg]; omega
      simp only [hgt, if_true]
      rw [ih (.node a) f hl.2 (fun i hi => hv i (by simp [hi])) hs.2
        (fun i hi => hne i (by simp [hi])) (by simp at hf; omega)]
      simp [List.filter_cons, ltKey, hlt, lastRef]
    · have hlt : key_lt (probe.key.take probe.length) (keyAt h a) := by
        unfold key_lt; omega
      simp only [hgt, if_false]
      have hnone : (a :: rest).filter (ltKey h (probe.key.take probe.length)) = [] := by
        rw [List.filter_eq_nil_iff]
        intro i hi
        simp only [ltKey, decide_eq_true_eq]
        rcases List.mem_cons.mp hi with rfl | hi
        · exact key_lt_asymm hlt
        · exact key_lt_asymm (key_lt_trans hlt (hs.1 i hi))
      rw [hnone, lastRef]

/-- The inner loop on a chain that holds the probed key: it reports the node
holding it. -/
theorem search_level_present {h : Heap} {s : sorted_set} {probe : node} {L : Nat}
    (hp : strlen probe.key = some probe.length) (suffix : List Nat) :
    ∀ (r : NodeRef) (fuel : Nat), Linked h s L r suffix →
      (∀ i ∈ suffix, ValidNode h i) →
      suffix.Pairwise (fun i j => key_lt (keyAt h i) (keyAt h j)) →
      (∃ i ∈ suffix, keyAt h i = probe.key.take probe.length) →
      suffix.length < fuel →
      ∃ n r', search_level h s probe L fuel r = some (some n, r') ∧ n ∈ suffix ∧
        keyAt h n = probe.key.take probe.length := by
  induction suffix with
  | nil =>
    intro r fuel _ _ _ hex _
    obtain ⟨i, hi, _⟩ := hex
    simp at hi
  | cons a rest ih =>
    intro r fuel hl hv hs hex hf
    obtain ⟨f, rfl⟩ : ∃ f, fuel = f + 1 := ⟨fuel - 1, by simp at hf; omega⟩
    simp only [Linked] at hl
    obtain ⟨nd, hnd, hnv⟩ := hv a (by simp)
    have hka : keyAt h a = nd.key.take nd.length := by simp [keyAt, hnd]
    have hcmp := key_compare_cstr hp hnv
    rw [← hka] at hcmp
    rw [search_level]
    simp only [hl.1, hnd, hcmp]
    rw [List.pairwise_cons] at hs
    by_cases h0 : str_cmp (probe.key.take probe.length) (keyAt h a) = 0
    · have := str_cmp_eq_zero (strlen_take_nonul hp)
        (ValidNode.nonul (hv a (by simp))) h0
      exact ⟨a, r, by simp [h0], by simp, this.symm⟩
    · simp only [h0, if_false]
      obtain ⟨i, hi, hik⟩ := hex
      have hi' : i ∈ rest := by
        rcases List.mem_cons.mp hi with rfl | hi
        · rw [hik, str_cmp_self] at h0; exact absurd rfl h0
        · exact hi
      have hgt : str_cmp (probe.key.take probe.length) (keyAt h a) > 0 := by
        have := hs.1 i hi'
        rw [hik] at this
        unfold key_lt at this
        rw [str_cmp_neg] at this
        omega
      simp only [hgt, if_true]
      obtain ⟨n, r', hn, hmem, hk⟩ := ih (.node a) f hl.2
        (fun i hi => hv i (by simp [hi])) hs.2 ⟨i, hi', hik⟩ (by simp at hf; omega)
      exact ⟨n, r', hn, by simp [hmem], hk⟩

theorem lastRef_cases (r : NodeRef) (l : List Nat) :
    (l = [] ∧ lastRef r l = r) ∨ ∃ u ∈ l, lastRef r l = .node u := by
  induction l generalizing r with
  | nil => exact Or.inl ⟨rfl, rfl⟩
  | cons a l ih =>
    right
    rcases ih (.node a) with ⟨rfl, h⟩ | ⟨u, hu, h⟩
    · exact ⟨a, by simp, by simp [lastRef]⟩
    · exact ⟨u, by simp [hu], by simp [lastRef, h]⟩

theorem lastRef_concat (r : NodeRef) (l : List Nat) (u : Nat) :
    lastRef r (l ++ [u]) = .node u := by
  rw [lastRef_append]; rfl

theorem length_le_of_nodup_lt {l : List Nat} {n : Nat} (hn : l.Nodup)
    (hb : ∀ i ∈ l, i < n) : l.length ≤ n := by
  have hsub : l ⊆ List.range n := fun i hi => List.mem_range.mpr (hb i hi)
  simpa using (List.subperm_of_subset hn hsub).length_le

theorem chain_sublist (h : Heap) (order : List Nat) (L : Nat) :
    (chain h order L).Sublist order := List.filter_sublist _

theorem chain_succ (h : Heap) (order : List Nat) (L : Nat) :
    chain h order (L + 1) = (chain h order L).filter (fun i => decide (L + 1 < level h i)) := by
  unfold chain
  rw [List.filter_filter]
  apply List.filter_congr
  intro i _
  by_cases h1 : L + 1 < level h i
  · have : L < level h i := by omega
    simp [h1, this]
  · simp [h1]

theorem WF.chain_zero {h : Heap} {s : sorted_set} {order : List Nat}
    (wf : WF h s order) : chain h order 0 = order := by
  unfold chain
  rw [List.filter_eq_self]
  intro i hi
  have := (wf.lvl i hi).1
  simp; omega

theorem WF.chain_top {h : Heap} {s : sorted_set} {order : List Nat}
    (wf : WF h s order) {L : Nat} (hL : s.layers ≤ L) : chain h order L = [] := by
  unfold chain
  rw [List.filter_eq_nil_iff]
  intro i hi
  have := (wf.lvl i hi).2
  simp; omega

theorem WF.chain_sorted {h : Heap} {s : sorted_set} {order : List Nat}
    (wf : WF h s order) (L : Nat) :
    (chain h order L).Pairwise (fun i j => key_lt (keyAt h i) (keyAt h j)) :=
  wf.sorted.sublist (chain_sublist h order L)

theorem WF.chain_length {h : Heap} {s : sorted_set} {order : List Nat}
    (wf : WF h s order) (L : Nat) : (chain h order L).length ≤ h.length :=
  le_trans (chain_sublist h order L).length_le
    (length_le_of_nodup_lt wf.nodup (fun i hi => (wf.valid i hi).lt))

/-- The level-`L` chain splits at the node the search enters the level with:
everything up to that node has a smaller key than the probe. -/
theorem WF.chain_split {h : Heap} {s : sorted_set} {order : List Nat}
    (wf : WF h s order) (k : List Int) (L : Nat) :
    ∃ A B, chain h order L = A ++ B ∧ lastRef .set A = updateRef h order k (L + 1) ∧
      ∀ i ∈ A, ltKey h k i = true := by
  rcases lastRef_cases .set ((chain h order (L + 1)).filter (ltKey h k)) with
    ⟨_, h2⟩ | ⟨u, hu, h2⟩
  · exact ⟨[], chain h order L, rfl, by rw [updateRef, h2]; rfl, by simp⟩
  · have hu1 := List.mem_filter.mp hu
    have huC : u ∈ chain h order L := by
      have := hu1.1
      rw [chain_succ] at this
      exact (List.mem_filter.mp this).1
    obtain ⟨A, B, hAB⟩ := List.append_of_mem huC
    refine ⟨A ++ [u], B, by simp [hAB], ?_, ?_⟩
    · rw [updateRef, h2, lastRef_concat]
    · intro i hi
      rcases List.mem_append.mp hi with hi | hi
      · have hs := wf.chain_sorted L
        rw [hAB, List.pairwise_append] at hs
        have hlt := hs.2.2 i hi u (by simp)
        have hk : key_lt (keyAt h u) k := by simpa [ltKey] using hu1.2
        simpa [ltKey] using key_lt_trans hlt hk
      · simp only [List.mem_singleton] at hi
        rw [hi]; exact hu1.2

/-- One level of the search in a well-formed set, entered with the node the
level above ended at: either a node with the probed key is met, or the
level ends at the last node with a smaller key and holds no node with the
probed key. -/
theorem WF.level_walk {h : Heap} {s : sorted_set} {order : List Nat}
    (wf : WF h s order) {probe : node} (hp : strlen probe.key = some probe.length)
    {L : Nat} (hL : L < s.layers) :
    (∃ n r', search_level h s probe L (h.length + 1)
        (updateRef h order (probe.key.take probe.length) (L + 1)) = some (some n, r') ∧
        n ∈ order ∧ keyAt h n = probe.key.take probe.length) ∨
    (search_level h s probe L (h.length + 1)
        (updateRef h order (probe.key.take probe.length) (L + 1)) =
        some (none, updateRef h order (probe.key.take probe.length) L) ∧
      ∀ i ∈ chain h order L, keyAt h i ≠ probe.key.take probe.length) := by
  obtain ⟨A, B, hAB, hA, hAP⟩ := wf.chain_split (probe.key.take probe.length) L
  have hlink : Linked h s L (updateRef h order (probe.key.take probe.length) (L + 1)) B := by
    have := wf.linked L hL
    rw [hAB] at this
    rw [← hA]
    exact Linked_append this
  have hBsub : ∀ i ∈ B, i ∈ order := fun i hi =>
    (chain_sublist h order L).subset (by rw [hAB]; simp [hi])
  have hBv : ∀ i ∈ B, ValidNode h i := fun i hi => wf.valid i (hBsub i hi)
  have hBs : B.Pairwise (fun i j => key_lt (keyAt h i) (keyAt h j)) := by
    have := wf.chain_sorted L
    rw [hAB, List.pairwise_append] at this
    exact this.2.1
  have hBl : B.length < h.length + 1 := by
    have := wf.chain_length L
    rw [hAB, List.length_append] at this
    omega
  by_cases hex : ∃ i ∈ B, keyAt h i = probe.key.take probe.length
  · left
    obtain ⟨n, r', hn, hmem, hk⟩ := search_level_present hp B _ _ hlink hBv hBs hex hBl
    exact ⟨n, r', hn, hBsub n hmem, hk⟩
  · right
    have hne : ∀ i ∈ B, keyAt h i ≠ probe.key.take probe.length := by
      intro i hi hk; exact hex ⟨i, hi, hk⟩
    refine ⟨?_, ?_⟩
    · rw [search_level_absent hp B _ _ hlink hBv hBs hne hBl]
      have hfa : A.filter (ltKey h (probe.key.take probe.length)) = A :=
        List.filter_eq_self.mpr hAP
      have hU : updateRef h order (probe.key.take probe.length) L =
          lastRef (updateRef h order (probe.key.take probe.length) (L + 1))
            (B.filter (ltKey h (probe.key.take probe.length))) := by
        rw [← hA]
        show lastRef .set ((chain h order L).filter _) = _
        rw [hAB, List.filter_append, hfa, lastRef_append]
      rw [hU]
    · intro i hi
      rw [hAB] at hi
      rcases List.mem_append.mp hi with hi | hi
      · intro hk
        have := hAP i hi
        simp only [ltKey, decide_eq_true_eq, hk] at this
        exact key_lt_irrefl _ this
      · exact hne i hi

/-- In a well-formed set that does not hold the probed key, the search of
`sorted_set_add_key` fills `update[j]`, for every level `j` it passes, with
the last node of level `j` whose key is smaller. -/
theorem WF.search_absent {h : Heap} {s : sorted_set} {order : List Nat}
    (wf : WF h s order) {probe : node} (hp : strlen probe.key = some probe.length)
    (habs : ∀ i ∈ order, keyAt h i ≠ probe.key.take probe.length) :
    ∀ (L : Nat) (update : List (Option NodeRef)), L < s.layers →
      update.length = s.layers →
      ∃ upd, search h s probe L (updateRef h order (probe.key.take probe.length) (L + 1))
          update = some (some upd) ∧ upd.length = s.layers ∧
        (∀ j, j ≤ L → upd[j]? = some (some (updateRef h order (probe.key.take probe.length) j))) ∧
        (∀ j, L < j → upd[j]? = update[j]?) := by
  intro L
  induction L with
  | zero =>
    intro update hL hlen
    rcases wf.level_walk hp hL with ⟨n, r', _, hmem, hk⟩ | ⟨hw, _⟩
    · exact absurd hk (habs n hmem)
    · refine ⟨update.set 0 (some (updateRef h order (probe.key.take probe.length) 0)), ?_, ?_, ?_, ?_⟩
      · rw [search, hw]
      · simp [hlen]
      · intro j hj
        have : j = 0 := by omega
        subst this
        rw [List.getElem?_set_self]
        omega
      · intro j hj
        rw [List.getElem?_set_ne]
        omega
  | succ L ih =>
    intro update hL hlen
    rcases wf.level_walk hp hL with ⟨n, r', _, hmem, hk⟩ | ⟨hw, _⟩
    · exact absurd hk (habs n hmem)
    · obtain ⟨upd, h1, h2, h3, h4⟩ := ih
        (update.set (L + 1) (some (updateRef h order (probe.key.take probe.length) (L + 1))))
        (by omega) (by simp [hlen])
      refine ⟨upd, ?_, h2, ?_, ?_⟩
      · rw [search, hw]; exact h1
      · intro j hj
        by_cases hj' : j ≤ L
        · exact h3 j hj'
        · have : j = L + 1 := by omega
          subst this
          rw [h4 (L + 1) (by omega), List.getElem?_set_self]
          omega
      · intro j hj
        rw [h4 j (by omega), List.getElem?_set_ne]
        omega

/-- In a well-formed set that holds the probed key, the search of
`sorted_set_add_key` takes the DUPLICATE exit. -/
theorem WF.search_present {h : Heap} {s : sorted_set} {order : List Nat}
    (wf : WF h s order) {probe : node} (hp : strlen probe.key = some probe.length)
    (hex : ∃ i ∈ order, keyAt h i = probe.key.take probe.length) :
    ∀ (L : Nat) (update : List (Option NodeRef)), L < s.layers →
      search h s probe L (updateRef h order (probe.key.take probe.length) (L + 1))
        update = some none := by
  intro L
  induction L with
  | zero =>
    intro update hL
    rcases wf.level_walk hp hL with ⟨n, r', hw, _, _⟩ | ⟨_, hne⟩
    · rw [search, hw]
    · obtain ⟨i, hi, hk⟩ := hex
      rw [wf.chain_zero] at hne
      exact absurd hk (hne i hi)
  | succ L ih =>
    intro update hL
    rcases wf.level_walk hp hL with ⟨n, r', hw, _, _⟩ | ⟨hw, _⟩
    · rw [search, hw]
    · rw [search, hw]
      exact ih _ (by omega)

theorem WF.updateRef_top {h : Heap} {s : sorted_set} {order : List Nat}
    (wf : WF h s order) (k : List Int) {L : Nat} (hL : s.layers ≤ L) :
    updateRef h order k L = .set := by
  rw [updateRef, wf.chain_top hL]; rfl

theorem SameShape.refl (h : Heap) (s : sorted_set) : SameShape h h s s :=
  ⟨rfl, fun _ nd hnd => ⟨nd, hnd, rfl, rfl, rfl, rfl⟩, rfl, rfl, rfl⟩

theorem SameShape.trans {h₁ h₂ h₃ : Heap} {s₁ s₂ s₃ : sorted_set}
    (a : SameShape h₁ h₂ s₁ s₂) (b : SameShape h₂ h₃ s₂ s₃) : SameShape h₁ h₃ s₁ s₃ := by
  refine ⟨by rw [b.len, a.len], ?_, by rw [b.layers, a.layers], by rw [b.size, a.size],
    by rw [b.nlen, a.nlen]⟩
  intro i nd hnd
  obtain ⟨nd₂, h2, k2, l2, d2, n2⟩ := a.flds i nd hnd
  obtain ⟨nd₃, h3, k3, l3, d3, n3⟩ := b.flds i nd₂ h2
  exact ⟨nd₃, h3, by rw [k3, k2], by rw [l3, l2], by rw [d3, d2], by rw [n3, n2]⟩

theorem SameShape.level {h h' : Heap} {s s' : sorted_set} (a : SameShape h h' s s')
    (i : Nat) : SortedSet.level h' i = SortedSet.level h i := by
  unfold SortedSet.level
  rcases hi : h[i]? with _ | nd
  · have : h'[i]? = none := by
      rw [List.getElem?_eq_none_iff] at hi ⊢
      rw [a.len]; exact hi
    simp [this]
  · obtain ⟨nd', h2, _, _, _, n2⟩ := a.flds i nd hi
    simp [h2, n2]

theorem SameShape.keyAt {h h' : Heap} {s s' : sorted_set} (a : SameShape h h' s s')
    (i : Nat) : SortedSet.keyAt h' i = SortedSet.keyAt h i := by
  unfold SortedSet.keyAt
  rcases hi : h[i]? with _ | nd
  · have : h'[i]? = none := by
      rw [List.getElem?_eq_none_iff] at hi ⊢
      rw [a.len]; exact hi
    simp [this]
  · obtain ⟨nd', h2, k2, l2, _, _⟩ := a.flds i nd hi
    simp [h2, k2, l2]

theorem SameShape.valid {h h' : Heap} {s s' : sorted_set} (a : SameShape h h' s s')
    {i : Nat} (hv : ValidNode h i) : ValidNode h' i := by
  obtain ⟨nd, hnd, hs⟩ := hv
  obtain ⟨nd', h2, k2, l2, _, _⟩ := a.flds i nd hnd
  exact ⟨nd', h2, by rw [k2, l2]; exact hs⟩

/-- A write to a `next` slot that exists succeeds; it changes what that slot
reads as and nothing else. -/
theorem store_next_spec {h : Heap} {s : sorted_set} {r : NodeRef} {L : Nat}
    (v : Option Nat) (hin : ∃ w, load_next h s r L = some w) :
    ∃ h' s', store_next h s r L v = some (h', s') ∧ SameShape h h' s s' ∧
      (∀ r' L', load_next h' s' r' L' =
        if r' = r ∧ L' = L then some v else load_next h s r' L') ∧
      (∀ j, r ≠ .node j → h'[j]? = h[j]?) := by
  obtain ⟨w, hw⟩ := hin
  cases r with
  | set =>
    simp only [load_next, next_array, Option.some_bind] at hw
    have hlt : L < s.next.length := (List.getElem?_eq_some_iff.mp hw).1
    refine ⟨h, { s with next := s.next.set L v }, by simp [store_next, hlt], ?_, ?_, ?_⟩
    · exact ⟨rfl, fun _ nd hnd => ⟨nd, hnd, rfl, rfl, rfl, rfl⟩, rfl, rfl, by simp⟩
    · intro r' L'
      cases r' with
      | set =>
        simp only [load_next, next_array, Option.some_bind, true_and]
        by_cases hLL : L' = L
        · subst hLL; simp [hlt]
        · rw [List.getElem?_set_ne (fun h => hLL h.symm)]; simp [hLL]
      | node j => simp [load_next, next_array]
    · intro j _; rfl
  | node i =>
    simp only [load_next, next_array] at hw
    rcases hi : h[i]? with _ | nd
    · simp [hi] at hw
    · simp only [hi, Option.map_some', Option.some_bind] at hw
      have hlt : L < nd.next.length := (List.getElem?_eq_some_iff.mp hw).1
      have hil : i < h.length := (List.getElem?_eq_some_iff.mp hi).1
      refine ⟨h.set i { nd with next := nd.next.set L v }, s,
        by simp [store_next, hi, hlt], ?_, ?_, ?_⟩
      · refine ⟨by simp, ?_, rfl, rfl, rfl⟩
        intro j ndj hj
        by_cases hij : i = j
        · subst hij
          rw [hi] at hj
          cases hj
          exact ⟨{ nd with next := nd.next.set L v }, by rw [List.getElem?_set_self hil],
            rfl, rfl, rfl, by simp⟩
        · exact ⟨ndj, by rw [List.getElem?_set_ne hij]; exact hj, rfl, rfl, rfl, rfl⟩
      · intro r' L'
        cases r' with
        | set => simp [load_next, next_array]
        | node j =>
          by_cases hij : i = j
          · subst hij
            simp only [load_next, next_array, List.getElem?_set_self hil, hi,
              Option.map_some', Option.some_bind, true_and]
            by_cases hLL : L' = L
            · subst hLL; simp [hlt]
            · rw [List.getElem?_set_ne (fun h => hLL h.symm)]; simp [hLL]
          · have : ¬ (NodeRef.node j = NodeRef.node i) := by
              intro hc; cases hc; exact hij rfl
            simp only [load_next, next_array, List.getElem?_set_ne hij, this, false_and,
              if_false]
      · intro j hj
        have hij : i ≠ j := by
          intro hc; subst hc; exact hj rfl
        rw [List.getElem?_set_ne hij]

/-- The splice loop over levels `0 .. m-1`: at each of these levels the new
node takes over the successor of `update[L]`, and `update[L]` points to the
new node; nothing else changes. -/
theorem splice_loop_spec {h1 : Heap} {s1 : sorted_set} (new : Nat)
    (update : List (Option NodeRef)) (U : Nat → NodeRef) (m : Nat)
    (hU : ∀ i, i < m → update[i]? = some (some (U i)))
    (hUn : ∀ i, i < m → U i ≠ .node new)
    (hUl : ∀ i, i < m → ∃ w, load_next h1 s1 (U i) i = some w)
    (hnl : ∀ i, i < m → ∃ w, load_next h1 s1 (.node new) i = some w) :
    ∃ h2 s2, (List.range m).foldlM (splice_step new update) (h1, s1) = some (h2, s2) ∧
      SameShape h1 h2 s1 s2 ∧
      (∀ r L, load_next h2 s2 r L =
        if L < m then
          (if r = .node new then load_next h1 s1 (U L) L
           else if r = U L then some (some new) else load_next h1 s1 r L)
        else load_next h1 s1 r L) ∧
      (∀ j, j ≠ new → (∀ L, L < m → U L ≠ .node j) → h2[j]? = h1[j]?) := by
  induction m with
  | zero =>
    exact ⟨h1, s1, by simp, SameShape.refl _ _, by simp, fun _ _ _ => rfl⟩
  | succ m ih =>
    obtain ⟨h2, s2, hf, hsh, hld, hfr⟩ := ih (fun i hi => hU i (by omega))
      (fun i hi => hUn i (by omega)) (fun i hi => hUl i (by omega))
      (fun i hi => hnl i (by omega))
    obtain ⟨w, hw⟩ := hUl m (by omega)
    have hw2 : load_next h2 s2 (U m) m = some w := by rw [hld]; simpa using hw
    obtain ⟨w', hw'⟩ := hnl m (by omega)
    have hn2 : load_next h2 s2 (.node new) m = some w' := by rw [hld]; simpa using hw'
    obtain ⟨h3, s3, hst3, hsh3, hld3, hfr3⟩ := store_next_spec w ⟨w', hn2⟩
    have hw3 : load_next h3 s3 (U m) m = some w := by
      rw [hld3]
      have := hUn m (by omega)
      simp [this, hw2]
    obtain ⟨h4, s4, hst4, hsh4, hld4, hfr4⟩ := store_next_spec (some new) ⟨w, hw3⟩
    refine ⟨h4, s4, ?_, (hsh.trans hsh3).trans hsh4, ?_, ?_⟩
    · rw [List.range_succ, List.foldlM_append, hf]
      simp [splice_step, hU m (by omega), hw2, hst3, hst4]
    · intro r L
      rw [hld4, hld3, hld]
      have hUm := hUn m (by omega)
      by_cases hLm : L = m
      · subst hLm
        by_cases hr1 : r = U L
        · subst hr1; simp [hUm]
        · by_cases hr2 : r = .node new
          · subst hr2; simp [hr1, hw]
          · simp [hr1, hr2]
      · have h1 : (L < m + 1) = (L < m) := by
          apply propext; constructor <;> intro <;> omega
        simp only [hLm, and_false, if_false, h1]
    · intro j hj hUj
      rw [hfr4 j (hUj m (by omega)), hfr3 j (by intro hc; cases hc; exact hj rfl)]
      exact hfr j hj (fun L hL => hUj L (by omega))

/-- The loop over the added levels `a .. a+c-1`: the head points to the new
node and the new node to `NULL`; nothing else changes. -/
theorem grow_loop_spec {h1 : Heap} {s1 : sorted_set} (new : Nat) (a c : Nat)
    (hsl : ∀ i, a ≤ i → i < a + c → ∃ w, load_next h1 s1 .set i = some w)
    (hnl : ∀ i, a ≤ i → i < a + c → ∃ w, load_next h1 s1 (.node new) i = some w) :
    ∃ h2 s2, (List.range' a c).foldlM (grow_step new) (h1, s1) = some (h2, s2) ∧
      SameShape h1 h2 s1 s2 ∧
      (∀ r L, load_next h2 s2 r L =
        if a ≤ L ∧ L < a + c then
          (if r = .set then some (some new)
           else if r = .node new then some none else load_next h1 s1 r L)
        else load_next h1 s1 r L) ∧
      (∀ j, j ≠ new → h2[j]? = h1[j]?) := by
  induction c with
  | zero =>
    refine ⟨h1, s1, by simp, SameShape.refl _ _, ?_, fun _ _ => rfl⟩
    intro r L
    have : ¬ (a ≤ L ∧ L < a + 0) := by omega
    rw [if_neg this]
  | succ c ih =>
    obtain ⟨h2, s2, hf, hsh, hld, hfr⟩ := ih (fun i h1 h2 => hsl i h1 (by omega))
      (fun i h1 h2 => hnl i h1 (by omega))
    have hnot : ¬ (a ≤ a + c ∧ a + c < a + c) := by omega
    obtain ⟨w, hw⟩ := hsl (a + c) (by omega) (by omega)
    have hw2 : load_next h2 s2 .set (a + c) = some w := by rw [hld]; simpa [hnot] using hw
    obtain ⟨h3, s3, hst3, hsh3, hld3, hfr3⟩ := store_next_spec (some new) ⟨w, hw2⟩
    obtain ⟨w', hw'⟩ := hnl (a + c) (by omega) (by omega)
    have hn3 : load_next h3 s3 (.node new) (a + c) = some w' := by
      rw [hld3, hld]; simpa [hnot] using hw'
    obtain ⟨h4, s4, hst4, hsh4, hld4, hfr4⟩ := store_next_spec none ⟨w', hn3⟩
    refine ⟨h4, s4, ?_, (hsh.trans hsh3).trans hsh4, ?_, ?_⟩
    · rw [List.range'_1_concat, List.foldlM_append, hf]
      simp [grow_step, hst3, hst4]
    · intro r L
      rw [hld4, hld3, hld]
      by_cases hLm : L = a + c
      · subst hLm
        have hin : a ≤ a + c ∧ a + c < a + (c + 1) := by omega
        by_cases hr1 : r = .node new
        · subst hr1; simp [hin]
        · by_cases hr2 : r = .set
          · subst hr2; simp [hin]
          · simp [hr1, hr2, hin, hnot]
      · have h1 : (a ≤ L ∧ L < a + (c + 1)) = (a ≤ L ∧ L < a + c) := by
          apply propext; constructor <;> intro <;> omega
        simp only [hLm, and_false, if_false, h1]
    · intro j hj
      rw [hfr4 j (by intro hc; cases hc; exact hj rfl), hfr3 j (by intro hc; cases hc)]
      exact hfr j hj

/-! ## Inserting a node into the chains -/

theorem Linked_start_congr {h h' : Heap} {s s' : sorted_set} {L : Nat} {r r' : NodeRef}
    {l : List Nat} (hl : Linked h s L r l)
    (hr : load_next h' s' r' L = load_next h s r L)
    (hx : ∀ a ∈ l, load_next h' s' (.node a) L = load_next h s (.node a) L) :
    Linked h' s' L r' l := by
  cases l with
  | nil => simpa [Linked, hr] using hl
  | cons a l =>
    simp only [Linked] at hl ⊢
    refine ⟨by rw [hr]; exact hl.1, Linked_congr hl.2 (hx a (by simp)) ?_⟩
    intro b hb
    exact hx b (by simp [hb])

/-- Splicing a fresh node `new` behind the last node of `pre` turns the chain
`pre ++ post` into `pre ++ new :: post`. -/
theorem Linked_insert {h h' : Heap} {s s' : sorted_set} {L : Nat} {new : Nat}
    (pre post : List Nat) :
    ∀ (r : NodeRef), Linked h s L r (pre ++ post) → (pre ++ post).Nodup →
      new ∉ pre ++ post → r ≠ .node new → (∀ a ∈ pre ++ post, r ≠ .node a) →
      load_next h' s' (.node new) L = load_next h s (lastRef r pre) L →
      load_next h' s' (lastRef r pre) L = some (some new) →
      (∀ x, x ≠ .node new → x ≠ lastRef r pre → (x = r ∨ ∃ a ∈ pre ++ post, x = .node a) →
        load_next h' s' x L = load_next h s x L) →
      Linked h' s' L r (pre ++ new :: post) := by
  induction pre with
  | nil =>
    intro r hl hnd hnew hr hrp h1 h2 h3
    simp only [List.nil_append, lastRef] at *
    refine ⟨h2, Linked_start_congr hl h1 ?_⟩
    intro a ha
    apply h3
    · intro hc; cases hc; exact hnew ha
    · exact fun hc => hrp a ha hc.symm
    · exact Or.inr ⟨a, ha, rfl⟩
  | cons a pre ih =>
    intro r hl hnd hnew hr hrp h1 h2 h3
    simp only [List.cons_append, Linked, lastRef] at *
    have hnd' := List.nodup_cons.mp hnd
    refine ⟨?_, ih (.node a) hl.2 hnd'.2 ?_ ?_ ?_ h1 h2 ?_⟩
    · rw [h3 r hr ?_ (Or.inl rfl)]
      · exact hl.1
      · rcases lastRef_cases (.node a) pre with ⟨_, h⟩ | ⟨u, hu, h⟩
        · rw [h]; exact hrp a (by simp)
        · rw [h]; exact hrp u (by simp [hu])
    · intro hc; exact hnew (by simp [hc])
    · intro hc; cases hc; exact hnew (by simp)
    · intro b hb hc
      cases hc
      exact hnd'.1 hb
    · intro x hx1 hx2 hx3
      apply h3 x hx1 hx2
      rcases hx3 with rfl | ⟨b, hb, rfl⟩
      · exact Or.inr ⟨a, by simp, rfl⟩
      · exact Or.inr ⟨b, by simp [hb], rfl⟩

theorem chain_append (h : Heap) (l₁ l₂ : List Nat) (L : Nat) :
    chain h (l₁ ++ l₂) L = chain h l₁ L ++ chain h l₂ L := by
  simp [chain]

theorem chain_congr {h h' : Heap} {l : List Nat} (L : Nat)
    (hl : ∀ i ∈ l, level h' i = level h i) : chain h' l L = chain h l L := by
  unfold chain
  apply List.filter_congr
  intro i hi
  rw [hl i hi]

theorem mem_chain {h : Heap} {l : List Nat} {L i : Nat} (hi : i ∈ chain h l L) : i ∈ l :=
  (List.mem_filter.mp hi).1

/-- A sorted list splits into the nodes with key below `k` followed by the
others. -/
theorem sorted_split {h : Heap} {k : List Int} {l : List Nat}
    (hs : l.Pairwise (fun i j => key_lt (keyAt h i) (keyAt h j))) :
    l = l.filter (ltKey h k) ++ l.filter (fun i => !ltKey h k i) := by
  induction l with
  | nil => rfl
  | cons a l ih =>
    rw [List.pairwise_cons] at hs
    by_cases hp : ltKey h k a = true
    · simp only [List.filter_cons, hp, if_true, Bool.not_true, Bool.false_eq_true, if_false,
        List.cons_append]
      rw [← ih hs.2]
    · have hnone : l.filter (ltKey h k) = [] := by
        rw [List.filter_eq_nil_iff]
        intro i hi hpi
        apply hp
        simp only [ltKey, decide_eq_true_eq] at hpi ⊢
        exact key_lt_trans (hs.1 i hi) hpi
      have hall : l.filter (fun i => !ltKey h k i) = l := by
        rw [List.filter_eq_self]
        intro i hi
        have : ¬ ltKey h k i = true := by
          intro hpi
          have : i ∈ l.filter (ltKey h k) := List.mem_filter.mpr ⟨hi, hpi⟩
          rw [hnone] at this
          simp at this
        simpa using this
      simp only [List.filter_cons, hp, if_false, Bool.not_eq_true] at *
      simp [hp, hnone, hall]

theorem updateRef_split {h : Heap} {k : List Int} {pre post : List Nat} (L : Nat)
    (hpre : ∀ i ∈ pre, ltKey h k i = true) (hpost : ∀ i ∈ post, ¬ ltKey h k i = true) :
    updateRef h (pre ++ post) k L = lastRef .set (chain h pre L) := by
  unfold updateRef
  rw [chain_append, List.filter_append]
  have h1 : (chain h pre L).filter (ltKey h k) = chain h pre L :=
    List.filter_eq_self.mpr (fun i hi => hpre i (mem_chain hi))
  have h2 : (chain h post L).filter (ltKey h k) = [] :=
    List.filter_eq_nil_iff.mpr (fun i hi => hpost i (mem_chain hi))
  rw [h1, h2, List.append_nil]

theorem Spliced.level_old {h : Heap} {s : sorted_set} {pre : List Nat} {key : List Int}
    {len data new_level : Nat} {h' : Heap} {s' : sorted_set}
    (sp : Spliced h s pre key len data new_level h' s') {i : Nat} (hi : i < h.length) :
    level h' i = level h i := by
  obtain ⟨nd, hnd⟩ : ∃ nd, h[i]? = some nd := ⟨h[i], List.getElem?_eq_getElem hi⟩
  obtain ⟨nd', h2, _, _, _, n2⟩ := sp.old i nd hnd
  simp [level, hnd, h2, n2]

theorem Spliced.keyAt_old {h : Heap} {s : sorted_set} {pre : List Nat} {key : List Int}
    {len data new_level : Nat} {h' : Heap} {s' : sorted_set}
    (sp : Spliced h s pre key len data new_level h' s') {i : Nat} (hi : i < h.length) :
    keyAt h' i = keyAt h i := by
  obtain ⟨nd, hnd⟩ : ∃ nd, h[i]? = some nd := ⟨h[i], List.getElem?_eq_getElem hi⟩
  obtain ⟨nd', h2, k2, l2, _, _⟩ := sp.old i nd hnd
  simp [keyAt, hnd, h2, k2, l2]

theorem Spliced.level_new {h : Heap} {s : sorted_set} {pre : List Nat} {key : List Int}
    {len data new_level : Nat} {h' : Heap} {s' : sorted_set}
    (sp : Spliced h s pre key len data new_level h' s') : level h' h.length = new_level := by
  obtain ⟨nd, h2, _, _, _, n2⟩ := sp.fresh
  simp [level, h2, n2]

theorem Spliced.keyAt_new {h : Heap} {s : sorted_set} {pre : List Nat} {key : List Int}
    {len data new_level : Nat} {h' : Heap} {s' : sorted_set}
    (sp : Spliced h s pre key len data new_level h' s') :
    keyAt h' h.length = key.take len := by
  obtain ⟨nd, h2, k2, l2, _, _⟩ := sp.fresh
  simp [keyAt, h2, k2, l2]

theorem WF.toSWF {h : Heap} {s : sorted_set} {order : List Nat} (wf : WF h s order) :
    SWF h s order :=
  ⟨wf.layers_pos, wf.next_len, wf.size_eq, wf.nodup, fun i hi => (wf.valid i hi).lt, wf.lvl,
    wf.linked⟩

/-- Splicing a node in behind a prefix `pre` of the nodes of a set keeps the
structure of the skip list. -/
theorem SWF_of_spliced {h : Heap} {s : sorted_set} {pre post : List Nat} {key : List Int}
    {len data new_level : Nat} {h' : Heap} {s' : sorted_set}
    (wf : SWF h s (pre ++ post)) (hlev : 1 ≤ new_level)
    (sp : Spliced h s pre key len data new_level h' s') :
    SWF h' s' (pre ++ h.length :: post) := by
  have hlt : ∀ i ∈ pre ++ post, i < h.length := wf.bound
  have hnew : h.length ∉ pre ++ post := fun hc => Nat.lt_irrefl _ (hlt _ hc)
  have hlvl : ∀ i ∈ pre ++ post, level h' i = level h i := fun i hi => sp.level_old (hlt i hi)
  have htop : ∀ {L : Nat}, s.layers ≤ L → chain h (pre ++ post) L = [] := by
    intro L hL
    unfold chain
    rw [List.filter_eq_nil_iff]
    intro i hi
    have := (wf.lvl i hi).2
    simp; omega
  have hchain : ∀ L, chain h' (pre ++ h.length :: post) L =
      chain h pre L ++ (if L < new_level then [h.length] else []) ++ chain h post L := by
    intro L
    have e1 : chain h' pre L = chain h pre L :=
      chain_congr L (fun i hi => hlvl i (by simp [hi]))
    have e2 : chain h' post L = chain h post L :=
      chain_congr L (fun i hi => hlvl i (by simp [hi]))
    have e3 : chain h' [h.length] L = if L < new_level then [h.length] else [] := by
      simp only [chain, List.filter_cons, List.filter_nil, sp.level_new]
      by_cases hL : L < new_level <;> simp [hL]
    have : pre ++ h.length :: post = pre ++ ([h.length] ++ post) := by simp
    rw [this, chain_append, chain_append, e1, e2, e3, List.append_assoc]
  refine ⟨?_, sp.nlen, ?_, ?_, ?_, ?_, ?_⟩
  · rw [sp.layers]; have := wf.layers_pos; omega
  · rw [sp.size, wf.size_eq]; simp; omega
  · have := wf.nodup
    rw [List.nodup_append] at this ⊢
    refine ⟨this.1, ?_, ?_⟩
    · rw [List.nodup_cons]
      exact ⟨fun hc => hnew (by simp [hc]), this.2.1⟩
    · intro a ha hb
      rcases List.mem_cons.mp hb with rfl | hb
      · exact hnew (by simp [ha])
      · exact this.2.2 ha hb
  · intro i hi
    have hi' : i = h.length ∨ i ∈ pre ++ post := by
      simp only [List.mem_append, List.mem_cons] at hi ⊢
      tauto
    rcases hi' with rfl | hi'
    · rw [sp.hlen]; omega
    · have := hlt i hi'
      rw [sp.hlen]; omega
  · intro i hi
    have hi' : i = h.length ∨ i ∈ pre ++ post := by
      simp only [List.mem_append, List.mem_cons] at hi ⊢
      tauto
    rcases hi' with rfl | hi'
    · rw [sp.level_new, sp.layers]; omega
    · rw [hlvl i hi', sp.layers]
      have := wf.lvl i hi'
      omega
  · intro L hL
    rw [hchain]
    rw [sp.layers] at hL
    by_cases h1 : L < s.layers
    · have hold := wf.linked L h1
      rw [chain_append] at hold
      have hsub : ∀ a ∈ chain h pre L ++ chain h post L, a ∈ pre ++ post := by
        intro a ha
        rw [← chain_append] at ha
        exact mem_chain ha
      by_cases h2 : L < new_level
      · simp only [h2, if_true, List.append_assoc, List.singleton_append]
        obtain ⟨l1, l2, l3⟩ := sp.lo L h1 h2
        apply Linked_insert _ _ .set hold
        · rw [← chain_append]
          exact wf.nodup.sublist (chain_sublist _ _ _)
        · exact fun hc => hnew (hsub _ hc)
        · intro hc; cases hc
        · intro a _ hc; cases hc
        · exact l1
        · exact l2
        · intro x hx1 hx2 hx3
          apply l3 x hx1 hx2
          rcases hx3 with rfl | ⟨a, ha, rfl⟩
          · exact Or.inl rfl
          · exact Or.inr ⟨a, hlt a (hsub a ha), rfl⟩
      · simp only [h2, if_false, List.append_nil]
        apply Linked_congr hold
        · exact sp.mid L (by omega) h1 _ (Or.inl rfl)
        · intro a ha
          exact sp.mid L (by omega) h1 _ (Or.inr ⟨a, hlt a (hsub a ha), rfl⟩)
    · have h2 : L < new_level := by omega
      have e1 : chain h pre L = [] := by
        have := htop (by omega : s.layers ≤ L)
        rw [chain_append, List.append_eq_nil] at this
        exact this.1
      have e2 : chain h post L = [] := by
        have := htop (by omega : s.layers ≤ L)
        rw [chain_append, List.append_eq_nil] at this
        exact this.2
      simp only [e1, e2, h2, if_true, List.nil_append, List.append_nil, Linked]
      exact sp.hi L (by omega) h2

/-- Splicing a node with a new key into a well-formed set, at the place its
key belongs to, gives a well-formed set. -/
theorem WF_of_spliced {h : Heap} {s : sorted_set} {pre post : List Nat} {key : List Int}
    {len data new_level : Nat} {h' : Heap} {s' : sorted_set}
    (wf : WF h s (pre ++ post))
    (hpre : ∀ i ∈ pre, key_lt (keyAt h i) (key.take len))
    (hpost : ∀ i ∈ post, key_lt (key.take len) (keyAt h i))
    (hv : strlen key = some len) (hlev : 1 ≤ new_level)
    (sp : Spliced h s pre key len data new_level h' s') :
    WF h' s' (pre ++ h.length :: post) := by
  have swf := SWF_of_spliced wf.toSWF hlev sp
  have hlt : ∀ i ∈ pre ++ post, i < h.length := fun i hi => (wf.valid i hi).lt
  have hkey : ∀ i ∈ pre ++ post, keyAt h' i = keyAt h i := fun i hi => sp.keyAt_old (hlt i hi)
  refine ⟨swf.layers_pos, swf.next_len, swf.size_eq, swf.nodup, swf.lvl, ?_, ?_, swf.linked⟩
  · intro i hi
    have hi' : i = h.length ∨ i ∈ pre ++ post := by
      simp only [List.mem_append, List.mem_cons] at hi ⊢
      tauto
    rcases hi' with rfl | hi'
    · obtain ⟨nd, h2, k2, l2, _, _⟩ := sp.fresh
      exact ⟨nd, h2, by rw [k2, l2]; exact hv⟩
    · obtain ⟨nd, hnd, hs⟩ := wf.valid i hi'
      obtain ⟨nd', h2, k2, l2, _, _⟩ := sp.old i nd hnd
      exact ⟨nd', h2, by rw [k2, l2]; exact hs⟩
  · have hs := wf.sorted
    rw [List.pairwise_append] at hs ⊢
    refine ⟨?_, ?_, ?_⟩
    · exact hs.1.imp_of_mem (fun {a b} ha hb hab => by
        rw [hkey a (by simp [ha]), hkey b (by simp [hb])]; exact hab)
    · rw [List.pairwise_cons]
      refine ⟨?_, hs.2.1.imp_of_mem (fun {a b} ha hb hab => by
        rw [hkey a (by simp [ha]), hkey b (by simp [hb])]; exact hab)⟩
      intro b hb
      rw [sp.keyAt_new, hkey b (by simp [hb])]
      exact hpost b hb
    · intro a ha b hb
      rcases List.mem_cons.mp hb with rfl | hb
      · rw [sp.keyAt_new, hkey a (by simp [ha])]
        exact hpre a ha
      · rw [hkey a (by simp [ha]), hkey b (by simp [hb])]
        exact hs.2.2 a ha b hb

theorem load_next_next_congr {s s' : sorted_set} (h : Heap) (hn : s'.next = s.next)
    (r : NodeRef) (L : Nat) : load_next h s' r L = load_next h s r L := by
  cases r <;> simp [load_next, next_array, hn]

theorem load_next_append_old {h : Heap} {s s' : sorted_set} (t : Heap)
    (hn : s'.next = s.next) {x : NodeRef}
    (hx : x = .set ∨ ∃ a, a < h.length ∧ x = .node a) (L : Nat) :
    load_next (h ++ t) s' x L = load_next h s x L := by
  rcases hx with rfl | ⟨a, ha, rfl⟩
  · simp [load_next, next_array, hn]
  · simp [load_next, next_array, List.getElem?_append_left ha]

theorem lastRef_chain_old {h : Heap} {pre : List Nat} (hlt : ∀ i ∈ pre, i < h.length)
    (L : Nat) :
    (lastRef .set (chain h pre L) = .set ∨
      ∃ a, a < h.length ∧ lastRef .set (chain h pre L) = .node a) ∧
    (∀ j, lastRef .set (chain h pre L) = .node j → j ∈ pre) := by
  rcases lastRef_cases .set (chain h pre L) with ⟨_, h2⟩ | ⟨u, hu, h2⟩
  · exact ⟨Or.inl h2, fun j hj => by rw [h2] at hj; cases hj⟩
  · refine ⟨Or.inr ⟨u, hlt u (mem_chain hu), h2⟩, fun j hj => ?_⟩
    rw [h2] at hj; cases hj; exact mem_chain hu

theorem add_key_unfold {h : Heap} {s : sorted_set} {key : List Int}
    {length len data new_level : Nat} {upd : List (Option NodeRef)}
    (heff : (if length = 0 then strlen key else some length) = some len)
    (hl : s.layers ≠ 0)
    (hs : search h s { next := [], key := key, length := len, data := 0 } (s.layers - 1)
      .set (List.replicate s.layers none) = some (some upd)) :
    sorted_set_add_key h s key length data new_level =
      if new_level ≤ s.layers then
        ((List.range new_level).foldlM (splice_step h.length upd)
          (h ++ [{ next := List.replicate new_level none, key := key, length := len,
                   data := data }],
           { s with size := s.size + 1 })).map
          (fun st => (SORTED_SET_ADD_KEY_UNIQUE, st.1, st.2))
      else
        match (List.range s.layers).foldlM (splice_step h.length upd)
          (h ++ [{ next := List.replicate new_level none, key := key, length := len,
                   data := data }],
           { s with size := s.size + 1 }) with
        | none => none
        | some st =>
          match (List.range' st.2.layers (new_level - st.2.layers)).foldlM
              (grow_step h.length)
              (st.1, { st.2 with
                next := st.2.next ++ List.replicate (new_level - st.2.layers) none }) with
          | none => none
          | some st3 =>
            some (SORTED_SET_ADD_KEY_UNIQUE, st3.1, { st3.2 with layers := new_level }) := by
  unfold sorted_set_add_key
  simp only [heff, hl, if_false, hs]

/-- Once the search of `sorted_set_add_key` has ended without a match, with
`update[L]` the last node of level `L` among the nodes `pre`, the call
returns UNIQUE and splices the new node in behind `pre`. -/
theorem SWF.add_key_of_search {h : Heap} {s : sorted_set} {pre post : List Nat}
    (wf : SWF h s (pre ++ post)) {key : List Int} {length len : Nat} (data : Nat)
    {new_level : Nat} {upd : List (Option NodeRef)}
    (heff : (if length = 0 then strlen key else some length) = some len)
    (hs : search h s { next := [], key := key, length := len, data := 0 } (s.layers - 1)
      .set (List.replicate s.layers none) = some (some upd))
    (hupd' : ∀ L, L < s.layers → upd[L]? = some (some (lastRef .set (chain h pre L)))) :
    ∃ h' s', sorted_set_add_key h s key length data new_level =
        some (SORTED_SET_ADD_KEY_UNIQUE, h', s') ∧
      Spliced h s pre key len data new_level h' s' := by
  have hl0 : s.layers ≠ 0 := by have := wf.layers_pos; omega
  rw [add_key_unfold heff hl0 hs]
  -- the state after allocation
  have hltp : ∀ i ∈ pre, i < h.length := fun i hi => wf.bound i (by simp [hi])
  have hUold := fun L => (lastRef_chain_old hltp L).1
  have hUpre := fun L => (lastRef_chain_old hltp L).2
  have hUne : ∀ L, lastRef .set (chain h pre L) ≠ .node h.length := by
    intro L hc
    have := hltp _ (hUpre L _ hc)
    omega
  have hUload : ∀ L, L < s.layers →
      ∃ w, load_next h s (lastRef .set (chain h pre L)) L = some w := by
    intro L hL
    have := wf.linked L hL
    rw [chain_append] at this
    exact ⟨_, Linked_load (Linked_append this)⟩
  generalize hnn : (node.mk (List.replicate new_level none) key len data) = nn
  generalize hs1 : ({ s with size := s.size + 1 } : sorted_set) = s1
  have hs1n : s1.next = s.next := by rw [← hs1]
  have hs1l : s1.layers = s.layers := by rw [← hs1]
  have hs1s : s1.size = s.size + 1 := by rw [← hs1]
  have hold1 : ∀ x, (x = .set ∨ ∃ a, a < h.length ∧ x = .node a) → ∀ L,
      load_next (h ++ [nn]) s1 x L = load_next h s x L :=
    fun x hx L => load_next_append_old [nn] hs1n hx L
  have hnew1 : ∀ L, L < new_level → load_next (h ++ [nn]) s1 (.node h.length) L = some none := by
    intro L hL
    simp [load_next, next_array, ← hnn, hL]
  have hget1 : ∀ (i : Nat) (nd : node), h[i]? = some nd → (h ++ [nn])[i]? = some nd := by
    intro i nd hnd
    rw [List.getElem?_append_left (List.getElem?_eq_some_iff.mp hnd).1]; exact hnd
  have hgetn : (h ++ [nn])[h.length]? = some nn := by simp
  -- the splice loop over the levels below `min new_level layers`
  have hloop : ∀ m, m ≤ s.layers → m ≤ new_level →
      ∃ h2 s2, (List.range m).foldlM (splice_step h.length upd) (h ++ [nn], s1) = some (h2, s2) ∧
        SameShape (h ++ [nn]) h2 s1 s2 ∧
        (∀ r L, load_next h2 s2 r L =
          if L < m then
            (if r = .node h.length then load_next (h ++ [nn]) s1 (lastRef .set (chain h pre L)) L
             else if r = lastRef .set (chain h pre L) then some (some h.length)
             else load_next (h ++ [nn]) s1 r L)
          else load_next (h ++ [nn]) s1 r L) ∧
        (∀ j, j ≠ h.length → (∀ L, L < m → lastRef .set (chain h pre L) ≠ .node j) →
          h2[j]? = (h ++ [nn])[j]?) := by
    intro m hm1 hm2
    apply splice_loop_spec h.length upd (fun L => lastRef .set (chain h pre L)) m
    · exact fun i hi => hupd' i (by omega)
    · exact fun i _ => hUne i
    · intro i hi
      rw [hold1 _ (hUold i)]
      exact hUload i (by omega)
    · exact fun i hi => ⟨_, hnew1 i (by omega)⟩
  by_cases hcase : new_level ≤ s.layers
  · rw [if_pos hcase]
    obtain ⟨h2, s2, hf, hsh, hld, hfr⟩ := hloop new_level hcase (le_refl _)
    refine ⟨h2, s2, by rw [hf]; rfl, ?_⟩
    refine ⟨by rw [hsh.len]; simp, ?_, ?_, by rw [hsh.layers, hs1l]; omega,
      by rw [hsh.nlen, hsh.layers, hs1n, hs1l]; exact wf.next_len,
      by rw [hsh.size, hs1s], ?_, ?_, ?_, ?_⟩
    · exact fun i nd hnd => hsh.flds i nd (hget1 i nd hnd)
    · obtain ⟨nd', h2', k2, l2, d2, n2⟩ := hsh.flds _ nn hgetn
      exact ⟨nd', h2', by rw [k2, ← hnn], by rw [l2, ← hnn], by rw [d2, ← hnn],
        by rw [n2, ← hnn]; simp⟩
    · intro L hL1 hL2
      refine ⟨?_, ?_, ?_⟩
      · rw [hld]; simp only [hL2, if_true]
        exact hold1 _ (hUold L) L
      · rw [hld]; simp [hL2, hUne L]
      · intro x hx1 hx2 hx3
        rw [hld]; simp only [hL2, if_true, hx1, hx2, if_false]
        exact hold1 x hx3 L
    · intro L hL1 hL2 x hx
      rw [hld]
      have : ¬ L < new_level := by omega
      simp only [this, if_false]
      exact hold1 x hx L
    · intro L hL1 hL2; omega
    · intro j hj hjp
      rw [hfr j (by omega) (fun L _ hc => hjp (hUpre L j hc))]
      exact List.getElem?_append_left hj
  · rw [if_neg hcase]
    have hcase' : s.layers < new_level := by omega
    obtain ⟨h2, s2, hf, hsh, hld, hfr⟩ := hloop s.layers (le_refl _) (by omega)
    rw [hf]
    simp only
    have hs2l : s2.layers = s.layers := by rw [hsh.layers, hs1l]
    have hs2n : s2.next.length = s.layers := by rw [hsh.nlen, hs1n]; exact wf.next_len
    generalize hs2' : sorted_set.mk (s2.next ++ List.replicate (new_level - s2.layers) none)
      s2.layers s2.size = s2'
    have hs2'n : s2'.next = s2.next ++ List.replicate (new_level - s.layers) none := by
      rw [← hs2', hs2l]
    have hs2'l : s2'.layers = s.layers := by rw [← hs2']; exact hs2l
    have hs2's : s2'.size = s2.size := by rw [← hs2']
    have hld2' : ∀ r L, load_next h2 s2' r L =
        if r = .set ∧ s.layers ≤ L then (if L < new_level then some none else none)
        else load_next h2 s2 r L := by
      intro r L
      cases r with
      | node a => simp [load_next, next_array]
      | set =>
        simp only [load_next, next_array, Option.some_bind, hs2'n, true_and]
        by_cases hL : s.layers ≤ L
        · rw [if_pos hL, List.getElem?_append_right (by omega)]
          by_cases hL2 : L < new_level
          · rw [if_pos hL2, List.getElem?_replicate]
            simp; omega
          · rw [if_neg hL2, List.getElem?_replicate]
            simp; omega
        · rw [if_neg hL, List.getElem?_append_left (by omega)]
    obtain ⟨h3, s3, hf3, hsh3, hld3, hfr3⟩ := @grow_loop_spec h2 s2' h.length
      s.layers (new_level - s.layers)
      (by
        intro i hi1 hi2
        rw [hld2']
        have : i < new_level := by omega
        exact ⟨none, by simp [hi1, this]⟩)
      (by
        intro i hi1 hi2
        rw [hld2', hld]
        have h1 : ¬ i < s.layers := by omega
        simp only [reduceCtorEq, false_and, if_false, h1]
        exact ⟨_, hnew1 i (by omega)⟩)
    rw [hs2l, hf3]
    simp only
    refine ⟨h3, { s3 with layers := new_level }, rfl, ?_⟩
    have hldf : ∀ r L, load_next h3 { s3 with layers := new_level } r L =
        load_next h3 s3 r L := fun r L => load_next_next_congr h3 rfl r L
    have hin : ∀ L, (s.layers ≤ L ∧ L < s.layers + (new_level - s.layers)) ↔
        (s.layers ≤ L ∧ L < new_level) := by intro L; omega
    refine ⟨by rw [hsh3.len, hsh.len]; simp, ?_, ?_, by simp; omega, ?_, ?_, ?_, ?_, ?_, ?_⟩
    · intro i nd hnd
      obtain ⟨nd2, g2, k2, l2, d2, n2⟩ := hsh.flds i nd (hget1 i nd hnd)
      obtain ⟨nd3, g3, k3, l3, d3, n3⟩ := hsh3.flds i nd2 g2
      exact ⟨nd3, g3, by rw [k3, k2], by rw [l3, l2], by rw [d3, d2], by rw [n3, n2]⟩
    · obtain ⟨nd2, g2, k2, l2, d2, n2⟩ := hsh.flds _ nn hgetn
      obtain ⟨nd3, g3, k3, l3, d3, n3⟩ := hsh3.flds _ nd2 g2
      exact ⟨nd3, g3, by rw [k3, k2, ← hnn], by rw [l3, l2, ← hnn], by rw [d3, d2, ← hnn],
        by rw [n3, n2, ← hnn]; simp⟩
    · show s3.next.length = new_level
      rw [hsh3.nlen, hs2'n, List.length_append, hs2n]
      simp; omega
    · show s3.size = s.size + 1
      rw [hsh3.size, hs2's, hsh.size, hs1s]
    · intro L hL1 hL2
      have hnin : ¬ (s.layers ≤ L ∧ L < s.layers + (new_level - s.layers)) := by omega
      have hnin' : ¬ s.layers ≤ L := by omega
      refine ⟨?_, ?_, ?_⟩
      · rw [hldf, hld3, if_neg hnin, hld2', hld]
        simp only [reduceCtorEq, false_and, if_false, hL1, if_true]
        exact hold1 _ (hUold L) L
      · rw [hldf, hld3, if_neg hnin, hld2', hld]
        simp [hnin', hL1, hUne L]
      · intro x hx1 hx2 hx3
        rw [hldf, hld3, if_neg hnin, hld2', hld]
        simp only [hnin', and_false, if_false, hL1, if_true, hx1, hx2]
        exact hold1 x hx3 L
    · intro L hL1 hL2; omega
    · intro L hL1 hL2
      have hin' : s.layers ≤ L ∧ L < s.layers + (new_level - s.layers) := by omega
      refine ⟨?_, ?_⟩
      · rw [hldf, hld3, if_pos hin']; simp
      · rw [hldf, hld3, if_pos hin']; simp
    · intro j hj hjp
      rw [hfr3 j (by omega), hfr j (by omega) (fun L _ hc => hjp (hUpre L j hc))]
      exact List.getElem?_append_left hj

/-- A call of `sorted_set_add_key` with a key that is not in the well-formed
set `pre ++ post` returns UNIQUE and splices the new node in behind `pre`,
the nodes with a smaller key. -/
theorem WF.add_key_spliced {h : Heap} {s : sorted_set} {pre post : List Nat}
    (wf : WF h s (pre ++ post)) {key : List Int} {length len : Nat} (data : Nat)
    {new_level : Nat}
    (heff : (if length = 0 then strlen key else some length) = some len)
    (hv : strlen key = some len)
    (hpre : ∀ i ∈ pre, key_lt (keyAt h i) (key.take len))
    (hpost : ∀ i ∈ post, key_lt (key.take len) (keyAt h i)) :
    ∃ h' s', sorted_set_add_key h s key length data new_level =
        some (SORTED_SET_ADD_KEY_UNIQUE, h', s') ∧
      Spliced h s pre key len data new_level h' s' := by
  have hp : strlen (node.mk [] key len 0).key = some (node.mk [] key len 0).length := hv
  have habs : ∀ i ∈ pre ++ post,
      keyAt h i ≠ (node.mk [] key len 0).key.take (node.mk [] key len 0).length := by
    intro i hi hk
    rcases List.mem_append.mp hi with hi | hi
    · have := hpre i hi
      rw [hk] at this
      exact key_lt_irrefl _ this
    · have := hpost i hi
      rw [hk] at this
      exact key_lt_irrefl _ this
  have hl0 : s.layers ≠ 0 := by have := wf.layers_pos; omega
  obtain ⟨upd, hs, _, hupd, _⟩ := wf.search_absent hp habs (s.layers - 1)
    (List.replicate s.layers none) (by omega) (by simp)
  rw [show s.layers - 1 + 1 = s.layers by omega, wf.updateRef_top _ (le_refl _)] at hs
  have hU : ∀ L, updateRef h (pre ++ post) (key.take len) L = lastRef .set (chain h pre L) := by
    intro L
    apply updateRef_split
    · intro i hi; simpa [ltKey] using hpre i hi
    · intro i hi; simpa [ltKey] using key_lt_asymm (hpost i hi)
  have hupd' : ∀ L, L < s.layers → upd[L]? = some (some (lastRef .set (chain h pre L))) := by
    intro L hL
    rw [← hU L]
    exact hupd L (by omega)
  exact wf.toSWF.add_key_of_search data heff hs hupd'

theorem ekey_entryAt (h : Heap) (i : Nat) : ekey (entryAt h i) = keyAt h i := by
  unfold ekey entryAt keyAt
  cases h[i]? <;> simp

theorem key_lt_total {a b : List Int} (ha : (0 : Int) ∉ a) (hb : (0 : Int) ∉ b)
    (hne : a ≠ b) : key_lt a b ∨ key_lt b a := by
  have h0 : str_cmp a b ≠ 0 := fun h => hne (str_cmp_eq_zero ha hb h)
  have := str_cmp_neg a b
  unfold key_lt
  omega

theorem WF.add_key_duplicate {h : Heap} {s : sorted_set} {order : List Nat}
    (wf : WF h s order) {key : List Int} {length len : Nat} (data new_level : Nat)
    (heff : (if length = 0 then strlen key else some length) = some len)
    (hv : strlen key = some len)
    (hex : ∃ i ∈ order, keyAt h i = key.take len) :
    sorted_set_add_key h s key length data new_level =
      some (SORTED_SET_ADD_KEY_DUPLICATE, h, s) := by
  have hp : strlen (node.mk [] key len 0).key = some (node.mk [] key len 0).length := hv
  have hl0 : s.layers ≠ 0 := by have := wf.layers_pos; omega
  have hs := wf.search_present hp hex (s.layers - 1) (List.replicate s.layers none) (by omega)
  rw [show s.layers - 1 + 1 = s.layers by omega, wf.updateRef_top _ (le_refl _)] at hs
  unfold sorted_set_add_key
  simp only [heff, hl0, if_false, hs]

/-- A call of `sorted_set_add_key` on a well-formed set, as an operation on the list of
entries: the call succeeds, the set stays well-formed, and its entries are
those of `insert_entry`. Nodes of the heap outside the set are not touched. -/
theorem WF.add_key {h : Heap} {s : sorted_set} {order : List Nat}
    (wf : WF h s order) {key : List Int} {length len : Nat} (data : Nat) {new_level : Nat}
    (heff : (if length = 0 then strlen key else some length) = some len)
    (hv : strlen key = some len) (hlev : 1 ≤ new_level) :
    ∃ h' s' order', sorted_set_add_key h s key length data new_level =
        some (insert_result (key, len, data) (entries h order), h', s') ∧
      WF h' s' order' ∧
      entries h' order' = insert_entry (key, len, data) (entries h order) ∧
      h.length ≤ h'.length ∧
      (∀ j, j < h.length → j ∉ order → h'[j]? = h[j]?) ∧
      (∀ j ∈ order', j ∈ order ∨ h.length ≤ j) ∧
      (s'.size = s.size + if insert_result (key, len, data) (entries h order) =
        SORTED_SET_ADD_KEY_UNIQUE then 1 else 0) ∧
      s.layers ≤ s'.layers := by
  have hiff : (∃ x ∈ entries h order, ekey x = ekey (key, len, data)) ↔
      ∃ i ∈ order, keyAt h i = key.take len := by
    simp only [entries, List.mem_map, ekey]
    constructor
    · rintro ⟨x, ⟨i, hi, rfl⟩, hx⟩
      exact ⟨i, hi, by rw [← ekey_entryAt]; exact hx⟩
    · rintro ⟨i, hi, hk⟩
      exact ⟨entryAt h i, ⟨i, hi, rfl⟩, by rw [← ekey_entryAt] at hk; exact hk⟩
  by_cases hex : ∃ i ∈ order, keyAt h i = key.take len
  · have hex' := hiff.mpr hex
    refine ⟨h, s, order, ?_, wf, ?_, le_refl _, fun _ _ _ => rfl, fun j hj => Or.inl hj, ?_,
      le_refl _⟩
    · rw [wf.add_key_duplicate data new_level heff hv hex]
      simp [insert_result, hex']
    · simp [insert_entry, hex']
    · simp [insert_result, hex']
  · have hex' : ¬ ∃ x ∈ entries h order, ekey x = ekey (key, len, data) :=
      fun hc => hex (hiff.mp hc)
    have hsplit := sorted_split (k := key.take len) wf.sorted
    have hpre : ∀ i ∈ order.filter (ltKey h (key.take len)),
        key_lt (keyAt h i) (key.take len) := by
      intro i hi
      simpa [ltKey] using (List.mem_filter.mp hi).2
    have hpost : ∀ i ∈ order.filter (fun i => !ltKey h (key.take len) i),
        key_lt (key.take len) (keyAt h i) := by
      intro i hi
      have hi' := List.mem_filter.mp hi
      have hnlt : ¬ key_lt (keyAt h i) (key.take len) := by simpa [ltKey] using hi'.2
      have hne : keyAt h i ≠ key.take len := fun hc => hex ⟨i, hi'.1, hc⟩
      rcases key_lt_total (wf.valid i hi'.1).nonul (strlen_take_nonul hv) hne with h1 | h1
      · exact absurd h1 hnlt
      · exact h1
    have wf' : WF h s (order.filter (ltKey h (key.take len)) ++
        order.filter (fun i => !ltKey h (key.take len) i)) := by rw [← hsplit]; exact wf
    obtain ⟨h', s', hadd, sp⟩ := wf'.add_key_spliced data heff hv hpre hpost
    have wfn := WF_of_spliced wf' hpre hpost hv hlev sp
    refine ⟨h', s', _, ?_, wfn, ?_, by rw [sp.hlen]; omega, ?_, ?_, ?_, ?_⟩
    · rw [hadd]; simp [insert_result, hex']
    · have hold : ∀ i ∈ order, entryAt h' i = entryAt h i := by
        intro i hi
        obtain ⟨nd, hnd, _⟩ := wf.valid i hi
        obtain ⟨nd', h2, k2, l2, d2, _⟩ := sp.old i nd hnd
        simp [entryAt, hnd, h2, k2, l2, d2]
      have hnew : entryAt h' h.length = (key, len, data) := by
        obtain ⟨nd, h2, k2, l2, d2, _⟩ := sp.fresh
        simp [entryAt, h2, k2, l2, d2]
      have hf1 : ∀ (q : Nat → Bool) (q' : Entry → Bool), (∀ i, q' (entryAt h i) = q i) →
          (order.filter q).map (entryAt h') = ((order.map (entryAt h)).filter q') := by
        intro q q' hq
        rw [List.filter_map]
        have : (q' ∘ entryAt h) = q := funext hq
        rw [this]
        apply List.map_congr_left
        intro i hi
        exact hold i (List.mem_filter.mp hi).1
      rw [insert_entry, if_neg hex']
      simp only [entries, List.map_append, List.map_cons, hnew]
      rw [hf1 (ltKey h (key.take len)) (fun x => decide (key_lt (ekey x) (ekey (key, len, data))))
        (fun i => by
          show decide (key_lt (ekey (entryAt h i)) (key.take len)) = _
          rw [ekey_entryAt]; rfl),
        hf1 (fun i => !ltKey h (key.take len) i)
        (fun x => !decide (key_lt (ekey x) (ekey (key, len, data))))
        (fun i => by
          show (!decide (key_lt (ekey (entryAt h i)) (key.take len))) = _
          rw [ekey_entryAt]; rfl)]
    · intro j hj hjo
      apply sp.frame j hj
      intro hc
      exact hjo (List.mem_filter.mp hc).1
    · intro j hj
      simp only [List.mem_append, List.mem_cons, List.mem_filter] at hj
      rcases hj with hj | rfl | hj
      · exact Or.inl hj.1
      · exact Or.inr (le_refl _)
      · exact Or.inl hj.1
    · rw [sp.size]; simp [insert_result, hex']
    · rw [sp.layers]; omega

/-! ## Created sets, traversal, lookup -/

/-- A freshly created set is well-formed in any heap and has no nodes. -/
theorem WF_create (h : Heap) : WF h sorted_set_create [] := by
  refine ⟨by simp [sorted_set_create], rfl, rfl, List.nodup_nil, by simp, by simp,
    List.Pairwise.nil, ?_⟩
  intro L hL
  have : L = 0 := by simp [sorted_set_create] at hL; omega
  subst this
  simp [chain, Linked, load_next, next_array, sorted_set_create]

theorem load_next_node {h : Heap} {s : sorted_set} {a L : Nat} {v : Option Nat}
    (hl : load_next h s (.node a) L = some v) :
    ∃ nd, h[a]? = some nd ∧ nd.next[L]? = some v := by
  simp only [load_next, next_array] at hl
  rcases ha : h[a]? with _ | nd
  · simp [ha] at hl
  · exact ⟨nd, rfl, by simpa [ha] using hl⟩

theorem entryAt_of_get {h : Heap} {a : Nat} {nd : node} (ha : h[a]? = some nd) :
    entryAt h a = (nd.key, nd.length, nd.data) := by
  simp [entryAt, ha]

theorem apply_loop_spec {h : Heap} {s : sorted_set} (l : List Nat) :
    ∀ (r : NodeRef) (fuel : Nat), Linked h s 0 r l → l.length ≤ fuel →
      apply_loop h fuel l.head? = some (l.map (entryAt h)) := by
  induction l with
  | nil =>
    intro r fuel _ _
    cases fuel <;> simp [apply_loop]
  | cons a rest ih =>
    intro r fuel hl hf
    obtain ⟨f, rfl⟩ : ∃ f, fuel = f + 1 := ⟨fuel - 1, by simp at hf; omega⟩
    simp only [Linked] at hl
    obtain ⟨nd, ha, hn⟩ := load_next_node (Linked_load hl.2)
    simp only [List.head?_cons, apply_loop, ha, hn]
    rw [ih (.node a) f hl.2 (by simp at hf; omega)]
    simp [entryAt_of_get ha]

/-- On a well-formed set `sorted_set_apply` calls `fn` on the entries of its
nodes, in order. -/
theorem WF.apply {h : Heap} {s : sorted_set} {order : List Nat} (wf : WF h s order) :
    sorted_set_apply h s = some (entries h order) := by
  have hl0 : s.layers ≠ 0 := by have := wf.layers_pos; omega
  have hlink := wf.linked 0 (by have := wf.layers_pos; omega)
  rw [wf.chain_zero] at hlink
  have hload := Linked_load hlink
  simp only [load_next, next_array, Option.some_bind] at hload
  unfold sorted_set_apply
  simp only [hl0, if_false, hload]
  exact apply_loop_spec order .set h.length hlink
    (length_le_of_nodup_lt wf.nodup (fun i hi => (wf.valid i hi).lt))

theorem flatten_loop_spec {h : Heap} {s : sorted_set} (l : List Nat) :
    ∀ (r : NodeRef), Linked h s 0 r l →
      flatten_loop h l.length l.head? = some (l.map (fun i => (entryAt h i).1)) := by
  induction l with
  | nil => intro r _; simp [flatten_loop]
  | cons a rest ih =>
    intro r hl
    simp only [Linked] at hl
    obtain ⟨nd, ha, hn⟩ := load_next_node (Linked_load hl.2)
    simp only [List.head?_cons, List.length_cons, flatten_loop, ha, hn]
    rw [ih (.node a) hl.2]
    simp [entryAt_of_get ha]

/-- On a well-formed set `sorted_set_flatten_keys` returns the key pointers
of its nodes in order, and reports `size`. -/
theorem WF.flatten_keys {h : Heap} {s : sorted_set} {order : List Nat} (wf : WF h s order)
    (n_keys_out : Bool) :
    sorted_set_flatten_keys h s n_keys_out =
      some ((entries h order).map (fun e => e.1), if n_keys_out then some s.size else none) := by
  have hlink := wf.linked 0 (by have := wf.layers_pos; omega)
  rw [wf.chain_zero] at hlink
  have hload := Linked_load hlink
  simp only [load_next, next_array, Option.some_bind] at hload
  unfold sorted_set_flatten_keys
  simp only [hload, wf.size_eq]
  rw [flatten_loop_spec order .set hlink]
  simp [entries]

theorem WF.lookup_search_present {h : Heap} {s : sorted_set} {order : List Nat}
    (wf : WF h s order) {probe : node} (hp : strlen probe.key = some probe.length)
    (hex : ∃ i ∈ order, keyAt h i = probe.key.take probe.length) :
    ∀ (L : Nat), L < s.layers →
      ∃ n, lookup_search h s probe L
          (updateRef h order (probe.key.take probe.length) (L + 1)) = some (some n) ∧
        n ∈ order ∧ keyAt h n = probe.key.take probe.length := by
  intro L
  induction L with
  | zero =>
    intro hL
    rcases wf.level_walk hp hL with ⟨n, r', hw, hn, hk⟩ | ⟨_, hne⟩
    · exact ⟨n, by rw [lookup_search, hw], hn, hk⟩
    · obtain ⟨i, hi, hk⟩ := hex
      rw [wf.chain_zero] at hne
      exact absurd hk (hne i hi)
  | succ L ih =>
    intro hL
    rcases wf.level_walk hp hL with ⟨n, r', hw, hn, hk⟩ | ⟨hw, _⟩
    · exact ⟨n, by rw [lookup_search, hw], hn, hk⟩
    · obtain ⟨n, h1, h2, h3⟩ := ih (by omega)
      exact ⟨n, by rw [lookup_search, hw]; exact h1, h2, h3⟩

theorem WF.lookup_search_absent {h : Heap} {s : sorted_set} {order : List Nat}
    (wf : WF h s order) {probe : node} (hp : strlen probe.key = some probe.length)
    (habs : ∀ i ∈ order, keyAt h i ≠ probe.key.take probe.length) :
    ∀ (L : Nat), L < s.layers →
      lookup_search h s probe L
        (updateRef h order (probe.key.take probe.length) (L + 1)) = some none := by
  intro L
  induction L with
  | zero =>
    intro hL
    rcases wf.level_walk hp hL with ⟨n, r', _, hn, hk⟩ | ⟨hw, _⟩
    · exact absurd hk (habs n hn)
    · rw [lookup_search, hw]
  | succ L ih =>
    intro hL
    rcases wf.level_walk hp hL with ⟨n, r', _, hn, hk⟩ | ⟨hw, _⟩
    · exact absurd hk (habs n hn)
    · rw [lookup_search, hw]; exact ih (by omega)

theorem find_entry_of_sorted {h : Heap} {k : List Int} {order : List Nat} {n : Nat}
    (hs : order.Pairwise (fun i j => key_lt (keyAt h i) (keyAt h j)))
    (hn : n ∈ order) (hk : keyAt h n = k) :
    (entries h order).find? (fun e => decide (ekey e = k)) = some (entryAt h n) := by
  induction order with
  | nil => simp at hn
  | cons a rest ih =>
    rw [List.pairwise_cons] at hs
    simp only [entries, List.map_cons, List.find?_cons]
    by_cases ha : a = n
    · subst ha; simp [ekey_entryAt, hk]
    · have hn' : n ∈ rest := by
        rcases List.mem_cons.mp hn with h1 | h1
        · exact absurd h1.symm ha
        · exact h1
      have hne : keyAt h a ≠ k := by
        intro hc
        have := hs.1 n hn'
        rw [hc, hk] at this
        exact key_lt_irrefl _ this
      simp only [ekey_entryAt, hne, decide_False]
      exact ih hs.2 hn'

/-- The result of `sorted_set_lookup` on a well-formed set, for a NUL-terminated key given
with its string length: the result is the entry with that key, if there is
one, and `NULL` otherwise. -/
theorem WF.lookup {h : Heap} {s : sorted_set} {order : List Nat} (wf : WF h s order)
    {key : List Int} {length : Nat} (hv : strlen key = some length) :
    sorted_set_lookup h s key length =
      some ((entries h order).find? (fun e => decide (ekey e = key.take length))) := by
  have hp : strlen (node.mk [] key length 0).key = some (node.mk [] key length 0).length := hv
  have hl0 : s.layers ≠ 0 := by have := wf.layers_pos; omega
  unfold sorted_set_lookup
  simp only [hl0, if_false]
  by_cases hex : ∃ i ∈ order, keyAt h i = key.take length
  · obtain ⟨n, h1, h2, h3⟩ := wf.lookup_search_present hp hex (s.layers - 1) (by omega)
    rw [show s.layers - 1 + 1 = s.layers by omega, wf.updateRef_top _ (le_refl _)] at h1
    rw [h1, find_entry_of_sorted wf.sorted h2 h3]
    obtain ⟨nd, hnd, _⟩ := wf.valid n h2
    simp [hnd, entryAt_of_get hnd]
  · have habs : ∀ i ∈ order, keyAt h i ≠ key.take length := fun i hi hc => hex ⟨i, hi, hc⟩
    have h1 := wf.lookup_search_absent hp habs (s.layers - 1) (by omega)
    rw [show s.layers - 1 + 1 = s.layers by omega, wf.updateRef_top _ (le_refl _)] at h1
    rw [h1]
    have : (entries h order).find? (fun e => decide (ekey e = key.take length)) = none := by
      rw [List.find?_eq_none]
      intro e he
      simp only [entries, List.mem_map] at he
      obtain ⟨i, hi, rfl⟩ := he
      simpa [ekey_entryAt] using habs i hi
    rw [this]

theorem ValidCall.spec {c : add_call} (hc : ValidCall c) :
    ∃ len, strlen c.key = some len ∧
      (if c.length = 0 then strlen c.key else some c.length) = some len ∧
      call_entry c = (c.key, len, c.data) ∧ 1 ≤ c.new_level := by
  obtain ⟨h1, h2, h3⟩ := hc
  obtain ⟨len, hlen⟩ := Option.isSome_iff_exists.mp h1
  refine ⟨len, hlen, ?_, by simp [call_entry, hlen], h3⟩
  by_cases h0 : c.length = 0
  · simp [h0, hlen]
  · rcases h2 with h2 | h2
    · exact absurd h2 h0
    · simp [h0, h2, hlen]

/-- A sequence of valid calls on a well-formed set: every call succeeds, the
set stays well-formed, and results and entries are those of `model_run`. -/
theorem WF.run_add_keys {h : Heap} {s : sorted_set} {order : List Nat} (wf : WF h s order)
    (calls : List add_call) (hv : ∀ c ∈ calls, ValidCall c) :
    ∃ h' s' order', SortedSet.run_add_keys h s calls =
        some ((model_run (entries h order) calls).1, h', s') ∧
      WF h' s' order' ∧
      entries h' order' = (model_run (entries h order) calls).2 ∧
      h.length ≤ h'.length ∧
      (∀ j, j < h.length → j ∉ order → h'[j]? = h[j]?) ∧
      (∀ j ∈ order', j ∈ order ∨ h.length ≤ j) := by
  induction calls generalizing h s order with
  | nil =>
    exact ⟨h, s, order, rfl, wf, rfl, le_refl _, fun _ _ _ => rfl, fun j hj => Or.inl hj⟩
  | cons c cs ih =>
    obtain ⟨len, hlen, heff, hce, hlev⟩ := (hv c (by simp)).spec
    obtain ⟨h1, s1, o1, hadd, wf1, he1, hl1, hfr1, ho1, _, _⟩ :=
      wf.add_key c.data heff hlen hlev
    obtain ⟨h2, s2, o2, hrun, wf2, he2, hl2, hfr2, ho2⟩ :=
      ih wf1 (fun c' hc' => hv c' (by simp [hc']))
    refine ⟨h2, s2, o2, ?_, wf2, ?_, le_trans hl1 hl2, ?_, ?_⟩
    · simp only [SortedSet.run_add_keys, hadd, hrun, model_run, hce, he1, Option.map_some']
    · simp only [model_run, hce]
      rw [he2, he1]
    · intro j hj hjo
      have hj1 : j ∉ o1 := by
        intro hc
        rcases ho1 j hc with h' | h'
        · exact hjo h'
        · omega
      rw [hfr2 j (by omega) hj1, hfr1 j hj hjo]
    · intro j hj
      rcases ho2 j hj with h' | h'
      · rcases ho1 j h' with h'' | h''
        · exact Or.inl h''
        · exact Or.inr h''
      · exact Or.inr (by omega)

theorem mem_insert_entry {e x : Entry} {l : List Entry} :
    x ∈ insert_entry e l ↔
      x ∈ l ∨ (x = e ∧ insert_result e l = SORTED_SET_ADD_KEY_UNIQUE) := by
  unfold insert_entry insert_result
  by_cases hex : ∃ y ∈ l, ekey y = ekey e
  · simp [hex]
  · simp only [hex, if_false, List.mem_append, List.mem_cons, List.mem_filter,
      and_true]
    constructor
    · rintro (h | h | h)
      · exact Or.inl h.1
      · exact Or.inr h
      · exact Or.inl h.1
    · rintro (h | h)
      · by_cases hp : key_lt (ekey x) (ekey e)
        · exact Or.inl ⟨h, by simpa using hp⟩
        · exact Or.inr (Or.inr ⟨h, by simpa using hp⟩)
      · exact Or.inr (Or.inl h)

theorem length_insert_entry (e : Entry) (l : List Entry) :
    (insert_entry e l).length =
      l.length + if insert_result e l = SORTED_SET_ADD_KEY_UNIQUE then 1 else 0 := by
  unfold insert_entry insert_result
  by_cases hex : ∃ y ∈ l, ekey y = ekey e
  · simp [hex]
  · simp only [hex, if_false, List.length_append, List.length_cons, if_true]
    have := List.length_eq_length_filter_add (l := l)
      (fun x => decide (key_lt (ekey x) (ekey e)))
    omega

/-- The entries after a sequence of calls: the initial ones and those of the
calls that returned UNIQUE. -/
theorem mem_model_run {x : Entry} (calls : List add_call) (l : List Entry) :
    x ∈ (model_run l calls).2 ↔
      x ∈ l ∨ ∃ p ∈ calls.zip (model_run l calls).1,
        p.2 = SORTED_SET_ADD_KEY_UNIQUE ∧ x = call_entry p.1 := by
  induction calls generalizing l with
  | nil => simp [model_run]
  | cons c cs ih =>
    simp only [model_run, List.zip_cons_cons, List.mem_cons]
    rw [ih, mem_insert_entry]
    constructor
    · rintro ((h | h) | ⟨p, hp, h⟩)
      · exact Or.inl h
      · exact Or.inr ⟨(c, _), Or.inl rfl, h.2, h.1⟩
      · exact Or.inr ⟨p, Or.inr hp, h⟩
    · rintro (h | ⟨p, hp | hp, h⟩)
      · exact Or.inl (Or.inl h)
      · subst hp
        exact Or.inl (Or.inr ⟨h.2, h.1⟩)
      · exact Or.inr ⟨p, hp, h⟩

/-- The keys after a sequence of calls: the initial ones and those of the
calls. -/
theorem mem_keys_model_run {k : List Int} (calls : List add_call) (l : List Entry) :
    k ∈ (model_run l calls).2.map ekey ↔ k ∈ l.map ekey ∨ k ∈ calls.map call_key := by
  induction calls generalizing l with
  | nil => simp [model_run]
  | cons c cs ih =>
    simp only [model_run, List.map_cons, List.mem_cons]
    rw [ih]
    have hins : k ∈ (insert_entry (call_entry c) l).map ekey ↔
        k ∈ l.map ekey ∨ k = call_key c := by
      simp only [List.mem_map, mem_insert_entry]
      constructor
      · rintro ⟨x, hx | hx, rfl⟩
        · exact Or.inl ⟨x, hx, rfl⟩
        · exact Or.inr (by rw [hx.1]; rfl)
      · rintro (⟨x, hx, rfl⟩ | hk)
        · exact ⟨x, Or.inl hx, rfl⟩
        · by_cases hex : ∃ y ∈ l, ekey y = ekey (call_entry c)
          · obtain ⟨y, hy, hyk⟩ := hex
            exact ⟨y, Or.inl hy, by rw [hyk, hk]; rfl⟩
          · exact ⟨call_entry c, Or.inr ⟨rfl, by simp [insert_result, hex]⟩, by rw [hk]; rfl⟩
    rw [hins]
    tauto

theorem take_copy {buf : List Int} {n : Nat} (h : strlen buf = some n) :
    (buf.take n ++ [0]).take n = buf.take n := by
  obtain ⟨s, r, rfl, _, rfl⟩ := strlen_eq_some h
  simp

theorem ekey_copy_entry {e : Entry} (h : strlen e.1 = some e.2.1) :
    ekey (copy_entry e) = ekey e := by
  simp only [ekey, copy_entry]
  exact take_copy h

theorem strnlen_of_strlen {buf : List Int} {n : Nat} (h : strlen buf = some n) :
    strnlen buf n = some n := by
  induction buf generalizing n with
  | nil => simp [strlen] at h
  | cons c cs ih =>
    rw [strlen] at h
    by_cases hc : c = 0
    · simp [hc] at h
      subst h
      simp [strnlen]
    · simp only [hc, if_false, Option.map_eq_some'] at h
      obtain ⟨m, hm, rfl⟩ := h
      simp [strnlen, hc, ih hm]

theorem strlen_copy {buf : List Int} {n : Nat} (h : strlen buf = some n) :
    strlen (buf.take n ++ [0]) = some n := by
  have := strlen_append (r := []) (strlen_take_nonul h)
  rw [this]
  obtain ⟨s, r, rfl, _, rfl⟩ := strlen_eq_some h
  simp

/-- A call of `sorted_set_add_key_copy` with a NUL-terminated key given with its string
length is `sorted_set_add_key` of a fresh copy of the key. -/
theorem add_key_copy_eq (h : Heap) (s : sorted_set) {key : List Int} {len : Nat}
    (hv : strlen key = some len) (data new_level : Nat) :
    sorted_set_add_key_copy h s key len data new_level =
      sorted_set_add_key h s (key.take len ++ [0]) len data new_level := by
  unfold sorted_set_add_key_copy
  by_cases h0 : len = 0
  · subst h0
    simp [strdup, hv]
  · simp [h0, util_strndup, strnlen_of_strlen hv]

/-- Adding to the output set a copy of a node whose key is larger than every
key of the output set appends the copied entry. -/
theorem OutInv.push {h0 h : Heap} {out : sorted_set} {oo : List Nat}
    (inv : OutInv h0 h out oo) {a : Nat} (ha : ValidNode h0 a)
    (hgt : ∀ e ∈ entries h oo, key_lt (ekey e) (keyAt h0 a)) {v : Nat} (hlev : 1 ≤ v) :
    ∃ r h' out' oo', sorted_set_add_key_copy h out (entryAt h0 a).1 (entryAt h0 a).2.1
        (entryAt h0 a).2.2 v = some (r, h', out') ∧
      OutInv h0 h' out' oo' ∧
      entries h' oo' = entries h oo ++ [copy_entry (entryAt h0 a)] := by
  obtain ⟨nd, hnd, hs⟩ := ha
  have he : entryAt h0 a = (nd.key, nd.length, nd.data) := entryAt_of_get hnd
  have hk : keyAt h0 a = nd.key.take nd.length := by simp [keyAt, hnd]
  rw [he]
  simp only
  rw [add_key_copy_eq h out hs]
  have heff : (if nd.length = 0 then strlen (nd.key.take nd.length ++ [0]) else some nd.length)
      = some nd.length := by
    by_cases h0 : nd.length = 0
    · simp [h0, strlen]
    · simp [h0]
  obtain ⟨h', s', o', hadd, wf', hent, hlen, hfr, hord, _, _⟩ :=
    inv.wf.add_key nd.data heff (strlen_copy hs) hlev
  have hkey : ekey (nd.key.take nd.length ++ [0], nd.length, nd.data) = keyAt h0 a := by
    rw [hk]; simp only [ekey]; exact take_copy hs
  have hnot : ¬ ∃ x ∈ entries h oo, ekey x = ekey (nd.key.take nd.length ++ [0], nd.length, nd.data) := by
    rintro ⟨x, hx, hxk⟩
    have := hgt x hx
    rw [hxk, hkey] at this
    exact key_lt_irrefl _ this
  refine ⟨_, h', s', o', hadd, ⟨wf', le_trans inv.len hlen, ?_, ?_⟩, ?_⟩
  · intro i hi
    have hio : i ∉ oo := fun hc => by have := inv.fresh i hc; omega
    rw [hfr i (by have := inv.len; omega) hio, inv.frame i hi]
  · intro j hj
    rcases hord j hj with h1 | h1
    · exact inv.fresh j h1
    · have := inv.len; omega
  · rw [hent, insert_entry, if_neg hnot]
    have h1 : (entries h oo).filter (fun x => decide (key_lt (ekey x)
        (ekey (nd.key.take nd.length ++ [0], nd.length, nd.data)))) = entries h oo := by
      rw [List.filter_eq_self]
      intro x hx
      rw [hkey]
      simpa using hgt x hx
    have h2 : (entries h oo).filter (fun x => !decide (key_lt (ekey x)
        (ekey (nd.key.take nd.length ++ [0], nd.length, nd.data)))) = [] := by
      rw [List.filter_eq_nil_iff]
      intro x hx
      rw [hkey]
      simpa using hgt x hx
    rw [h1, h2]
    simp [copy_entry]

theorem Linked_node_get {h : Heap} {s : sorted_set} {r : NodeRef} {a : Nat}
    {rest : List Nat} (hl : Linked h s 0 r (a :: rest)) :
    ∃ nd, h[a]? = some nd ∧ nd.next[0]? = some rest.head? ∧ Linked h s 0 (.node a) rest := by
  simp only [Linked] at hl
  obtain ⟨nd, ha, hn⟩ := load_next_node (Linked_load hl.2)
  exact ⟨nd, ha, hn, hl.2⟩

/-- The second loop of `sorted_set_difference`: every remaining node of `a`
is copied to the output set. -/
theorem difference_rest_spec {h0 : Heap} {sa : sorted_set} (lv : Nat → Nat)
    (hlv : ∀ n, 1 ≤ lv n) (ra : List Nat) :
    ∀ (r : NodeRef) (fuel : Nat) (h : Heap) (out : sorted_set) (n : Nat) (oo : List Nat),
      Linked h0 sa 0 r ra → (∀ i ∈ ra, ValidNode h0 i) →
      ra.Pairwise (fun i j => key_lt (keyAt h0 i) (keyAt h0 j)) →
      OutInv h0 h out oo →
      (∀ e ∈ entries h oo, ∀ i ∈ ra, key_lt (ekey e) (keyAt h0 i)) →
      ra.length ≤ fuel →
      ∃ h' out' oo', difference_rest lv fuel h out n ra.head? = some (h', out') ∧
        OutInv h0 h' out' oo' ∧
        entries h' oo' = entries h oo ++ ra.map (fun i => copy_entry (entryAt h0 i)) := by
  induction ra with
  | nil =>
    intro r fuel h out n oo _ _ _ inv _ _
    refine ⟨h, out, oo, ?_, inv, by simp⟩
    cases fuel <;> simp [difference_rest]
  | cons a ra ih =>
    intro r fuel h out n oo hl hv hs inv hgt hf
    obtain ⟨f, rfl⟩ : ∃ f, fuel = f + 1 := ⟨fuel - 1, by simp at hf; omega⟩
    obtain ⟨an, han, hnx, hl'⟩ := Linked_node_get hl
    have halt : a < h0.length := (hv a (by simp)).lt
    have hea : entryAt h0 a = (an.key, an.length, an.data) := entryAt_of_get han
    rw [List.pairwise_cons] at hs
    obtain ⟨res, h1, out1, oo1, hadd, inv1, hent1⟩ :=
      inv.push (hv a (by simp)) (fun e he => hgt e he a (by simp)) (hlv n)
    rw [hea] at hadd
    simp only at hadd
    have hgt1 : ∀ e ∈ entries h1 oo1, ∀ i ∈ ra, key_lt (ekey e) (keyAt h0 i) := by
      intro e he i hi
      rw [hent1] at he
      rcases List.mem_append.mp he with he | he
      · exact hgt e he i (by simp [hi])
      · simp only [List.mem_singleton] at he
        obtain ⟨nd, hnd, hvs⟩ := hv a (by simp)
        have : ekey e = keyAt h0 a := by
          rw [he, ekey_copy_entry (by rw [entryAt_of_get hnd]; exact hvs), ekey_entryAt]
        rw [this]
        exact hs.1 i hi
    obtain ⟨h2, out2, oo2, hrest, inv2, hent2⟩ := ih (.node a) f h1 out1 (n + 1) oo1 hl'
      (fun i hi => hv i (by simp [hi])) hs.2 inv1 hgt1 (by simp at hf; omega)
    refine ⟨h2, out2, oo2, ?_, inv2, ?_⟩
    · simp only [List.head?_cons, difference_rest, inv.frame a halt, han, hadd,
        inv1.frame a halt, Option.some_bind, hnx]
      exact hrest
    · rw [hent2, hent1]
      simp

/-- The merge loop of `sorted_set_difference` on the remaining nodes `ra` of
`a` and `rb` of `b`: the nodes of `ra` whose key is not among `rb` are
copied to the output set, in order. -/
theorem difference_loop_spec {h0 : Heap} {sa sb : sorted_set} (lv : Nat → Nat)
    (hlv : ∀ n, 1 ≤ lv n) (fuel2 : Nat) (fuel : Nat) :
    ∀ (ra rb : List Nat) (r r' : NodeRef) (h : Heap) (out : sorted_set) (n : Nat)
      (oo : List Nat),
      Linked h0 sa 0 r ra → (∀ i ∈ ra, ValidNode h0 i) →
      ra.Pairwise (fun i j => key_lt (keyAt h0 i) (keyAt h0 j)) →
      Linked h0 sb 0 r' rb → (∀ i ∈ rb, ValidNode h0 i) →
      rb.Pairwise (fun i j => key_lt (keyAt h0 i) (keyAt h0 j)) →
      OutInv h0 h out oo →
      (∀ e ∈ entries h oo, ∀ i ∈ ra, key_lt (ekey e) (keyAt h0 i)) →
      ra.length + rb.length ≤ fuel → ra.length ≤ fuel2 →
      ∃ h' out' oo', difference_loop lv fuel2 fuel h out n ra.head? rb.head? =
          some (h', out') ∧
        OutInv h0 h' out' oo' ∧
        entries h' oo' = entries h oo ++
          (ra.filter (fun i => decide (keyAt h0 i ∉ rb.map (keyAt h0)))).map
            (fun i => copy_entry (entryAt h0 i)) := by
  induction fuel with
  | zero =>
    intro ra rb r r' h out n oo _ _ _ _ _ _ inv _ hf _
    have hra : ra = [] := List.length_eq_zero.mp (by omega)
    subst hra
    exact ⟨h, out, oo, by simp [difference_loop, difference_rest], inv, by simp⟩
  | succ f ih =>
    intro ra rb r r' h out n oo hla hva hsa hlb hvb hsb inv hgt hf hf2
    cases ra with
    | nil =>
      refine ⟨h, out, oo, ?_, inv, by simp⟩
      simp [difference_loop, difference_rest]
    | cons a ra =>
      cases rb with
      | nil =>
        obtain ⟨h2, out2, oo2, hrest, inv2, hent2⟩ :=
          difference_rest_spec lv hlv (a :: ra) r fuel2 h out n oo hla hva hsa inv hgt hf2
        refine ⟨h2, out2, oo2, ?_, inv2, ?_⟩
        · simp only [List.head?_cons, List.head?_nil, difference_loop]
          exact hrest
        · rw [hent2]
          simp
      | cons b rb =>
        obtain ⟨an, han, hanx, hla'⟩ := Linked_node_get hla
        obtain ⟨bn, hbn, hbnx, hlb'⟩ := Linked_node_get hlb
        have halt : a < h0.length := (hva a (by simp)).lt
        have hblt : b < h0.length := (hvb b (by simp)).lt
        have hav : strlen an.key = some an.length := by
          obtain ⟨nd, hnd, hs⟩ := hva a (by simp)
          rw [han] at hnd; cases hnd; exact hs
        have hbv : strlen bn.key = some bn.length := by
          obtain ⟨nd, hnd, hs⟩ := hvb b (by simp)
          rw [hbn] at hnd; cases hnd; exact hs
        have hka : keyAt h0 a = an.key.take an.length := by simp [keyAt, han]
        have hkb : keyAt h0 b = bn.key.take bn.length := by simp [keyAt, hbn]
        have hcmp := key_compare_cstr hav hbv
        rw [← hka, ← hkb] at hcmp
        rw [List.pairwise_cons] at hsa hsb
        simp only [List.head?_cons, difference_loop, inv.frame a halt, inv.frame b hblt, han,
          hbn, hcmp]
        by_cases h0c : str_cmp (keyAt h0 a) (keyAt h0 b) = 0
        · -- equal keys: the node of `a` is dropped
          have hkeq : keyAt h0 a = keyAt h0 b :=
            str_cmp_eq_zero (hva a (by simp)).nonul (hvb b (by simp)).nonul h0c
          simp only [h0c, if_true, hanx, hbnx]
          obtain ⟨h2, out2, oo2, hrec, inv2, hent2⟩ := ih ra rb (.node a) (.node b) h out n oo
            hla' (fun i hi => hva i (by simp [hi])) hsa.2
            hlb' (fun i hi => hvb i (by simp [hi])) hsb.2 inv
            (fun e he i hi => hgt e he i (by simp [hi]))
            (by simp at hf; omega) (by simp at hf2; omega)
          refine ⟨h2, out2, oo2, hrec, inv2, ?_⟩
          rw [hent2]
          congr 2
          have hdrop : decide (keyAt h0 a ∉ (b :: rb).map (keyAt h0)) = false := by
            simp [hkeq]
          rw [List.filter_cons, hdrop]
          simp only [Bool.false_eq_true, if_false]
          apply List.filter_congr
          intro i hi
          have hne : keyAt h0 i ≠ keyAt h0 b := by
            intro hc
            have := hsa.1 i hi
            rw [hc, hkeq] at this
            exact key_lt_irrefl _ this
          simp [hne]
        · simp only [h0c, if_false]
          by_cases hlt : str_cmp (keyAt h0 a) (keyAt h0 b) < 0
          · -- the key of `a` is smaller: it is not in `b`, the node is copied
            simp only [hlt, if_true]
            have hea : entryAt h0 a = (an.key, an.length, an.data) := entryAt_of_get han
            obtain ⟨res, h1, out1, oo1, hadd, inv1, hent1⟩ :=
              inv.push (hva a (by simp)) (fun e he => hgt e he a (by simp)) (hlv n)
            rw [hea] at hadd
            simp only at hadd
            have hgt1 : ∀ e ∈ entries h1 oo1, ∀ i ∈ ra, key_lt (ekey e) (keyAt h0 i) := by
              intro e he i hi
              rw [hent1] at he
              rcases List.mem_append.mp he with he | he
              · exact hgt e he i (by simp [hi])
              · simp only [List.mem_singleton] at he
                have : ekey e = keyAt h0 a := by
                  rw [he, ekey_copy_entry (by rw [hea]; exact hav), ekey_entryAt]
                rw [this]
                exact hsa.1 i hi
            obtain ⟨h2, out2, oo2, hrec, inv2, hent2⟩ := ih ra (b :: rb) (.node a) r' h1 out1
              (n + 1) oo1 hla' (fun i hi => hva i (by simp [hi])) hsa.2
              hlb hvb (List.pairwise_cons.mpr hsb) inv1 hgt1
              (by simp at hf ⊢; omega) (by simp at hf2; omega)
            refine ⟨h2, out2, oo2, ?_, inv2, ?_⟩
            · simp only [hadd, inv1.frame a halt, han, Option.some_bind, hanx]
              exact hrec
            · rw [hent2, hent1]
              have hkeep : decide (keyAt h0 a ∉ (b :: rb).map (keyAt h0)) = true := by
                simp only [decide_eq_true_eq, List.mem_map, not_exists, not_and]
                intro i hi hc
                have hab : key_lt (keyAt h0 a) (keyAt h0 b) := hlt
                rcases List.mem_cons.mp hi with rfl | hi
                · rw [hc] at hab; exact key_lt_irrefl _ hab
                · have := key_lt_trans hab (hsb.1 i hi)
                  rw [hc] at this; exact key_lt_irrefl _ this
              rw [List.filter_cons, hkeep]
              simp
          · -- the key of `b` is smaller: it is not in `a`, move on in `b`
            simp only [hlt, if_false, hbnx]
            have hba : key_lt (keyAt h0 b) (keyAt h0 a) := by
              unfold key_lt; rw [str_cmp_neg]; omega
            obtain ⟨h2, out2, oo2, hrec, inv2, hent2⟩ := ih (a :: ra) rb r (.node b) h out n oo
              hla hva (List.pairwise_cons.mpr hsa)
              hlb' (fun i hi => hvb i (by simp [hi])) hsb.2 inv hgt
              (by simp at hf ⊢; omega) hf2
            refine ⟨h2, out2, oo2, hrec, inv2, ?_⟩
            rw [hent2]
            congr 2
            apply List.filter_congr
            intro i hi
            have hne : keyAt h0 i ≠ keyAt h0 b := by
              intro hc
              rcases List.mem_cons.mp hi with rfl | hi
              · rw [hc] at hba; exact key_lt_irrefl _ hba
              · have := key_lt_trans hba (hsa.1 i hi)
                rw [hc] at this; exact key_lt_irrefl _ this
            simp [hne]

/-- A well-formed set stays well-formed, with the same entries, when the heap
changes only outside its nodes. -/
theorem WF.frame {h : Heap} {s : sorted_set} {order : List Nat} (wf : WF h s order)
    (h' : Heap) (hfr : ∀ i ∈ order, h'[i]? = h[i]?) :
    WF h' s order ∧ entries h' order = entries h order := by
  have hlvl : ∀ i ∈ order, level h' i = level h i := by
    intro i hi; simp [level, hfr i hi]
  have hkey : ∀ i ∈ order, keyAt h' i = keyAt h i := by
    intro i hi; simp [keyAt, hfr i hi]
  have hld : ∀ (x : NodeRef) (L : Nat), (x = .set ∨ ∃ a ∈ order, x = .node a) →
      load_next h' s x L = load_next h s x L := by
    intro x L hx
    rcases hx with rfl | ⟨a, ha, rfl⟩
    · rfl
    · simp [load_next, next_array, hfr a ha]
  refine ⟨⟨wf.layers_pos, wf.next_len, wf.size_eq, wf.nodup, ?_, ?_, ?_, ?_⟩, ?_⟩
  · intro i hi; rw [hlvl i hi]; exact wf.lvl i hi
  · intro i hi
    obtain ⟨nd, hnd, hs⟩ := wf.valid i hi
    exact ⟨nd, by rw [hfr i hi]; exact hnd, hs⟩
  · exact wf.sorted.imp_of_mem (fun {a b} ha hb hab => by
      rw [hkey a ha, hkey b hb]; exact hab)
  · intro L hL
    rw [chain_congr L hlvl]
    apply Linked_congr (wf.linked L hL) (hld _ L (Or.inl rfl))
    intro a ha
    exact hld _ L (Or.inr ⟨a, mem_chain ha, rfl⟩)
  · unfold entries
    apply List.map_congr_left
    intro i hi
    simp [entryAt, hfr i hi]

theorem WF.lt_length {h : Heap} {s : sorted_set} {order : List Nat} (wf : WF h s order) :
    order.length ≤ h.length :=
  length_le_of_nodup_lt wf.nodup (fun i hi => (wf.valid i hi).lt)

theorem WF.head_zero {h : Heap} {s : sorted_set} {order : List Nat} (wf : WF h s order) :
    s.next[0]? = some order.head? ∧ Linked h s 0 .set order := by
  have hlink := wf.linked 0 (by have := wf.layers_pos; omega)
  rw [wf.chain_zero] at hlink
  have hload := Linked_load hlink
  simp only [load_next, next_array, Option.some_bind] at hload
  exact ⟨hload, hlink⟩

/-- The `sorted_set_difference` of two well-formed sets of the same heap: the
call succeeds; the output set is well-formed, made of fresh nodes, and holds
copies of the entries of `a` whose key is not a key of `b`, in order; the
nodes that existed before are untouched. -/
theorem WF.difference {h : Heap} {a b : sorted_set} {oa ob : List Nat}
    (wa : WF h a oa) (wb : WF h b ob) (lv : Nat → Nat) (hlv : ∀ n, 1 ≤ lv n) :
    ∃ h' out oo, sorted_set_difference h a b lv = some (h', out) ∧
      OutInv h h' out oo ∧
      entries h' oo = ((entries h oa).filter
        (fun e => decide (ekey e ∉ (entries h ob).map ekey))).map copy_entry := by
  obtain ⟨ha0, hla⟩ := wa.head_zero
  obtain ⟨hb0, hlb⟩ := wb.head_zero
  obtain ⟨h', out, oo, hloop, inv, hent⟩ := difference_loop_spec lv hlv (h.length + 1)
    (2 * h.length + 1) oa ob .set .set h sorted_set_create 0 [] hla wa.valid wa.sorted
    hlb wb.valid wb.sorted ⟨WF_create h, le_refl _, fun _ _ => rfl, by simp⟩ (by simp [entries])
    (by have := wa.lt_length; have := wb.lt_length; omega)
    (by have := wa.lt_length; omega)
  refine ⟨h', out, oo, ?_, inv, ?_⟩
  · unfold sorted_set_difference
    simp only [ha0, hb0]
    exact hloop
  · rw [hent]
    simp only [entries, List.nil_append, List.map_nil, List.filter_map, List.map_map]
    congr 1
    apply List.filter_congr
    intro i _
    simp [Function.comp, ekey_entryAt]

/-! ## The key order is the lexicographic order -/

/-- On keys without NUL, `key_lt` is the lexicographic order of the
NUL-terminated strings. -/
theorem key_lt_iff_lex {s t : List Int} (hs : (0 : Int) ∉ s) (ht : (0 : Int) ∉ t) :
    key_lt s t ↔ List.Lex (· < ·) (s ++ [0]) (t ++ [0]) := by
  unfold key_lt
  induction s generalizing t with
  | nil =>
    cases t with
    | nil => simp [str_cmp]
    | cons y ys =>
      simp only [List.mem_cons, not_or] at ht
      simp only [str_cmp, List.nil_append, List.cons_append]
      constructor
      · intro h; exact List.Lex.rel (by omega)
      · intro h
        cases h with
        | cons h => exact absurd rfl ht.1
        | rel h => omega
  | cons x xs ih =>
    simp only [List.mem_cons, not_or] at hs
    cases t with
    | nil =>
      simp only [str_cmp, List.nil_append, List.cons_append]
      constructor
      · intro h; exact List.Lex.rel h
      · intro h
        cases h with
        | cons h => exact absurd rfl hs.1
        | rel h => exact h
    | cons y ys =>
      simp only [List.mem_cons, not_or] at ht
      simp only [str_cmp, List.cons_append]
      by_cases hxy : x = y
      · subst hxy
        simp only [if_true]
        rw [ih hs.2 ht.2, List.Lex.cons_iff]
      · simp only [hxy, if_false]
        constructor
        · intro h; exact List.Lex.rel (by omega)
        · intro h
          cases h with
          | cons h => exact absurd rfl hxy
          | rel h => omega

/-- On keys made of chars with a positive value, `key_lt` is the
lexicographic order of the keys. -/
theorem key_lt_iff_lex_pos {s t : List Int} (hs : ∀ x ∈ s, (0 : Int) < x)
    (ht : ∀ x ∈ t, (0 : Int) < x) : key_lt s t ↔ List.Lex (· < ·) s t := by
  unfold key_lt
  induction s generalizing t with
  | nil =>
    cases t with
    | nil => simp [str_cmp]
    | cons y ys =>
      have := ht y (by simp)
      simp only [str_cmp]
      constructor
      · intro _; exact List.Lex.nil
      · intro _; omega
  | cons x xs ih =>
    have hx := hs x (by simp)
    cases t with
    | nil =>
      simp only [str_cmp, List.Lex.not_nil_right, iff_false]
      omega
    | cons y ys =>
      simp only [str_cmp]
      by_cases hxy : x = y
      · subst hxy
        simp only [if_true]
        rw [ih (fun z hz => hs z (by simp [hz])) (fun z hz => ht z (by simp [hz])),
          List.Lex.cons_iff]
      · simp only [hxy, if_false]
        constructor
        · intro h; exact List.Lex.rel (by omega)
        · intro h
          cases h with
          | cons h => exact absurd rfl hxy
          | rel h => omega

theorem WF.entries_sorted {h : Heap} {s : sorted_set} {order : List Nat} (wf : WF h s order) :
    (entries h order).Pairwise (fun a b => key_lt (ekey a) (ekey b)) := by
  unfold entries
  rw [List.pairwise_map]
  exact wf.sorted.imp (fun {a b} hab => by rw [ekey_entryAt, ekey_entryAt]; exact hab)

theorem WF.entries_valid {h : Heap} {s : sorted_set} {order : List Nat} (wf : WF h s order) :
    ∀ e ∈ entries h order, strlen e.1 = some e.2.1 := by
  intro e he
  simp only [entries, List.mem_map] at he
  obtain ⟨i, hi, rfl⟩ := he
  obtain ⟨nd, hnd, hs⟩ := wf.valid i hi
  rw [entryAt_of_get hnd]; exact hs

theorem WF.entries_length {h : Heap} {s : sorted_set} {order : List Nat} (wf : WF h s order) :
    (entries h order).length = s.size := by
  simp [entries, wf.size_eq]

/-- A set built by valid calls is well-formed, its entries are those of
`model_run`, and building it leaves the nodes that existed untouched. -/
theorem build_spec (h0 : Heap) (calls : List add_call) (hv : ∀ c ∈ calls, ValidCall c) :
    ∃ order, run_add_keys h0 sorted_set_create calls =
        some ((model_run [] calls).1, (build h0 calls).1, (build h0 calls).2) ∧
      WF (build h0 calls).1 (build h0 calls).2 order ∧
      entries (build h0 calls).1 order = (model_run [] calls).2 ∧
      h0.length ≤ (build h0 calls).1.length ∧
      (∀ j, j < h0.length → (build h0 calls).1[j]? = h0[j]?) := by
  obtain ⟨h', s', o', hrun, wf, hent, hlen, hfr, _⟩ := (WF_create h0).run_add_keys calls hv
  have e0 : entries h0 [] = [] := rfl
  rw [e0] at hrun hent
  have hb : build h0 calls = (h', s') := by simp [build, hrun]
  rw [hb]
  exact ⟨o', hrun, wf, hent, hlen, fun j hj => hfr j hj (by simp)⟩

theorem keys_nodup_of_sorted {l : List Entry}
    (hs : l.Pairwise (fun a b => key_lt (ekey a) (ekey b))) : (l.map ekey).Nodup := by
  unfold List.Nodup
  rw [List.pairwise_map]
  exact hs.imp (fun {a b} hab hc => by rw [hc] at hab; exact key_lt_irrefl _ hab)

/-- A DUPLICATE result comes from the early return of `sorted_set_add_key`,
which hands back the heap and the set it was given. -/
theorem add_key_duplicate_state {h : Heap} {s : sorted_set} {key : List Int}
    {length data new_level : Nat} {h' : Heap} {s' : sorted_set}
    (hd : sorted_set_add_key h s key length data new_level =
      some (SORTED_SET_ADD_KEY_DUPLICATE, h', s')) : h' = h ∧ s' = s := by
  unfold sorted_set_add_key at hd
  split at hd
  · cases hd
  · rename_i len _
    split at hd
    · cases hd
    · simp only at hd
      split at hd
      · cases hd
      · simp only [Option.some.injEq, Prod.mk.injEq, true_and] at hd
        exact ⟨hd.1.symm, hd.2.symm⟩
      · split at hd
        · simp only [Option.map_eq_some', Prod.mk.injEq, reduceCtorEq, false_and,
            and_false, exists_false] at hd
        · split at hd
          · cases hd
          · split at hd
            · cases hd
            · simp only [Option.some.injEq, Prod.mk.injEq, reduceCtorEq, false_and] at hd

/-! ## Calls with arbitrary keys -/

theorem SWF.struct_chain_zero {h : Heap} {s : sorted_set} {order : List Nat}
    (wf : SWF h s order) : chain h order 0 = order := by
  unfold chain
  rw [List.filter_eq_self]
  intro i hi
  have := (wf.lvl i hi).1
  simp; omega

theorem SWF.struct_chain_top {h : Heap} {s : sorted_set} {order : List Nat}
    (wf : SWF h s order) {L : Nat} (hL : s.layers ≤ L) : chain h order L = [] := by
  unfold chain
  rw [List.filter_eq_nil_iff]
  intro i hi
  have := (wf.lvl i hi).2
  simp; omega

theorem SWF.struct_lt_length {h : Heap} {s : sorted_set} {order : List Nat} (wf : SWF h s order) :
    order.length ≤ h.length :=
  length_le_of_nodup_lt wf.nodup wf.bound

theorem chain_mono {h : Heap} {l : List Nat} {L L' : Nat} (hLL : L ≤ L')
    (he : chain h l L = []) : chain h l L' = [] := by
  unfold chain at *
  rw [List.filter_eq_nil_iff] at *
  intro i hi hc
  apply he i hi
  simp only [decide_eq_true_eq] at hc ⊢
  omega

/-- The inner loop, when it ends without a match, has passed nodes that
compare positive and stands in front of a node that compares negative, or at
the end of the chain. -/
theorem search_level_stop {h : Heap} {s : sorted_set} {probe : node} {L : Nat}
    (suffix : List Nat) :
    ∀ (r : NodeRef) (fuel : Nat), Linked h s L r suffix → suffix.length < fuel →
      ∀ r', search_level h s probe L fuel r = some (none, r') →
      ∃ passed rest, suffix = passed ++ rest ∧ r' = lastRef r passed ∧
        (∀ x ∈ passed, CmpPos h probe x) ∧ (∀ e, rest.head? = some e → CmpNeg h probe e) := by
  induction suffix with
  | nil =>
    intro r fuel hl hf r' hr
    obtain ⟨f, rfl⟩ : ∃ f, fuel = f + 1 := ⟨fuel - 1, by simp at hf; omega⟩
    simp only [Linked] at hl
    simp only [search_level, hl, Option.some.injEq, Prod.mk.injEq, true_and] at hr
    exact ⟨[], [], rfl, hr.symm, by simp, by simp⟩
  | cons a rest ih =>
    intro r fuel hl hf r' hr
    obtain ⟨f, rfl⟩ : ∃ f, fuel = f + 1 := ⟨fuel - 1, by simp at hf; omega⟩
    simp only [Linked] at hl
    rw [search_level] at hr
    simp only [hl.1] at hr
    rcases ha : h[a]? with _ | nd
    · simp [ha] at hr
    · simp only [ha] at hr
      rcases hc : key_compare probe nd with _ | c
      · simp [hc] at hr
      · simp only [hc] at hr
        by_cases h0 : c = 0
        · simp [h0] at hr
        · simp only [h0, if_false] at hr
          by_cases hpos : c > 0
          · simp only [hpos, if_true] at hr
            obtain ⟨passed, rest', hsplit, hr', hp, hn⟩ :=
              ih (.node a) f hl.2 (by simp at hf; omega) r' hr
            refine ⟨a :: passed, rest', by rw [hsplit]; rfl, by rw [hr']; rfl, ?_, hn⟩
            intro x hx
            rcases List.mem_cons.mp hx with rfl | hx
            · exact ⟨nd, c, ha, hc, hpos⟩
            · exact hp x hx
          · simp only [hpos, if_false, Option.some.injEq, Prod.mk.injEq, true_and] at hr
            refine ⟨[], a :: rest, rfl, hr.symm, by simp, ?_⟩
            intro e he
            simp only [List.head?_cons, Option.some.injEq] at he
            subst he
            exact ⟨nd, c, ha, hc, by omega⟩

theorem not_pos_and_neg {h : Heap} {probe : node} {x : Nat} (hp : CmpPos h probe x)
    (hn : CmpNeg h probe x) : False := by
  obtain ⟨nd, c, h1, h2, h3⟩ := hp
  obtain ⟨nd', c', h1', h2', h3'⟩ := hn
  rw [h1] at h1'; cases h1'
  rw [h2] at h2'; cases h2'
  omega

theorem EndsAt.lastRef_chain {h : Heap} {P : List Nat} {r : NodeRef} {l : Nat}
    (he : EndsAt h P r l) {L : Nat} (hL : L ≤ l) : lastRef .set (chain h P L) = r := by
  rcases he with ⟨rfl, rfl⟩ | ⟨P0, u, rfl, rfl, hu⟩
  · rfl
  · have : chain h (P0 ++ [u]) L = chain h P0 L ++ [u] := by
      rw [chain_append]
      have : L < level h u := by omega
      simp [chain, this]
    rw [this, lastRef_concat]

theorem nodup_split_unique {α : Type} {a b c d : List α} {x : α}
    (hn : (a ++ x :: b).Nodup) (he : a ++ x :: b = c ++ x :: d) : a = c ∧ b = d := by
  induction a generalizing c with
  | nil =>
    cases c with
    | nil => simpa using he
    | cons y c =>
      simp only [List.nil_append, List.cons_append, List.cons.injEq] at he
      obtain ⟨rfl, hb⟩ := he
      simp only [List.nil_append, List.nodup_cons] at hn
      exact absurd (by rw [hb]; simp) hn.1
  | cons y a ih =>
    cases c with
    | nil =>
      simp only [List.nil_append, List.cons_append, List.cons.injEq] at he
      obtain ⟨rfl, _⟩ := he
      simp only [List.cons_append, List.nodup_cons] at hn
      exact absurd (by simp) hn.1
    | cons z c =>
      simp only [List.cons_append, List.cons.injEq] at he
      obtain ⟨rfl, he⟩ := he
      simp only [List.cons_append, List.nodup_cons] at hn
      obtain ⟨h1, h2⟩ := ih hn.2 he
      exact ⟨by rw [h1], h2⟩

/-- One level of the search, for arbitrary keys: when the level ends without
a match, the search has left behind a longer prefix of the nodes of the set,
ending in the node it stands at; the nodes it passed do not reach above this
level, and it stands in front of a node that compares negative or at the end
of the level. -/
theorem SWF.level_step {h : Heap} {s : sorted_set} {order : List Nat}
    (wf : SWF h s order) {probe : node} {l : Nat} (hl : l < s.layers)
    {P Q : List Nat} {r : NodeRef} (hPQ : order = P ++ Q) (hend : EndsAt h P r l)
    (hstop : ∀ e, (chain h Q (l + 1)).head? = some e → CmpNeg h probe e)
    {r' : NodeRef}
    (hw : search_level h s probe l (h.length + 1) r = some (none, r')) :
    ∃ P' Q', order = P' ++ Q' ∧ (∀ m, m ≤ l → EndsAt h P' r' m) ∧
      lastRef .set (chain h P' l) = r' ∧
      (∀ L', l < L' → chain h P' L' = chain h P L') ∧
      (∀ e, (chain h Q' l).head? = some e → CmpNeg h probe e) := by
  have hlink : Linked h s l r (chain h Q l) := by
    have := wf.linked l hl
    rw [hPQ, chain_append] at this
    rw [← hend.lastRef_chain (le_refl l)]
    exact Linked_append this
  have hlen : (chain h Q l).length < h.length + 1 := by
    have h1 : (chain h Q l).length ≤ Q.length := (chain_sublist h Q l).length_le
    have h2 := wf.struct_lt_length
    rw [hPQ, List.length_append] at h2
    omega
  obtain ⟨passed, rest, hsplit, hr', hpos, hneg⟩ := search_level_stop _ r _ hlink hlen r' hw
  rcases List.eq_nil_or_concat passed with rfl | ⟨passed0, w, rfl⟩
  · -- nothing was passed
    simp only [lastRef] at hr'
    subst hr'
    refine ⟨P, Q, hPQ, ?_, hend.lastRef_chain (le_refl l), fun _ _ => rfl, ?_⟩
    · intro m hm
      rcases hend with ⟨h1, h2⟩ | ⟨P0, u, h1, h2, h3⟩
      · exact Or.inl ⟨h1, h2⟩
      · exact Or.inr ⟨P0, u, h1, h2, by omega⟩
    · intro e he
      rw [hsplit] at he
      exact hneg e (by simpa using he)
  · -- the last node passed is `w`
    simp only [List.concat_eq_append] at hsplit hr' hpos
    have hr'' : r' = .node w := by rw [hr', lastRef_concat]
    have hwc : w ∈ chain h Q l := by rw [hsplit]; simp
    have hwl : l < level h w := by
      have := (List.mem_filter.mp hwc).2
      simpa using this
    obtain ⟨Q1, Q2, hQ⟩ := List.append_of_mem (mem_chain hwc)
    have hcw : chain h [w] l = [w] := by simp [chain, hwl]
    have hcQ : chain h Q l = chain h Q1 l ++ w :: chain h Q2 l := by
      rw [hQ]
      have : Q1 ++ w :: Q2 = Q1 ++ ([w] ++ Q2) := by simp
      rw [this, chain_append, chain_append, hcw]
      simp
    have hnd : (chain h Q l).Nodup := by
      have : (chain h Q l).Sublist order := by
        rw [hPQ]
        exact (chain_sublist h Q l).trans (List.sublist_append_right P Q)
      exact wf.nodup.sublist this
    have heq : chain h Q1 l ++ w :: chain h Q2 l = passed0 ++ w :: rest := by
      rw [← hcQ, hsplit]; simp
    obtain ⟨h1, h2⟩ := nodup_split_unique (by rw [← hcQ]; exact hnd) heq
    have hcQ1w : chain h (Q1 ++ [w]) l = passed0 ++ [w] := by
      rw [chain_append, hcw, h1]
    -- the passed nodes are not on the level above
    have habove : chain h (Q1 ++ [w]) (l + 1) = [] := by
      rcases hh : chain h (Q1 ++ [w]) (l + 1) with _ | ⟨e0, t⟩
      · rfl
      · exfalso
        have he0 : e0 ∈ chain h (Q1 ++ [w]) (l + 1) := by rw [hh]; simp
        have he0l : e0 ∈ chain h (Q1 ++ [w]) l := by
          rw [chain_succ] at he0
          exact (List.mem_filter.mp he0).1
        rw [hcQ1w] at he0l
        have hp := hpos e0 he0l
        have hhead : (chain h Q (l + 1)).head? = some e0 := by
          rw [hQ]
          have : Q1 ++ w :: Q2 = (Q1 ++ [w]) ++ Q2 := by simp
          rw [this, chain_append, hh]
          rfl
        exact not_pos_and_neg hp (hstop e0 hhead)
    refine ⟨P ++ (Q1 ++ [w]), Q2, by rw [hPQ, hQ]; simp, ?_, ?_, ?_, ?_⟩
    · intro m hm
      exact Or.inr ⟨P ++ Q1, w, by simp, hr'', by omega⟩
    · rw [chain_append, hcQ1w, lastRef_append, hend.lastRef_chain (le_refl l), hr']
    · intro L' hL'
      rw [chain_append, chain_mono (by omega : l + 1 ≤ L') habove, List.append_nil]
    · intro e he
      rw [h2] at he
      exact hneg e he

/-- The search of `sorted_set_add_key`, for arbitrary keys: when it ends
without a match, `update[L]` is, at every level, the last node of level `L`
among a prefix `P'` of the nodes of the set. -/
theorem SWF.search_split {h : Heap} {s : sorted_set} {order : List Nat}
    (wf : SWF h s order) {probe : node} :
    ∀ (l : Nat) (upd : List (Option NodeRef)) (P Q : List Nat) (r : NodeRef),
      l < s.layers → order = P ++ Q → EndsAt h P r l →
      (∀ e, (chain h Q (l + 1)).head? = some e → CmpNeg h probe e) →
      (∀ L', l < L' → L' < s.layers →
        upd[L']? = some (some (lastRef .set (chain h P L')))) →
      upd.length = s.layers →
      ∀ upd', search h s probe l r upd = some (some upd') →
      ∃ P' Q', order = P' ++ Q' ∧
        ∀ L', L' < s.layers → upd'[L']? = some (some (lastRef .set (chain h P' L'))) := by
  intro l
  induction l with
  | zero =>
    intro upd P Q r hl hPQ hend hstop hupd hlen upd' hs
    rw [search] at hs
    rcases hw : search_level h s probe 0 (h.length + 1) r with _ | ⟨m, r'⟩
    · simp [hw] at hs
    · cases m with
      | some n => simp [hw] at hs
      | none =>
        simp only [hw, Option.some.injEq] at hs
        obtain ⟨P', Q', hPQ', _, hlast, habove, _⟩ := wf.level_step hl hPQ hend hstop hw
        refine ⟨P', Q', hPQ', ?_⟩
        intro L' hL'
        rw [← hs]
        by_cases h0 : L' = 0
        · subst h0
          rw [List.getElem?_set_self (by omega), hlast]
        · rw [List.getElem?_set_ne (by omega), habove L' (by omega)]
          exact hupd L' (by omega) hL'
  | succ l ih =>
    intro upd P Q r hl hPQ hend hstop hupd hlen upd' hs
    rw [search] at hs
    rcases hw : search_level h s probe (l + 1) (h.length + 1) r with _ | ⟨m, r'⟩
    · simp [hw] at hs
    · cases m with
      | some n => simp [hw] at hs
      | none =>
        simp only [hw] at hs
        obtain ⟨P', Q', hPQ', hend', hlast, habove, hstop'⟩ :=
          wf.level_step hl hPQ hend hstop hw
        apply ih (upd.set (l + 1) (some r')) P' Q' r' (by omega) hPQ' (hend' l (by omega))
          hstop' ?_ (by simp [hlen]) upd' hs
        intro L' h1 h2
        by_cases h0 : L' = l + 1
        · subst h0
          rw [List.getElem?_set_self (by omega), hlast]
        · rw [List.getElem?_set_ne (by omega), habove L' (by omega)]
          exact hupd L' (by omega) h2

/-- A call of `sorted_set_add_key` that returns, with any key: the structure
of the skip list is kept; on DUPLICATE nothing changes, on UNIQUE a node
with the given key pointer, the length used and the given data is spliced
into the nodes of the set, and nodes outside the set are not touched. -/
theorem SWF.struct_add_key {h : Heap} {s : sorted_set} {order : List Nat} (wf : SWF h s order)
    {key : List Int} {length data new_level : Nat} (hlev : 1 ≤ new_level)
    {r : sorted_set_add_key_result} {h' : Heap} {s' : sorted_set}
    (hadd : sorted_set_add_key h s key length data new_level = some (r, h', s')) :
    (r = SORTED_SET_ADD_KEY_DUPLICATE ∧ h' = h ∧ s' = s) ∨
    (r = SORTED_SET_ADD_KEY_UNIQUE ∧ ∃ pre post len, order = pre ++ post ∧
      (if length = 0 then strlen key else some length) = some len ∧
      Spliced h s pre key len data new_level h' s' ∧
      SWF h' s' (pre ++ h.length :: post)) := by
  cases r with
  | SORTED_SET_ADD_KEY_DUPLICATE =>
    exact Or.inl ⟨rfl, add_key_duplicate_state hadd⟩
  | SORTED_SET_ADD_KEY_UNIQUE =>
    right
    refine ⟨rfl, ?_⟩
    have hl0 : s.layers ≠ 0 := by have := wf.layers_pos; omega
    rcases heff : (if length = 0 then strlen key else some length) with _ | len
    · unfold sorted_set_add_key at hadd
      simp [heff] at hadd
    · rcases hs : search h s { next := [], key := key, length := len, data := 0 }
          (s.layers - 1) .set (List.replicate s.layers none) with _ | res
      · unfold sorted_set_add_key at hadd
        simp [heff, hl0, hs] at hadd
      · cases res with
        | none =>
          unfold sorted_set_add_key at hadd
          simp [heff, hl0, hs] at hadd
        | some upd =>
          obtain ⟨P, Q, hPQ, hupd⟩ := wf.search_split (s.layers - 1)
            (List.replicate s.layers none) [] order .set (by omega) rfl
            (Or.inl ⟨rfl, rfl⟩)
            (by
              intro e he
              rw [wf.struct_chain_top (by omega)] at he
              simp at he)
            (by intro L' h1 h2; omega) (by simp) upd hs
          subst hPQ
          obtain ⟨h2, s2, hadd2, sp⟩ := wf.add_key_of_search data heff hs hupd
          rw [hadd2] at hadd
          simp only [Option.some.injEq, Prod.mk.injEq, true_and] at hadd
          obtain ⟨rfl, rfl⟩ := hadd
          exact ⟨P, Q, len, rfl, rfl, sp, SWF_of_spliced wf hlev sp⟩

theorem SWF_create (h : Heap) : SWF h sorted_set_create [] := (WF_create h).toSWF

theorem SWF.struct_head_zero {h : Heap} {s : sorted_set} {order : List Nat} (wf : SWF h s order) :
    s.next[0]? = some order.head? ∧ Linked h s 0 .set order := by
  have hlink := wf.linked 0 (by have := wf.layers_pos; omega)
  rw [wf.struct_chain_zero] at hlink
  have hload := Linked_load hlink
  simp only [load_next, next_array, Option.some_bind] at hload
  exact ⟨hload, hlink⟩

/-- On a set with the structure of a skip list, whatever its keys,
`sorted_set_apply` calls `fn` on the entries of its nodes, in order. -/
theorem SWF.struct_apply {h : Heap} {s : sorted_set} {order : List Nat} (wf : SWF h s order) :
    sorted_set_apply h s = some (entries h order) := by
  have hl0 : s.layers ≠ 0 := by have := wf.layers_pos; omega
  obtain ⟨hload, hlink⟩ := wf.struct_head_zero
  unfold sorted_set_apply
  simp only [hl0, if_false, hload]
  exact apply_loop_spec order .set h.length hlink wf.struct_lt_length

/-- On a set with the structure of a skip list, whatever its keys,
`sorted_set_flatten_keys` returns the key pointers of its nodes in order,
and reports `size`. -/
theorem SWF.struct_flatten_keys {h : Heap} {s : sorted_set} {order : List Nat} (wf : SWF h s order)
    (n_keys_out : Bool) :
    sorted_set_flatten_keys h s n_keys_out =
      some ((entries h order).map (fun e => e.1), if n_keys_out then some s.size else none) := by
  obtain ⟨hload, hlink⟩ := wf.struct_head_zero
  unfold sorted_set_flatten_keys
  simp only [hload, wf.size_eq]
  rw [flatten_loop_spec order .set hlink]
  simp [entries]

/-- Every sequence of `sorted_set_add_key` calls that returns, with any keys
and lengths and levels of at least 1, keeps the structure of the skip
list. -/
theorem SWF.struct_run_add_keys {h : Heap} {s : sorted_set} {order : List Nat} (wf : SWF h s order)
    (calls : List add_call) (hlev : ∀ c ∈ calls, 1 ≤ c.new_level)
    {rs : List sorted_set_add_key_result} {h' : Heap} {s' : sorted_set}
    (hrun : SortedSet.run_add_keys h s calls = some (rs, h', s')) :
    ∃ order', SWF h' s' order' := by
  induction calls generalizing h s order rs with
  | nil =>
    simp only [SortedSet.run_add_keys, Option.some.injEq, Prod.mk.injEq] at hrun
    obtain ⟨_, rfl, rfl⟩ := hrun
    exact ⟨order, wf⟩
  | cons c cs ih =>
    rw [SortedSet.run_add_keys] at hrun
    rcases hadd : sorted_set_add_key h s c.key c.length c.data c.new_level with _ | ⟨r, h1, s1⟩
    · simp [hadd] at hrun
    · simp only [hadd] at hrun
      rcases hrest : SortedSet.run_add_keys h1 s1 cs with _ | ⟨rs1, h2, s2⟩
      · simp [hrest] at hrun
      · simp only [hrest, Option.map_some', Option.some.injEq, Prod.mk.injEq] at hrun
        obtain ⟨_, rfl, rfl⟩ := hrun
        rcases wf.struct_add_key (hlev c (by simp)) hadd with ⟨_, rfl, rfl⟩ | ⟨_, pre, post, len, _, _, _, wf1⟩
        · exact ih wf (fun c' hc' => hlev c' (by simp [hc'])) hrest
        · exact ih wf1 (fun c' hc' => hlev c' (by simp [hc'])) hrest

/-- A call of `sorted_set_add_key` on the output set that returns leaves the
nodes that existed when `sorted_set_difference` began untouched. -/
theorem OutFrame.after_add_key {h0 h : Heap} {out : sorted_set} {oo : List Nat}
    (inv : OutFrame h0 h out oo) {key : List Int} {length data v : Nat} (hlev : 1 ≤ v)
    {r : sorted_set_add_key_result} {h' : Heap} {out' : sorted_set}
    (hadd : sorted_set_add_key h out key length data v = some (r, h', out')) :
    ∃ oo', OutFrame h0 h' out' oo' := by
  rcases inv.swf.struct_add_key hlev hadd with ⟨_, rfl, rfl⟩ | ⟨_, pre, post, len, hsplit, _, sp, swf'⟩
  · exact ⟨oo, inv⟩
  · refine ⟨_, swf', by rw [sp.hlen]; have := inv.len; omega, ?_, ?_⟩
    · intro i hi
      have hip : i ∉ pre := by
        intro hc
        have := inv.fresh i (by rw [hsplit]; simp [hc])
        omega
      rw [sp.frame i (by have := inv.len; omega) hip, inv.frame i hi]
    · intro j hj
      have hj' : j = h.length ∨ j ∈ oo := by
        rw [hsplit]
        simp only [List.mem_append, List.mem_cons] at hj ⊢
        tauto
      rcases hj' with rfl | hj'
      · exact inv.len
      · exact inv.fresh j hj'

theorem OutFrame.add_key_copy {h0 h : Heap} {out : sorted_set} {oo : List Nat}
    (inv : OutFrame h0 h out oo) {key : List Int} {length data v : Nat} (hlev : 1 ≤ v)
    {r : sorted_set_add_key_result} {h' : Heap} {out' : sorted_set}
    (hadd : sorted_set_add_key_copy h out key length data v = some (r, h', out')) :
    ∃ oo', OutFrame h0 h' out' oo' := by
  unfold sorted_set_add_key_copy at hadd
  split at hadd
  · split at hadd
    · cases hadd
    · exact inv.after_add_key hlev hadd
  · split at hadd
    · cases hadd
    · exact inv.after_add_key hlev hadd

theorem difference_rest_frame {h0 : Heap} (lv : Nat → Nat) (hlv : ∀ n, 1 ≤ lv n)
    (fuel : Nat) :
    ∀ (h : Heap) (out : sorted_set) (n : Nat) (pa : Option Nat) (oo : List Nat)
      (h' : Heap) (out' : sorted_set), OutFrame h0 h out oo →
      difference_rest lv fuel h out n pa = some (h', out') →
      ∃ oo', OutFrame h0 h' out' oo' := by
  induction fuel with
  | zero =>
    intro h out n pa oo h' out' inv hd
    cases pa with
    | none =>
      simp only [difference_rest, Option.some.injEq, Prod.mk.injEq] at hd
      obtain ⟨rfl, rfl⟩ := hd
      exact ⟨oo, inv⟩
    | some a => simp [difference_rest] at hd
  | succ f ih =>
    intro h out n pa oo h' out' inv hd
    cases pa with
    | none =>
      simp only [difference_rest, Option.some.injEq, Prod.mk.injEq] at hd
      obtain ⟨rfl, rfl⟩ := hd
      exact ⟨oo, inv⟩
    | some a =>
      rw [difference_rest] at hd
      rcases ha : h[a]? with _ | an
      · simp [ha] at hd
      · simp only [ha] at hd
        rcases hadd : sorted_set_add_key_copy h out an.key an.length an.data (lv n)
          with _ | ⟨r, h1, out1⟩
        · simp [hadd] at hd
        · simp only [hadd] at hd
          obtain ⟨oo1, inv1⟩ := inv.add_key_copy (hlv n) hadd
          rcases hnx : (h1[a]?).bind (fun an' => an'.next[0]?) with _ | a'
          · simp [hnx] at hd
          · simp only [hnx] at hd
            exact ih h1 out1 (n + 1) a' oo1 h' out' inv1 hd

theorem difference_loop_frame {h0 : Heap} (lv : Nat → Nat) (hlv : ∀ n, 1 ≤ lv n)
    (fuel2 : Nat) (fuel : Nat) :
    ∀ (h : Heap) (out : sorted_set) (n : Nat) (pa pb : Option Nat) (oo : List Nat)
      (h' : Heap) (out' : sorted_set), OutFrame h0 h out oo →
      difference_loop lv fuel2 fuel h out n pa pb = some (h', out') →
      ∃ oo', OutFrame h0 h' out' oo' := by
  induction fuel with
  | zero =>
    intro h out n pa pb oo h' out' inv hd
    cases pa with
    | none =>
      simp only [difference_loop] at hd
      exact difference_rest_frame lv hlv fuel2 h out n none oo h' out' inv hd
    | some a =>
      cases pb with
      | none =>
        simp only [difference_loop] at hd
        exact difference_rest_frame lv hlv fuel2 h out n (some a) oo h' out' inv hd
      | some b => simp [difference_loop] at hd
  | succ f ih =>
    intro h out n pa pb oo h' out' inv hd
    cases pa with
    | none =>
      simp only [difference_loop] at hd
      exact difference_rest_frame lv hlv fuel2 h out n none oo h' out' inv hd
    | some a =>
      cases pb with
      | none =>
        simp only [difference_loop] at hd
        exact difference_rest_frame lv hlv fuel2 h out n (some a) oo h' out' inv hd
      | some b =>
        rw [difference_loop] at hd
        rcases ha : h[a]? with _ | an
        · simp [ha] at hd
        · rcases hb : h[b]? with _ | bn
          · simp [ha, hb] at hd
          · simp only [ha, hb] at hd
            rcases hc : key_compare an bn with _ | c
            · simp [hc] at hd
            · simp only [hc] at hd
              by_cases h0c : c = 0
              · simp only [h0c, if_true] at hd
                rcases hax : an.next[0]? with _ | a'
                · simp [hax] at hd
                · rcases hbx : bn.next[0]? with _ | b'
                  · simp [hax, hbx] at hd
                  · simp only [hax, hbx] at hd
                    exact ih h out n a' b' oo h' out' inv hd
              · simp only [h0c, if_false] at hd
                by_cases hneg : c < 0
                · simp only [hneg, if_true] at hd
                  rcases hadd : sorted_set_add_key_copy h out an.key an.length an.data (lv n)
                    with _ | ⟨r, h1, out1⟩
                  · simp [hadd] at hd
                  · simp only [hadd] at hd
                    obtain ⟨oo1, inv1⟩ := inv.add_key_copy (hlv n) hadd
                    rcases hnx : (h1[a]?).bind (fun an' => an'.next[0]?) with _ | a'
                    · simp [hnx] at hd
                    · simp only [hnx] at hd
                      exact ih h1 out1 (n + 1) a' (some b) oo1 h' out' inv1 hd
                · simp only [hneg, if_false] at hd
                  rcases hbx : bn.next[0]? with _ | b'
                  · simp [hbx] at hd
                  · simp only [hbx] at hd
                    exact ih h out n (some a) b' oo h' out' inv hd

/-- Whatever sets `sorted_set_difference` is called on, when it returns the
nodes that existed before the call are untouched and the output set is made
of nodes allocated by the call. -/
theorem difference_frame {h : Heap} {a b : sorted_set} (lv : Nat → Nat)
    (hlv : ∀ n, 1 ≤ lv n) {h' : Heap} {out : sorted_set}
    (hd : sorted_set_difference h a b lv = some (h', out)) :
    ∃ oo, OutFrame h h' out oo := by
  unfold sorted_set_difference at hd
  split at hd
  · exact difference_loop_frame lv hlv _ _ h sorted_set_create 0 _ _ [] h' out
      ⟨SWF_create h, le_refl _, fun _ _ => rfl, by simp⟩ hd
  · cases hd

/-- A key compared with itself: 0, when the buffer holds `length` chars. -/
theorem key_compare_loop_self (nd : node) :
    ∀ (n i : Nat), i + n ≤ nd.key.length → key_compare_loop nd nd i n = some 0 := by
  intro n
  induction n with
  | zero => intro i _; rfl
  | succ n ih =>
    intro i hi
    have hlt : i < nd.key.length := by omega
    rw [key_compare_loop, List.getElem?_eq_getElem hlt]
    simp only [ne_eq, not_true_eq_false, if_false]
    exact ih (i + 1) (by omega)

theorem key_compare_self (nd : node) (hb : nd.length ≤ nd.key.length) :
    key_compare nd nd = some 0 := by
  unfold key_compare
  simp only [gt_iff_lt, lt_self_iff_false, if_false]
  exact key_compare_loop_self nd nd.length 0 (by omega)

/-- The loops of `sorted_set_difference` on a set and itself walk the two
level-0 chains in step and add nothing to the output. -/
theorem difference_loop_self {h : Heap} {s : sorted_set} (lv : Nat → Nat) (fuel2 : Nat)
    (out : sorted_set) (n : Nat) (l : List Nat) :
    ∀ (r : NodeRef) (fuel : Nat), Linked h s 0 r l → l.length ≤ fuel →
      (∀ i ∈ l, ∀ nd, h[i]? = some nd → nd.length ≤ nd.key.length) →
      difference_loop lv fuel2 fuel h out n l.head? l.head? = some (h, out) := by
  induction l with
  | nil =>
    intro r fuel _ _ _
    cases fuel <;> cases fuel2 <;> simp [difference_loop, difference_rest]
  | cons a rest ih =>
    intro r fuel hl hf hb
    obtain ⟨f, rfl⟩ : ∃ f, fuel = f + 1 := ⟨fuel - 1, by simp at hf; omega⟩
    simp only [Linked] at hl
    obtain ⟨nd, ha, hn⟩ := load_next_node (Linked_load hl.2)
    have hself := key_compare_self nd (hb a (by simp) nd ha)
    simp only [List.head?_cons, difference_loop, ha, hself, if_true, hn]
    exact ih (.node a) f hl.2 (by simp at hf; omega)
      (fun i hi => hb i (List.mem_cons_of_mem a hi))

/-- On a set with the structure of a skip list whose key buffers hold their
`length` chars, whatever the keys are, `sorted_set_difference` of the set
and itself returns, allocates nothing and yields the empty set. -/
theorem SWF.difference_self {h : Heap} {a : sorted_set} {oa : List Nat} (wf : SWF h a oa)
    (hb : ∀ i ∈ oa, ∀ nd, h[i]? = some nd → nd.length ≤ nd.key.length) (lv : Nat → Nat) :
    sorted_set_difference h a a lv = some (h, sorted_set_create) := by
  obtain ⟨hload, hlink⟩ := wf.struct_head_zero
  unfold sorted_set_difference
  simp only [hload]
  exact difference_loop_self lv _ _ _ oa .set _ hlink (by have := wf.struct_lt_length; omega) hb

/-- The key buffers of a well-formed set hold their `length` chars. -/
theorem WF.key_in_buffer {h : Heap} {s : sorted_set} {order : List Nat} (wf : WF h s order) :
    ∀ i ∈ order, ∀ nd, h[i]? = some nd → nd.length ≤ nd.key.length := by
  intro i hi nd hnd
  obtain ⟨nd', hnd', hlen⟩ := wf.valid i hi
  rw [hnd] at hnd'
  cases hnd'
  obtain ⟨pre, post, hk, _, hl⟩ := strlen_eq_some hlen
  rw [hk, ← hl]
  simp

/-! ## The skeleton built by `sorted_set_maker_create` -/

theorem maker_layers_loop_eq :
    ∀ (fuel n acc : Nat), n ≤ fuel → maker_layers_loop fuel n acc = acc + Nat.log 2 n := by
  intro fuel
  induction fuel with
  | zero =>
    intro n acc hn
    have : n = 0 := by omega
    subst this
    simp [maker_layers_loop]
  | succ fuel ih =>
    intro n acc hn
    rw [maker_layers_loop]
    by_cases h1 : n > 1
    · rw [if_pos h1, ih (n / 2) (acc + 1) (by omega),
        Nat.log_of_one_lt_of_le (by decide : 1 < 2) (by omega : 2 ≤ n)]
      omega
    · rw [if_neg h1, Nat.log_of_lt (by omega : n < 2)]
      rfl

/-- The layer count of the maker is `floor(log2(n_keys))`. -/
theorem maker_layers_eq (n : Nat) : maker_layers n = Nat.log 2 n := by
  rw [maker_layers, maker_layers_loop_eq n n 0 (le_refl n)]
  omega

theorem two_le_div_pow {N k : Nat} (hk : k < Nat.log 2 N) : 2 ≤ N / 2 ^ k := by
  have hN : N ≠ 0 := by
    intro h0
    subst h0
    simp at hk
  have h1 : 2 ^ (k + 1) ≤ N := by
    rw [Nat.pow_le_iff_le_log (by decide : 1 < 2) hN]
    omega
  rw [Nat.le_div_iff_mul_le (by positivity)]
  rw [pow_succ] at h1
  omega

theorem div_pow_log_lt_two {N : Nat} : N / 2 ^ (Nat.log 2 N) < 2 := by
  rw [Nat.div_lt_iff_lt_mul (by positivity)]
  have := Nat.lt_pow_succ_log_self (by decide : 1 < 2) N
  rw [pow_succ] at this
  omega

/-- The landmarks loop, entered for the `k`-th halving of `N`: it ends with
`landmarks[j] = N / 2^(layers - j)` for `0 < j < layers`, and never writes
`landmarks[0]`. -/
theorem maker_landmarks_loop_spec (N : Nat) :
    ∀ (fuel k : Nat) (lm : List (Option Nat)), 1 ≤ k → k ≤ Nat.log 2 N →
      lm.length = Nat.log 2 N → Nat.log 2 N - k < fuel →
      (∀ j, Nat.log 2 N - k < j → j < Nat.log 2 N →
        lm[j]? = some (some (N / 2 ^ (Nat.log 2 N - j)))) →
      ∃ lm', maker_landmarks_loop fuel (N / 2 ^ k) (Nat.log 2 N - k) lm = some lm' ∧
        lm'.length = Nat.log 2 N ∧
        ∀ j, 1 ≤ j → j < Nat.log 2 N → lm'[j]? = some (some (N / 2 ^ (Nat.log 2 N - j))) := by
  intro fuel
  induction fuel with
  | zero => intro k lm _ _ _ hf; omega
  | succ fuel ih =>
    intro k lm hk1 hkL hlen hf hinv
    rw [maker_landmarks_loop]
    by_cases hlt : k < Nat.log 2 N
    · have h2 := two_le_div_pow hlt
      rw [if_pos (by omega : N / 2 ^ k > 1), if_pos (by omega)]
      have hdec : size_dec (Nat.log 2 N - k) = Nat.log 2 N - (k + 1) := by
        unfold size_dec
        rw [if_neg (by omega)]
        omega
      have hdiv : N / 2 ^ k / 2 = N / 2 ^ (k + 1) := by
        rw [Nat.div_div_eq_div_mul, pow_succ]
      rw [hdec, hdiv]
      apply ih (k + 1) _ (by omega) (by omega) (by simp [hlen]) (by omega)
      intro j hj1 hj2
      by_cases hj : j = Nat.log 2 N - k
      · subst hj
        rw [List.getElem?_set_self (by omega)]
        have : Nat.log 2 N - (Nat.log 2 N - k) = k := by omega
        rw [this]
      · rw [List.getElem?_set_ne (by omega)]
        exact hinv j (by omega) hj2
    · have hk : k = Nat.log 2 N := by omega
      subst hk
      have := @div_pow_log_lt_two N
      rw [if_neg (by omega)]
      exact ⟨lm, rfl, hlen, fun j hj1 hj2 => hinv j (by omega) hj2⟩

/-- The landmarks of a maker for `N ≥ 2` keys. -/
theorem maker_landmarks_spec {N : Nat} (hN : 2 ≤ N) :
    ∃ lm, maker_landmarks_loop N (N / 2) (size_dec (maker_layers N))
        (List.replicate (maker_layers N) none) = some lm ∧
      lm.length = Nat.log 2 N ∧
      ∀ j, 1 ≤ j → j < Nat.log 2 N → lm[j]? = some (some (N / 2 ^ (Nat.log 2 N - j))) := by
  have hL : 1 ≤ Nat.log 2 N := by
    rw [← Nat.pow_le_iff_le_log (by decide : 1 < 2) (by omega)]
    simpa using hN
  have hdec : size_dec (Nat.log 2 N) = Nat.log 2 N - 1 := by
    unfold size_dec
    rw [if_neg (by omega)]
  have hlt := Nat.log_lt_self 2 (by omega : N ≠ 0)
  rw [maker_layers_eq, hdec]
  have := maker_landmarks_loop_spec N N 1 (List.replicate (Nat.log 2 N) none) (le_refl 1) hL
    (by simp) (by omega) (by intro j h1 h2; omega)
  simpa using this

/-- The layer picked for node `i`, by a maker with the landmarks above: the
loop reads written entries only, divides by none that is zero, and picks a
layer at most the `j` it is entered with, which is `j` itself for node 0. -/
theorem maker_level_loop_spec {N : Nat} {lm : List (Option Nat)}
    (hlm : ∀ j, 1 ≤ j → j < Nat.log 2 N → lm[j]? = some (some (N / 2 ^ (Nat.log 2 N - j))))
    (i : Nat) :
    ∀ j, j < Nat.log 2 N → ∃ v, maker_level_loop lm i j = some v ∧ v ≤ j ∧ (i = 0 → v = j) := by
  intro j
  induction j with
  | zero => intro _; exact ⟨0, rfl, le_refl 0, fun _ => rfl⟩
  | succ j ih =>
    intro hj
    have h2 : 2 ≤ N / 2 ^ (Nat.log 2 N - (j + 1)) := two_le_div_pow (by omega)
    rw [maker_level_loop, hlm (j + 1) (by omega) hj]
    simp only
    rw [if_neg (by omega)]
    by_cases hm : i % (N / 2 ^ (Nat.log 2 N - (j + 1))) = 0
    · rw [if_pos hm]
      exact ⟨j + 1, rfl, le_refl _, fun _ => rfl⟩
    · rw [if_neg hm]
      obtain ⟨v, hv, hvj, _⟩ := ih (by omega)
      refine ⟨v, hv, by omega, ?_⟩
      intro h0
      subst h0
      simp at hm

/-- The linking loop of `sorted_set_maker_create` over layers `0 .. m-1`: at
each of them `update[L]` points to the new node and becomes the new node;
nothing else changes. -/
theorem maker_link_loop_spec {h1 : Heap} {s1 : sorted_set} (new : Nat)
    (upd : List NodeRef) (U : Nat → NodeRef) (m : Nat)
    (hU : ∀ i, i < m → upd[i]? = some (U i))
    (hUl : ∀ i, i < m → ∃ w, load_next h1 s1 (U i) i = some w) :
    ∃ h2 s2 upd', (List.range m).foldlM (maker_link_step new) (h1, s1, upd) =
        some (h2, s2, upd') ∧
      SameShape h1 h2 s1 s2 ∧ upd'.length = upd.length ∧
      (∀ j, upd'[j]? = if j < m then some (.node new) else upd[j]?) ∧
      (∀ r L, load_next h2 s2 r L =
        if L < m ∧ r = U L then some (some new) else load_next h1 s1 r L) ∧
      (∀ j, (∀ L, L < m → U L ≠ .node j) → h2[j]? = h1[j]?) := by
  induction m with
  | zero =>
    exact ⟨h1, s1, upd, by simp, SameShape.refl _ _, rfl, by simp, by simp, fun _ _ => rfl⟩
  | succ m ih =>
    obtain ⟨h2, s2, upd2, hf, hsh, hlen, hupd, hld, hfr⟩ :=
      ih (fun i hi => hU i (by omega)) (fun i hi => hUl i (by omega))
    obtain ⟨w, hw⟩ := hUl m (by omega)
    have hw2 : ∃ w', load_next h2 s2 (U m) m = some w' := by
      rw [hld]
      simp only [lt_irrefl, false_and, if_false]
      exact ⟨w, hw⟩
    obtain ⟨h3, s3, hst3, hsh3, hld3, hfr3⟩ := store_next_spec (some new) hw2
    have hum : upd2[m]? = some (U m) := by
      rw [hupd]
      simp only [lt_irrefl, if_false]
      exact hU m (by omega)
    have hml : m < upd2.length := (List.getElem?_eq_some_iff.mp hum).1
    refine ⟨h3, s3, upd2.set m (.node new), ?_, hsh.trans hsh3, by simp [hlen], ?_, ?_, ?_⟩
    · rw [List.range_succ, List.foldlM_append, hf]
      simp [maker_link_step, hum, hst3]
    · intro j
      by_cases hjm : j = m
      · subst hjm
        rw [List.getElem?_set_self hml]
        simp
      · rw [List.getElem?_set_ne (fun hc => hjm hc.symm), hupd]
        by_cases hjl : j < m
        · simp [hjl, show j < m + 1 by omega]
        · simp [hjl, show ¬ j < m + 1 by omega]
    · intro r L
      rw [hld3, hld]
      by_cases hLm : L = m
      · subst hLm
        by_cases hr : r = U L
        · simp [hr]
        · simp [hr]
      · by_cases hLl : L < m
        · simp [hLm, hLl, show L < m + 1 by omega]
        · simp [hLm, hLl, show ¬ L < m + 1 by omega]
    · intro j hj
      rw [hfr3 j (fun hc => hj m (by omega) hc), hfr j (fun L hL => hj L (by omega))]

/-- The last link of a chain is `NULL`. -/
theorem Linked_last {h : Heap} {s : sorted_set} {L : Nat} (l : List Nat) :
    ∀ (r : NodeRef), Linked h s L r l → load_next h s (lastRef r l) L = some none := by
  induction l with
  | nil => intro r hl; exact hl
  | cons a rest ih => intro r hl; exact ih (.node a) hl.2

/-- One iteration of the loop over the nodes of `sorted_set_maker_create`
keeps the state of the skeleton: the new node goes to the end of each of
its layers. -/
theorem MakerInv.step {h0 : Heap} {N : Nat} {lm : List (Option Nat)} {k : Nat} {h : Heap}
    {s : sorted_set} {upd : List NodeRef} (hL : 1 ≤ Nat.log 2 N)
    (hlm : ∀ j, 1 ≤ j → j < Nat.log 2 N → lm[j]? = some (some (N / 2 ^ (Nat.log 2 N - j))))
    (inv : MakerInv h0 lm (Nat.log 2 N) k h s upd) :
    ∃ h' s' upd', maker_node_step (Nat.log 2 N) lm (h, s, upd) k = some (h', s', upd') ∧
      MakerInv h0 lm (Nat.log 2 N) (k + 1) h' s' upd' := by
  have hdec : size_dec (Nat.log 2 N) = Nat.log 2 N - 1 := by
    unfold size_dec
    rw [if_neg (by omega)]
  obtain ⟨v, hv, hvle, _⟩ := maker_level_loop_spec hlm k (Nat.log 2 N - 1) (by omega)
  have hsl : s.layers = Nat.log 2 N := inv.layers_eq
  have hltp : ∀ i ∈ List.range' h0.length k, i < h.length := inv.swf.bound
  have hUold := fun L => (lastRef_chain_old hltp L).1
  have hUpre := fun L => (lastRef_chain_old hltp L).2
  have hUne : ∀ L, lastRef .set (chain h (List.range' h0.length k) L) ≠ .node h.length := by
    intro L hc
    have := hltp _ (hUpre L _ hc)
    omega
  have hUload : ∀ L, L < Nat.log 2 N →
      load_next h s (lastRef .set (chain h (List.range' h0.length k) L)) L = some none := by
    intro L hL
    have := Linked_last _ _ (inv.swf.linked L (by simpa [hsl] using hL))
    rw [← this]
    exact (load_next_next_congr h rfl _ L).symm
  generalize hnn : (node.mk (List.replicate (v + 1) none) [] 0 0) = nn
  have hold1 : ∀ x, (x = .set ∨ ∃ a, a < h.length ∧ x = .node a) → ∀ L,
      load_next (h ++ [nn]) s x L = load_next h s x L :=
    fun x hx L => load_next_append_old [nn] rfl hx L
  have hnew1 : ∀ L, L < v + 1 → load_next (h ++ [nn]) s (.node h.length) L = some none := by
    intro L hL
    simp [load_next, next_array, ← hnn, hL]
  have hget1 : ∀ (i : Nat) (nd : node), h[i]? = some nd → (h ++ [nn])[i]? = some nd := by
    intro i nd hnd
    rw [List.getElem?_append_left (List.getElem?_eq_some_iff.mp hnd).1]; exact hnd
  have hgetn : (h ++ [nn])[h.length]? = some nn := by simp
  obtain ⟨h2, s2, upd', hf, hsh, hlen', hupd', hld, hfr⟩ :=
    @maker_link_loop_spec (h ++ [nn]) s h.length upd
      (fun L => lastRef .set (chain h (List.range' h0.length k) L)) (v + 1)
      (fun i hi => inv.upd i (by omega))
      (fun i hi => ⟨none, by rw [hold1 _ (hUold i)]; exact hUload i (by omega)⟩)
  have hstep : maker_node_step (Nat.log 2 N) lm (h, s, upd) k = some (h2, s2, upd') := by
    unfold maker_node_step
    simp only [hdec, hv, hnn]
    exact hf
  have hc2 : ∀ r L, load_next h2 { s2 with size := k + 1 } r L = load_next h2 s2 r L :=
    fun r L => load_next_next_congr h2 rfl r L
  have hc0 : ∀ r L, load_next h { s with size := k } r L = load_next h s r L :=
    fun r L => load_next_next_congr h rfl r L
  have sp : Spliced h { s with size := k } (List.range' h0.length k) [] 0 0 (v + 1) h2
      { s2 with size := k + 1 } := by
    refine ⟨by rw [hsh.len]; simp, ?_, ?_, ?_, ?_, rfl, ?_, ?_, ?_, ?_⟩
    · exact fun i nd hnd => hsh.flds i nd (hget1 i nd hnd)
    · obtain ⟨nd', h2', k2, l2, d2, n2⟩ := hsh.flds _ nn hgetn
      exact ⟨nd', h2', by rw [k2, ← hnn], by rw [l2, ← hnn], by rw [d2, ← hnn],
        by rw [n2, ← hnn]; simp⟩
    · show s2.layers = max s.layers (v + 1)
      rw [hsh.layers, hsl]; omega
    · show s2.next.length = s2.layers
      rw [hsh.nlen, hsh.layers]; exact inv.swf.next_len
    · intro L hL1 hL2
      have hL1' : L < Nat.log 2 N := by simpa [hsl] using hL1
      refine ⟨?_, ?_, ?_⟩
      · rw [hc2, hc0, hld]
        simp only [hL2, true_and, (hUne L).symm, if_false]
        rw [hnew1 L hL2, hUload L hL1']
      · rw [hc2, hld]
        simp [hL2]
      · intro x hx1 hx2 hx3
        rw [hc2, hc0, hld]
        simp only [hL2, true_and, hx2, if_false]
        exact hold1 x hx3 L
    · intro L hL1 hL2 x hx
      rw [hc2, hc0, hld]
      have : ¬ L < v + 1 := by omega
      simp only [this, false_and, if_false]
      exact hold1 x hx L
    · intro L hL1 hL2
      have : s.layers ≤ L := hL1
      omega
    · intro j hj hjp
      rw [hfr j (fun L _ hc => hjp (hUpre L j hc))]
      exact List.getElem?_append_left hj
  have swf' : SWF h2 { s2 with size := k + 1 } (List.range' h0.length (k + 1)) := by
    have := @SWF_of_spliced h { s with size := k } (List.range' h0.length k) [] [] 0 0
      (v + 1) h2 { s2 with size := k + 1 } (by simpa using inv.swf) (by omega) sp
    rw [List.range'_1_concat, ← inv.len]
    exact this
  refine ⟨h2, s2, upd', hstep, ?_⟩
  refine ⟨by rw [sp.hlen, inv.len]; omega, ?_, swf', by rw [hsh.layers, hsl],
    by rw [hsh.size]; exact inv.size_zero, by rw [hlen']; exact inv.upd_len, ?_, ?_, ?_⟩
  · intro i hi
    have hnot : i ∉ List.range' h0.length k := by
      simp only [List.mem_range'_1, not_and, not_lt]
      intro; omega
    have hil : i < h.length := by rw [inv.len]; omega
    rw [sp.frame i hil hnot]
    exact inv.frame i hi
  · intro j hj
    have hc1 : chain h2 (List.range' h0.length k) j = chain h (List.range' h0.length k) j :=
      chain_congr j (fun i hi => sp.level_old (hltp i hi))
    have hc2 : chain h2 [h0.length + k] j = if j < v + 1 then [h0.length + k] else [] := by
      have := sp.level_new
      rw [inv.len] at this
      by_cases hjv : j < v + 1 <;> simp [chain, this, hjv]
    rw [List.range'_1_concat, chain_append, hc1, hc2, hupd']
    by_cases hjv : j < v + 1
    · rw [if_pos hjv, if_pos hjv, lastRef_concat, inv.len]
    · rw [if_neg hjv, if_neg hjv, List.append_nil]
      exact inv.upd j hj
  · intro i hi
    by_cases hik : i < k
    · obtain ⟨nd, hnd, h1, h2', h3⟩ := inv.blank i hik
      obtain ⟨nd', hnd', k1, k2, k3, _⟩ := sp.old _ nd hnd
      exact ⟨nd', hnd', by rw [k1, h1], by rw [k2, h2'], by rw [k3, h3]⟩
    · have : i = k := by omega
      subst this
      obtain ⟨nd, hnd, h1, h2', h3, _⟩ := sp.fresh
      rw [inv.len] at hnd
      exact ⟨nd, hnd, h1, h2', h3⟩
  · intro i hi
    by_cases hik : i < k
    · obtain ⟨w, hw, hlw⟩ := inv.lvl i hik
      refine ⟨w, hw, ?_⟩
      rw [sp.level_old (by rw [inv.len]; omega)]
      exact hlw
    · have : i = k := by omega
      subst this
      refine ⟨v, hv, ?_⟩
      have := sp.level_new
      rw [inv.len] at this
      exact this

theorem list_set_getElem_same {α : Type} (l : List α) (i : Nat) (h : i < l.length) :
    l.set i l[i] = l := by
  apply List.ext_getElem?
  intro j
  by_cases hj : i = j
  · subst hj; simp [h]
  · rw [List.getElem?_set_ne hj]

/-- Writing to a link the value it holds changes nothing. -/
theorem store_next_same {h : Heap} {s : sorted_set} {r : NodeRef} {L : Nat} {v : Option Nat}
    (hl : load_next h s r L = some v) : store_next h s r L v = some (h, s) := by
  cases r with
  | set =>
    simp only [load_next, next_array, Option.some_bind] at hl
    obtain ⟨hlt, hv⟩ := List.getElem?_eq_some_iff.mp hl
    have hset : s.next.set L v = s.next := by rw [← hv, list_set_getElem_same]
    simp only [store_next, hlt, if_true, hset]
  | node i =>
    simp only [load_next, next_array] at hl
    rcases hi : h[i]? with _ | nd
    · simp [hi] at hl
    · simp only [hi, Option.map_some', Option.some_bind] at hl
      obtain ⟨hlt, hv⟩ := List.getElem?_eq_some_iff.mp hl
      obtain ⟨hil, hnd⟩ := List.getElem?_eq_some_iff.mp hi
      have hset : nd.next.set L v = nd.next := by rw [← hv, list_set_getElem_same]
      have hh : h.set i nd = h := by rw [← hnd, list_set_getElem_same]
      simp only [store_next, hi, hlt, if_true, hset, hh]

/-- The state the loop over the nodes of `sorted_set_maker_create` starts in. -/
theorem MakerInv.init (h0 : Heap) (lm : List (Option Nat)) {layers : Nat} (hL : 1 ≤ layers) :
    MakerInv h0 lm layers 0 h0
      { next := List.replicate layers none, layers := layers, size := 0 }
      (List.replicate layers NodeRef.set) := by
  refine ⟨rfl, fun _ _ => rfl, ?_, rfl, rfl, by simp, ?_, fun i hi => by omega,
    fun i hi => by omega⟩
  · refine ⟨hL, by simp, rfl, by simp, by simp, by simp, ?_⟩
    intro L hLl
    have hLl' : L < layers := hLl
    simp [chain, Linked, load_next, next_array, hLl']
  · intro j hj
    simp [chain, lastRef, hj]

/-- The loop over the nodes of `sorted_set_maker_create`, for a maker of
`N ≥ 2` keys: after `k` iterations the skeleton holds `k` nodes. -/
theorem maker_node_loop_spec {h0 : Heap} {N : Nat} {lm : List (Option Nat)}
    (hL : 1 ≤ Nat.log 2 N)
    (hlm : ∀ j, 1 ≤ j → j < Nat.log 2 N → lm[j]? = some (some (N / 2 ^ (Nat.log 2 N - j))))
    (k : Nat) :
    ∃ h s upd, (List.range k).foldlM (maker_node_step (Nat.log 2 N) lm)
        (h0, { next := List.replicate (Nat.log 2 N) none, layers := Nat.log 2 N, size := 0 },
          List.replicate (Nat.log 2 N) NodeRef.set) = some (h, s, upd) ∧
      MakerInv h0 lm (Nat.log 2 N) k h s upd := by
  induction k with
  | zero => exact ⟨_, _, _, by simp, MakerInv.init h0 lm hL⟩
  | succ k ih =>
    obtain ⟨h, s, upd, hf, inv⟩ := ih
    obtain ⟨h', s', upd', hstep, inv'⟩ := inv.step hL hlm
    refine ⟨h', s', upd', ?_, inv'⟩
    rw [List.range_succ, List.foldlM_append, hf]
    simp [hstep]

/-- The last loop of `sorted_set_maker_create` writes `NULL` to links that
hold `NULL`. -/
theorem maker_end_loop_spec {h0 : Heap} {lm : List (Option Nat)} {layers k : Nat} {h : Heap}
    {s : sorted_set} {upd : List NodeRef} (inv : MakerInv h0 lm layers k h s upd) (m : Nat)
    (hm : m ≤ layers) :
    (List.range m).foldlM maker_end_step (h, s, upd) = some (h, s, upd) := by
  induction m with
  | zero => simp
  | succ m ih =>
    rw [List.range_succ, List.foldlM_append, ih (by omega)]
    have hload : load_next h s (lastRef .set (chain h (List.range' h0.length k) m)) m =
        some none := by
      have := Linked_last _ _ (inv.swf.linked m (by
        show m < s.layers
        rw [inv.layers_eq]; omega))
      rw [← this]
      exact (load_next_next_congr h rfl _ m).symm
    simp [maker_end_step, inv.upd m (by omega), store_next_same hload]

/-- For every `N ≥ 2`, `sorted_set_maker_create(N)` returns: it allocates `N`
nodes behind the heap it is given, which form a skeleton with
`floor(log2(N))` layers, and the maker stands at the first of them. -/
theorem maker_create_spec (h0 : Heap) {N : Nat} (hN : 2 ≤ N) :
    ∃ lm h s upd,
      (∀ j, 1 ≤ j → j < Nat.log 2 N → lm[j]? = some (some (N / 2 ^ (Nat.log 2 N - j)))) ∧
      sorted_set_maker_create h0 N =
        some (h, { sorted_set := s, next := some h0.length }) ∧
      MakerInv h0 lm (Nat.log 2 N) N h s upd := by
  have hL : 1 ≤ Nat.log 2 N := by
    rw [← Nat.pow_le_iff_le_log (by decide : 1 < 2) (by omega)]
    simpa using hN
  obtain ⟨lm, hlmf, _, hlm⟩ := maker_landmarks_spec hN
  obtain ⟨h, s, upd, hf, inv⟩ := @maker_node_loop_spec h0 N lm hL hlm N
  have hend := maker_end_loop_spec inv (Nat.log 2 N) (le_refl _)
  have hhead : s.next[0]? = some (some h0.length) := by
    have := inv.swf.struct_head_zero.1
    have hr : (List.range' h0.length N).head? = some h0.length := by
      obtain ⟨n, rfl⟩ : ∃ n, N = n + 1 := ⟨N - 1, by omega⟩
      simp [List.range'_succ]
    rw [hr] at this
    exact this
  refine ⟨lm, h, s, upd, hlm, ?_, inv⟩
  unfold sorted_set_maker_create
  rw [if_neg (by omega)]
  simp only [hlmf]
  rw [maker_layers_eq] at hlmf ⊢
  simp only [hf, hend, hhead]

/-! ## Filling the skeleton -/

/-- In a chain, the link of the node at position `k` leads to the node at
position `k + 1`. -/
theorem Linked_getElem {h : Heap} {s : sorted_set} {L : Nat} (l : List Nat) :
    ∀ (r : NodeRef) (k a : Nat), Linked h s L r l → l[k]? = some a →
      load_next h s (.node a) L = some l[k + 1]? := by
  induction l with
  | nil => intro r k a _ hk; simp at hk
  | cons b rest ih =>
    intro r k a hl hk
    cases k with
    | zero =>
      simp only [List.getElem?_cons_zero, Option.some.injEq] at hk
      subst hk
      rw [Linked_load hl.2]
      cases rest <;> simp
    | succ k =>
      simp only [List.getElem?_cons_succ] at hk ⊢
      exact ih (.node b) k a hl.2 hk

/-- The structure of a skip list only depends on the `next` arrays. -/
theorem SWF.congr_next {h h' : Heap} {s : sorted_set} {order : List Nat}
    (wf : SWF h s order) (hlen : h'.length = h.length)
    (hn : ∀ i : Nat, (h'[i]?).map (fun nd : node => nd.next) =
      (h[i]?).map (fun nd : node => nd.next)) :
    SWF h' s order := by
  have hlv : ∀ i, level h' i = level h i := by
    intro i
    have := hn i
    unfold level
    rcases h1 : h'[i]? with _ | a <;> rcases h2 : h[i]? with _ | b <;>
      simp [h1, h2] at this ⊢
    rw [this]
  have hld : ∀ r L, load_next h' s r L = load_next h s r L := by
    intro r L
    cases r with
    | set => rfl
    | node i =>
      simp only [load_next, next_array]
      rw [hn i]
  have hch : ∀ L, chain h' order L = chain h order L := fun L =>
    chain_congr L (fun i _ => hlv i)
  refine ⟨wf.layers_pos, wf.next_len, wf.size_eq, wf.nodup, ?_, ?_, ?_⟩
  · intro i hi; rw [hlen]; exact wf.bound i hi
  · intro i hi; rw [hlv]; exact wf.lvl i hi
  · intro L hL
    rw [hch]
    exact Linked_congr (wf.linked L hL) (hld _ _) (fun a _ => hld _ _)

/-- One `sorted_set_maker_add_key` call on a maker that is not complete:
the key, length and data go to the node the maker stands at, the maker moves
on, and the call returns whether that was the last node. -/
theorem MakerFill.fill_one {base N : Nat} {s : sorted_set} {k : Nat} {done : List Entry}
    {h : Heap} {m : sorted_set_maker} (mf : MakerFill base N s k done h m) (hk : k < N)
    (e : Entry) :
    ∃ h' m', sorted_set_maker_add_key h m e.1 e.2.1 e.2.2 =
        some (decide (k + 1 = N), h', m') ∧
      MakerFill base N s (k + 1) (done ++ [e]) h' m' ∧
      (∀ i, i ≠ base + k → h'[i]? = h[i]?) := by
  have hnext : m.next = some (base + k) := by rw [mf.next_eq, if_pos hk]
  have hmem : base + k ∈ List.range' base N := by simp [List.mem_range'_1]; omega
  have hlt : base + k < h.length := mf.swf.bound _ hmem
  obtain ⟨nd, hnd⟩ : ∃ nd, h[base + k]? = some nd :=
    ⟨h[base + k], List.getElem?_eq_getElem hlt⟩
  have hlink := mf.swf.struct_head_zero.2
  have hget : (List.range' base N)[k]? = some (base + k) := by
    rw [List.getElem?_range' _ _ hk]; simp
  have hld := Linked_getElem _ _ k _ hlink hget
  have hnx : nd.next[0]? = some (if k + 1 < N then some (base + (k + 1)) else none) := by
    simp only [load_next, next_array, hnd, Option.map_some', Option.some_bind] at hld
    rw [hld]
    by_cases hk1 : k + 1 < N
    · rw [List.getElem?_range' _ _ hk1, if_pos hk1]; simp
    · rw [if_neg hk1, List.getElem?_eq_none (by simp; omega)]
  have hres : sorted_set_maker_add_key h m e.1 e.2.1 e.2.2 =
      some (decide (k + 1 = N),
        h.set (base + k) { nd with key := e.1, length := e.2.1, data := e.2.2 },
        { m with next := if k + 1 < N then some (base + (k + 1)) else none }) := by
    unfold sorted_set_maker_add_key
    simp only [hnext, hnd, hnx]
    by_cases hk1 : k + 1 < N
    · simp [hk1, show k + 1 ≠ N by omega]
    · simp [hk1, show k + 1 = N by omega]
  refine ⟨_, _, hres, ⟨mf.set_eq, rfl, ?_, ?_⟩, ?_⟩
  · apply mf.swf.congr_next (by simp)
    intro i
    by_cases hik : base + k = i
    · subst hik
      rw [List.getElem?_set_self hlt, hnd]
      rfl
    · rw [List.getElem?_set_ne hik]
  · rw [List.range'_1_concat, entries, List.map_append, ← mf.filled, entries]
    congr 1
    · apply List.map_congr_left
      intro i hi
      have : base + k ≠ i := by
        simp only [List.mem_range'_1] at hi
        omega
      simp [entryAt, List.getElem?_set_ne this]
    · simp [entryAt, List.getElem?_set_self hlt]
  · intro i hi
    rw [List.getElem?_set_ne (fun hc => hi hc.symm)]

/-- A sequence of `sorted_set_maker_add_key` calls that does not go past the
end of the skeleton: the entries go to the nodes in order, and a call
returns true exactly when it fills the last node. -/
theorem MakerFill.add_keys {base N : Nat} {s : sorted_set} (es : List Entry) :
    ∀ (k : Nat) (done : List Entry) (h : Heap) (m : sorted_set_maker),
      k + es.length ≤ N → MakerFill base N s k done h m →
      ∃ rs h' m', maker_add_keys h m es = some (rs, h', m') ∧
        MakerFill base N s (k + es.length) (done ++ es) h' m' ∧
        rs.length = es.length ∧
        (∀ i, i < es.length → rs[i]? = some (decide (k + i + 1 = N))) ∧
        (∀ i, i < base → h'[i]? = h[i]?) := by
  induction es with
  | nil =>
    intro k done h m _ mf
    exact ⟨[], h, m, rfl, by simpa using mf, rfl, by simp, fun _ _ => rfl⟩
  | cons e es ih =>
    intro k done h m hk mf
    simp only [List.length_cons] at hk
    obtain ⟨h1, m1, hadd, mf1, hfr1⟩ := mf.fill_one (by omega) e
    obtain ⟨rs, h2, m2, hrest, mf2, hlen, hrs, hfr2⟩ := ih (k + 1) (done ++ [e]) h1 m1
      (by omega) mf1
    refine ⟨decide (k + 1 = N) :: rs, h2, m2, ?_, ?_, by simp [hlen], ?_, ?_⟩
    · simp [maker_add_keys, hadd, hrest]
    · have h1' : k + (e :: es).length = k + 1 + es.length := by simp; omega
      have h2' : done ++ e :: es = done ++ [e] ++ es := by simp
      rw [h1', h2']
      exact mf2
    · intro i hi
      cases i with
      | zero => simp
      | succ i =>
        simp only [List.length_cons] at hi
        rw [List.getElem?_cons_succ, hrs i (by omega)]
        have : (k + 1 + i + 1 = N) = (k + (i + 1) + 1 = N) := by
          apply propext; constructor <;> intro <;> omega
        simp only [this]
    · intro i hi
      rw [hfr2 i hi, hfr1 i (by omega)]

/-- A maker for `N ≥ 2` keys right after its creation is a maker no key was
added to. -/
theorem MakerInv.toFill {h0 : Heap} {lm : List (Option Nat)} {layers N : Nat} {h : Heap}
    {s : sorted_set} {upd : List NodeRef} (inv : MakerInv h0 lm layers N h s upd)
    (hN : 0 < N) :
    MakerFill h0.length N s 0 [] h { sorted_set := s, next := some h0.length } :=
  ⟨rfl, by simp [hN], inv.swf, rfl⟩

/-- For `n ≥ 2` entries, creating a maker for `n` keys, adding the entries
and finalizing returns: the additions return false but for the last one, the
set has the structure of a skip list of `floor(log2(n))` layers over the `n`
new nodes, which hold the entries in the order they were added, and its
`size` field is 0. -/
theorem maker_build_spec (h0 : Heap) (es : List Entry) (hN : 2 ≤ es.length) :
    ∃ rs h s, maker_build h0 es = some (rs, h, s) ∧
      rs.length = es.length ∧
      (∀ i, i < es.length → rs[i]? = some (decide (i + 1 = es.length))) ∧
      SWF h { s with size := es.length } (List.range' h0.length es.length) ∧
      entries h (List.range' h0.length es.length) = es ∧
      s.layers = Nat.log 2 es.length ∧ s.size = 0 ∧
      (∀ i, i < h0.length → h[i]? = h0[i]?) := by
  obtain ⟨lm, h1, s, upd, _, hcreate, inv⟩ := maker_create_spec h0 hN
  obtain ⟨rs, h2, m2, hadd, mf, hlen, hrs, hfr⟩ :=
    MakerFill.add_keys es 0 [] h1 _ (by omega) (inv.toFill (by omega))
  have hnext : m2.next = none := by
    rw [mf.next_eq, if_neg (by omega)]
  refine ⟨rs, h2, s, ?_, hlen, ?_, ?_, ?_, inv.layers_eq, inv.size_zero, ?_⟩
  · unfold maker_build
    simp only [hcreate, hadd, sorted_set_maker_finalize, sorted_set_maker_complete, hnext,
      Option.isNone_none, if_true, Option.map_some', mf.set_eq]
  · intro i hi
    rw [hrs i hi]
    simp
  · simpa using mf.swf
  · simpa using mf.filled
  · intro i hi
    rw [hfr i hi]
    exact inv.frame i hi

/-- Function `sorted_set_apply` does not read the `size` field. -/
theorem apply_size_irrel (h : Heap) (s : sorted_set) (n : Nat) :
    sorted_set_apply h { s with size := n } = sorted_set_apply h s := rfl

/-- Function `sorted_set_lookup` does not read the `size` field. -/
theorem lookup_size_irrel (h : Heap) (s : sorted_set) (n : Nat) (key : List Int)
    (length : Nat) :
    sorted_set_lookup h { s with size := n } key length = sorted_set_lookup h s key length := by
  have hs : ∀ probe l r fuel,
      search_level h { s with size := n } probe l fuel r = search_level h s probe l fuel r := by
    intro probe l r fuel
    induction fuel generalizing r with
    | zero => rfl
    | succ f ih =>
      rw [search_level, search_level]
      have hld : load_next h { s with size := n } r l = load_next h s r l :=
        load_next_next_congr h rfl r l
      rw [hld]
      simp only [ih]
  have hl : ∀ probe l r,
      lookup_search h { s with size := n } probe l r = lookup_search h s probe l r := by
    intro probe l
    induction l with
    | zero => intro r; simp only [lookup_search, hs]
    | succ l ih => intro r; simp only [lookup_search, hs, ih]
  unfold sorted_set_lookup
  simp only [hl]

/-! ## The order of the chains under `key_compare` -/

theorem key_compare_loop_antisymm (a b : node) :
    ∀ (n i : Nat) (c : Int), key_compare_loop a b i n = some c →
      key_compare_loop b a i n = some (-c) := by
  intro n
  induction n with
  | zero =>
    intro i c hc
    simp only [key_compare_loop, Option.some.injEq] at hc ⊢
    omega
  | succ n ih =>
    intro i c hc
    rw [key_compare_loop] at hc ⊢
    rcases ha : a.key[i]? with _ | x
    · simp [ha] at hc
    · rcases hb : b.key[i]? with _ | y
      · simp [ha, hb] at hc
      · simp only [ha, hb] at hc ⊢
        by_cases hxy : x = y
        · subst hxy
          simp only [ne_eq, not_true_eq_false, if_false] at hc ⊢
          exact ih (i + 1) c hc
        · have hyx : ¬ y = x := fun h => hxy h.symm
          simp only [ne_eq, hxy, not_false_eq_true, if_true, Option.some.injEq] at hc
          simp only [ne_eq, hyx, not_false_eq_true, if_true, Option.some.injEq]
          omega

/-- Function `key_compare` with its arguments swapped gives the opposite value. -/
theorem key_compare_antisymm {a b : node} {c : Int} (hc : key_compare a b = some c) :
    key_compare b a = some (-c) := by
  unfold key_compare at hc ⊢
  have hm : (if b.length > a.length then b.length else a.length) =
      (if a.length > b.length then a.length else b.length) := by
    split <;> split <;> omega
  simp only [hm]
  exact key_compare_loop_antisymm a b _ 0 c hc

theorem unique_calls_cons_duplicate (c : add_call) (cs : List add_call)
    (rs : List sorted_set_add_key_result) :
    unique_calls (c :: cs) (SORTED_SET_ADD_KEY_DUPLICATE :: rs) = unique_calls cs rs := by
  simp [unique_calls]

theorem unique_calls_cons_unique (c : add_call) (cs : List add_call)
    (rs : List sorted_set_add_key_result) :
    unique_calls (c :: cs) (SORTED_SET_ADD_KEY_UNIQUE :: rs) = c :: unique_calls cs rs := by
  simp [unique_calls]

/-- A set with the structure of a skip list whose nodes hold NUL-terminated
keys in strictly ascending order is well-formed. -/
theorem WF_of_SWF {h : Heap} {s : sorted_set} {order : List Nat} (wf : SWF h s order)
    (hvalid : ∀ e ∈ entries h order, strlen e.1 = some e.2.1)
    (hsorted : (entries h order).Pairwise (fun a b => key_lt (ekey a) (ekey b))) :
    WF h s order := by
  refine ⟨wf.layers_pos, wf.next_len, wf.size_eq, wf.nodup, wf.lvl, ?_, ?_, wf.linked⟩
  · intro i hi
    have hlt := wf.bound i hi
    refine ⟨h[i], List.getElem?_eq_getElem hlt, ?_⟩
    have := hvalid (entryAt h i) (List.mem_map_of_mem _ hi)
    rw [entryAt_of_get (List.getElem?_eq_getElem hlt)] at this
    exact this
  · rw [entries, List.pairwise_map] at hsorted
    exact hsorted.imp (fun {i j} hij => by rwa [ekey_entryAt, ekey_entryAt] at hij)

/-- Calls with strictly ascending keys put their entries behind one
another. -/
theorem model_run_ascending (calls : List add_call) :
    ∀ l : List Entry,
      (l ++ calls.map call_entry).Pairwise (fun a b => key_lt (ekey a) (ekey b)) →
      (model_run l calls).2 = l ++ calls.map call_entry := by
  induction calls with
  | nil => intro l _; simp [model_run]
  | cons c cs ih =>
    intro l hp
    have hlt : ∀ x ∈ l, key_lt (ekey x) (ekey (call_entry c)) := by
      intro x hx
      have := List.pairwise_append.mp hp
      exact this.2.2 x hx (call_entry c) (by simp)
    have hins : insert_entry (call_entry c) l = l ++ [call_entry c] := by
      have hex : ¬ ∃ x ∈ l, ekey x = ekey (call_entry c) := by
        rintro ⟨x, hx, he⟩
        have := hlt x hx
        rw [he] at this
        exact key_lt_irrefl _ this
      rw [insert_entry, if_neg hex]
      have h1 : l.filter (fun x => decide (key_lt (ekey x) (ekey (call_entry c)))) = l := by
        rw [List.filter_eq_self]
        intro x hx
        simpa using hlt x hx
      have h2 : l.filter (fun x => !decide (key_lt (ekey x) (ekey (call_entry c)))) = [] := by
        rw [List.filter_eq_nil_iff]
        intro x hx
        simpa using hlt x hx
      rw [h1, h2]
    simp only [model_run, hins, List.map_cons]
    rw [ih (l ++ [call_entry c]) (by simpa using hp)]
    simp

/-- For `n ≥ 2` NUL-terminated keys in strictly ascending order, given with
their string lengths, the set made by a maker and the set built by
`sorted_set_add_key` calls in the same order (with any levels drawn) give
the same `sorted_set_apply` sequence, the entries in the order given, and
the same `sorted_set_lookup` result for every NUL-terminated query key. -/
theorem maker_matches_add_key (h0 h0' : Heap) (calls : List add_call)
    (hn : 2 ≤ calls.length) (hv : ∀ c ∈ calls, ValidCall c)
    (hasc : (calls.map call_entry).Pairwise (fun a b => key_lt (ekey a) (ekey b))) :
    ∃ rs h s rs' h' s', maker_build h0 (calls.map call_entry) = some (rs, h, s) ∧
      run_add_keys h0' sorted_set_create calls = some (rs', h', s') ∧
      sorted_set_apply h s = some (calls.map call_entry) ∧
      sorted_set_apply h' s' = some (calls.map call_entry) ∧
      ∀ k len, strlen k = some len →
        sorted_set_lookup h s k len = sorted_set_lookup h' s' k len := by
  obtain ⟨rs, h, s, hb, _, _, swf, hent, _⟩ :=
    maker_build_spec h0 (calls.map call_entry) (by simpa using hn)
  simp only [List.length_map] at swf hent
  have hvalid : ∀ e ∈ calls.map call_entry, strlen e.1 = some e.2.1 := by
    intro e he
    obtain ⟨c, hc, rfl⟩ := List.mem_map.mp he
    have := (hv c hc).1
    simp only [call_entry]
    rcases hs : strlen c.key with _ | n
    · simp [hs] at this
    · rfl
  have wf : WF h { s with size := calls.length } (List.range' h0.length calls.length) :=
    WF_of_SWF swf (by rw [hent]; exact hvalid) (by rw [hent]; exact hasc)
  obtain ⟨order', hrun, wf', hent', _⟩ := build_spec h0' calls hv
  rw [model_run_ascending calls [] (by simpa using hasc), List.nil_append] at hent'
  refine ⟨rs, h, s, _, _, _, hb, hrun, ?_, ?_, ?_⟩
  · rw [← apply_size_irrel h s calls.length, wf.apply, hent]
  · rw [wf'.apply, hent']
  · intro k len hk
    rw [← lookup_size_irrel h s calls.length, wf.lookup hk, wf'.lookup hk, hent, hent']

/-- The `size` field counts the nodes of the level-0 chain, which
`sorted_set_apply` visits, for a created set, after every sequence of
`sorted_set_add_key` calls that returns and for the result of
`sorted_set_difference`. -/
theorem size_counts_nodes (h0 : Heap) :
    (sorted_set_size sorted_set_create = 0 ∧
      sorted_set_apply h0 sorted_set_create = some []) ∧
    (∀ calls rs h s, (∀ c ∈ calls, 1 ≤ c.new_level) →
      run_add_keys h0 sorted_set_create calls = some (rs, h, s) →
      ∃ l, sorted_set_apply h s = some l ∧ l.length = sorted_set_size s) ∧
    (∀ a b lv h out, (∀ n, 1 ≤ lv n) → sorted_set_difference h0 a b lv = some (h, out) →
      ∃ l, sorted_set_apply h out = some l ∧ l.length = sorted_set_size out) := by
  refine ⟨⟨rfl, (SWF_create h0).struct_apply⟩, ?_, ?_⟩
  · intro calls rs h s hlev hrun
    obtain ⟨order, wf⟩ := (SWF_create h0).struct_run_add_keys calls hlev hrun
    exact ⟨_, wf.struct_apply, by rw [entries, List.length_map, sorted_set_size, wf.size_eq]⟩
  · intro a b lv h out hlv hd
    obtain ⟨oo, fr⟩ := difference_frame lv hlv hd
    exact ⟨_, fr.swf.struct_apply,
      by rw [entries, List.length_map, sorted_set_size, fr.swf.size_eq]⟩

/-! ## Drawing a level: `random_level` -/

/-- The comparison loop passes over indices at which the two buffers hold
the same char. -/
theorem key_compare_loop_skip (a b : node) :
    ∀ (n i m : Nat), (∀ j, j < n → ∃ x, a.key[i + j]? = some x ∧ b.key[i + j]? = some x) →
      key_compare_loop a b i (n + m) = key_compare_loop a b (i + n) m := by
  intro n
  induction n with
  | zero => intro i m _; simp
  | succ n ih =>
    intro i m h
    have e1 : n + 1 + m = (n + m) + 1 := by omega
    rw [e1, key_compare_loop]
    obtain ⟨x, hx, hy⟩ := h 0 (by omega)
    simp only [Nat.add_zero] at hx hy
    simp only [hx, hy, ne_eq, not_true_eq_false, if_false]
    rw [ih (i + 1) m (fun j hj => by
      have := h (j + 1) (by omega)
      have e : i + (j + 1) = i + 1 + j := by omega
      rw [e] at this
      exact this)]
    congr 1
    omega

/-- Function `key_compare` is defined for `(b, a)` exactly when it is for `(a, b)`, with
the opposite value. -/
theorem key_compare_swap (a b : node) :
    key_compare b a = (key_compare a b).map (fun c => -c) := by
  rcases hab : key_compare a b with _ | c
  · rcases hba : key_compare b a with _ | c'
    · rfl
    · have := key_compare_antisymm hba
      rw [hab] at this
      cases this
  · simp only [Option.map_some']
    exact key_compare_antisymm hab

/-- The value of `str_cmp` for a proper prefix and its extension is decided
by the first char of the extension. -/
theorem str_cmp_prefix (s : List Int) (y : Int) (rest : List Int) :
    str_cmp s (s ++ y :: rest) = -y := by
  induction s with
  | nil => rfl
  | cons x xs ih => simp [str_cmp, ih]

/-! ## The layer count -/

/-- One call of `sorted_set_add_key` on a set with the structure of a skip
list: DUPLICATE leaves the layer count, UNIQUE with drawn level `v` makes it
`max(layers, v)` and links the new node from `head[i]`, with a `NULL`
successor, at every new layer `i`. -/
theorem SWF.add_key_layers {h : Heap} {s : sorted_set} {order : List Nat}
    (wf : SWF h s order) {key : List Int} {length data v : Nat} (hlev : 1 ≤ v)
    {r : sorted_set_add_key_result} {h' : Heap} {s' : sorted_set}
    (hadd : sorted_set_add_key h s key length data v = some (r, h', s')) :
    (r = SORTED_SET_ADD_KEY_DUPLICATE → s'.layers = s.layers) ∧
    (r = SORTED_SET_ADD_KEY_UNIQUE → s'.layers = max s.layers v ∧
      ∀ i, s.layers ≤ i → i < v →
        load_next h' s' .set i = some (some h.length) ∧
        load_next h' s' (.node h.length) i = some none) := by
  rcases wf.struct_add_key hlev hadd with ⟨hr, _, hs⟩ | ⟨hr, pre, post, len, _, _, sp, _⟩
  · subst hr
    exact ⟨fun _ => by rw [hs], fun hc => by cases hc⟩
  · subst hr
    exact ⟨fun hc => (by cases hc), fun _ => ⟨sp.layers, sp.hi⟩⟩

/-- A sequence of `sorted_set_add_key` calls that returns: the layer count
is the largest of the old layer count and the levels drawn by the calls that
returned UNIQUE, it does not decrease, and when it is not 1 some node of the
set has that many levels. -/
theorem SWF.run_layers {h : Heap} {s : sorted_set} {order : List Nat}
    (wf : SWF h s order) (hat : s.layers = 1 ∨ ∃ i ∈ order, level h i = s.layers)
    (calls : List add_call) (hlev : ∀ c ∈ calls, 1 ≤ c.new_level)
    {rs : List sorted_set_add_key_result} {h' : Heap} {s' : sorted_set}
    (hrun : SortedSet.run_add_keys h s calls = some (rs, h', s')) :
    ∃ order', SWF h' s' order' ∧
      (s'.layers = 1 ∨ ∃ i ∈ order', level h' i = s'.layers) ∧
      s.layers ≤ s'.layers ∧
      s'.layers = (unique_calls calls rs).foldl (fun m c => max m c.new_level) s.layers := by
  induction calls generalizing h s order rs with
  | nil =>
    simp only [SortedSet.run_add_keys, Option.some.injEq, Prod.mk.injEq] at hrun
    obtain ⟨rfl, rfl, rfl⟩ := hrun
    exact ⟨order, wf, hat, le_refl _, by simp [unique_calls]⟩
  | cons c cs ih =>
    rw [SortedSet.run_add_keys] at hrun
    rcases hadd : sorted_set_add_key h s c.key c.length c.data c.new_level with
      _ | ⟨r, h1, s1⟩
    · simp [hadd] at hrun
    · simp only [hadd] at hrun
      rcases hrest : SortedSet.run_add_keys h1 s1 cs with _ | ⟨rs1, h2, s2⟩
      · simp [hrest] at hrun
      · simp only [hrest, Option.map_some', Option.some.injEq, Prod.mk.injEq] at hrun
        obtain ⟨rfl, rfl, rfl⟩ := hrun
        have hlev' : ∀ c' ∈ cs, 1 ≤ c'.new_level := fun c' hc' => hlev c' (by simp [hc'])
        rcases wf.struct_add_key (hlev c (by simp)) hadd with
          ⟨hr, hh, hs⟩ | ⟨hr, pre, post, len, hord, _, sp, wf1⟩
        · subst hr hh hs
          rw [unique_calls_cons_duplicate]
          exact ih wf hat hlev' hrest
        · subst hr hord
          have hat1 : s1.layers = 1 ∨ ∃ i ∈ pre ++ h.length :: post, level h1 i = s1.layers := by
            by_cases hv : c.new_level ≤ s.layers
            · have hl : s1.layers = s.layers := by rw [sp.layers]; omega
              rcases hat with h1' | ⟨i, hi, hli⟩
              · exact Or.inl (by rw [hl, h1'])
              · refine Or.inr ⟨i, ?_, ?_⟩
                · rcases List.mem_append.mp hi with hi | hi
                  · simp [hi]
                  · simp [hi]
                · rw [sp.level_old (wf.bound i hi), hli, hl]
            · refine Or.inr ⟨h.length, by simp, ?_⟩
              rw [sp.level_new, sp.layers]
              omega
          obtain ⟨order', wf', hat', hle, hfold⟩ := ih wf1 hat1 hlev' hrest
          rw [unique_calls_cons_unique]
          refine ⟨order', wf', hat', ?_, ?_⟩
          · have := sp.layers
            omega
          · rw [hfold, sp.layers]
            rfl

/-- A sequence of calls that returns is a first part that returns, followed
by the rest. -/
theorem run_add_keys_append (cs₁ cs₂ : List add_call) :
    ∀ (h : Heap) (s : sorted_set) (rs : List sorted_set_add_key_result) (h' : Heap)
      (s' : sorted_set), run_add_keys h s (cs₁ ++ cs₂) = some (rs, h', s') →
      ∃ rs₁ h₁ s₁ rs₂, run_add_keys h s cs₁ = some (rs₁, h₁, s₁) ∧
        run_add_keys h₁ s₁ cs₂ = some (rs₂, h', s') ∧ rs = rs₁ ++ rs₂ := by
  induction cs₁ with
  | nil =>
    intro h s rs h' s' hrun
    exact ⟨[], h, s, rs, rfl, by simpa using hrun, rfl⟩
  | cons c cs ih =>
    intro h s rs h' s' hrun
    rw [List.cons_append, run_add_keys] at hrun
    rcases hadd : sorted_set_add_key h s c.key c.length c.data c.new_level with
      _ | ⟨r, h1, s1⟩
    · simp [hadd] at hrun
    · simp only [hadd] at hrun
      rcases hrest : run_add_keys h1 s1 (cs ++ cs₂) with _ | ⟨rs1, h2, s2⟩
      · simp [hrest] at hrun
      · simp only [hrest, Option.map_some', Option.some.injEq, Prod.mk.injEq] at hrun
        obtain ⟨rfl, rfl, rfl⟩ := hrun
        obtain ⟨rs₁, h₁, s₁, rs₂, hr1, hr2, hrs⟩ := ih h1 s1 rs1 h2 s2 hrest
        refine ⟨r :: rs₁, h₁, s₁, rs₂, ?_, hr2, by rw [hrs]; rfl⟩
        simp [run_add_keys, hadd, hr1]

/-! ## The levels of the skeleton -/

/-- The layer picked for node `i`, by a maker for `N` keys: entered with `j`,
the loop returns the largest `v` in `1 .. j` with `i mod (N / 2^(L - v)) = 0`,
and 0 when there is none. -/
theorem maker_level_loop_largest {N : Nat} {lm : List (Option Nat)}
    (hlm : ∀ j, 1 ≤ j → j < Nat.log 2 N → lm[j]? = some (some (N / 2 ^ (Nat.log 2 N - j))))
    (i : Nat) :
    ∀ j, j < Nat.log 2 N → ∃ v, maker_level_loop lm i j = some v ∧ v ≤ j ∧
      (v = 0 ∨ i % (N / 2 ^ (Nat.log 2 N - v)) = 0) ∧
      ∀ j', v < j' → j' ≤ j → i % (N / 2 ^ (Nat.log 2 N - j')) ≠ 0 := by
  intro j
  induction j with
  | zero => intro _; exact ⟨0, rfl, le_refl 0, Or.inl rfl, fun j' h1 h2 => by omega⟩
  | succ j ih =>
    intro hj
    have h2 : 2 ≤ N / 2 ^ (Nat.log 2 N - (j + 1)) := two_le_div_pow (by omega)
    rw [maker_level_loop, hlm (j + 1) (by omega) hj]
    simp only
    rw [if_neg (by omega)]
    by_cases hm : i % (N / 2 ^ (Nat.log 2 N - (j + 1))) = 0
    · rw [if_pos hm]
      exact ⟨j + 1, rfl, le_refl _, Or.inr hm, fun j' h1 h2 => by omega⟩
    · rw [if_neg hm]
      obtain ⟨v, hv, hvj, hdiv, hmax⟩ := ih (by omega)
      refine ⟨v, hv, by omega, hdiv, ?_⟩
      intro j' h1 h2
      by_cases hj' : j' = j + 1
      · subst hj'
        exact hm
      · exact hmax j' h1 (by omega)

/-- The levels of the nodes of a skeleton for `N` keys: node `i` has level
`1 + v`, with `v` the largest `j` in `1 .. L-1` such that
`i mod (N / 2^(L - j)) = 0`, or 0. -/
theorem MakerInv.level_largest {h0 : Heap} {lm : List (Option Nat)} {N : Nat} {h : Heap}
    {s : sorted_set} {upd : List NodeRef} (hN : 2 ≤ N)
    (hlm : ∀ j, 1 ≤ j → j < Nat.log 2 N → lm[j]? = some (some (N / 2 ^ (Nat.log 2 N - j))))
    (inv : MakerInv h0 lm (Nat.log 2 N) N h s upd) :
    ∀ i, i < N → ∃ v, level h (h0.length + i) = 1 + v ∧ v < Nat.log 2 N ∧
      (v = 0 ∨ i % (N / 2 ^ (Nat.log 2 N - v)) = 0) ∧
      ∀ j, v < j → j < Nat.log 2 N → i % (N / 2 ^ (Nat.log 2 N - j)) ≠ 0 := by
  have hL : 1 ≤ Nat.log 2 N := by
    rw [← Nat.pow_le_iff_le_log (by decide : 1 < 2) (by omega)]
    simpa using hN
  intro i hi
  obtain ⟨v, hv, hlev⟩ := inv.lvl i hi
  obtain ⟨v', hv', hle, hdiv, hmax⟩ :=
    maker_level_loop_largest hlm i (Nat.log 2 N - 1) (by omega)
  rw [hv] at hv'
  simp only [Option.some.injEq] at hv'
  subst hv'
  exact ⟨v, by rw [hlev]; omega, by omega, hdiv, fun j h1 h2 => hmax j h1 (by omega)⟩

/-- Node 0 of a skeleton has as many levels as the skeleton has layers. -/
theorem MakerInv.level_zero {h0 : Heap} {lm : List (Option Nat)} {N : Nat} {h : Heap}
    {s : sorted_set} {upd : List NodeRef} (hN : 2 ≤ N)
    (hlm : ∀ j, 1 ≤ j → j < Nat.log 2 N → lm[j]? = some (some (N / 2 ^ (Nat.log 2 N - j))))
    (inv : MakerInv h0 lm (Nat.log 2 N) N h s upd) :
    level h h0.length = Nat.log 2 N := by
  have hL : 1 ≤ Nat.log 2 N := by
    rw [← Nat.pow_le_iff_le_log (by decide : 1 < 2) (by omega)]
    simpa using hN
  obtain ⟨v, hv, hlev⟩ := inv.lvl 0 (by omega)
  obtain ⟨v', hv', _, h0v⟩ := maker_level_loop_spec hlm 0 (Nat.log 2 N - 1) (by omega)
  rw [hv] at hv'
  simp only [Option.some.injEq] at hv'
  subst hv'
  have := h0v rfl
  rw [Nat.add_zero] at hlev
  rw [hlev]
  omega

/-! ## The drawn level and the outcome of `sorted_set_add_key` -/

/-- The entries of the set after a splice: the old entries, with the new one
behind those of `pre`, whatever the level of the new node. -/
theorem Spliced.entries_eq {h : Heap} {s : sorted_set} {pre : List Nat} {key : List Int}
    {len data new_level : Nat} {h' : Heap} {s' : sorted_set}
    (sp : Spliced h s pre key len data new_level h' s') (l₁ l₂ : List Nat)
    (hb : ∀ i ∈ l₁ ++ l₂, i < h.length) :
    entries h' (l₁ ++ h.length :: l₂) = entries h l₁ ++ (key, len, data) :: entries h l₂ := by
  have hold : ∀ i, i < h.length → entryAt h' i = entryAt h i := by
    intro i hi
    have hnd : h[i]? = some h[i] := List.getElem?_eq_getElem hi
    obtain ⟨nd', h2, k2, l2, d2, _⟩ := sp.old i _ hnd
    simp [entryAt, hnd, h2, k2, l2, d2]
  have hnew : entryAt h' h.length = (key, len, data) := by
    obtain ⟨nd, h2, k2, l2, d2, _⟩ := sp.fresh
    simp [entryAt, h2, k2, l2, d2]
  have hmap : ∀ l : List Nat, (∀ i ∈ l, i < h.length) → l.map (entryAt h') = l.map (entryAt h) := by
    intro l hl
    exact List.map_congr_left (fun i hi => hold i (hl i hi))
  simp only [entries, List.map_append, List.map_cons, hnew]
  rw [hmap l₁ (fun i hi => hb i (by simp [hi])), hmap l₂ (fun i hi => hb i (by simp [hi]))]

/-- The outcome of `sorted_set_add_key` on a set with the structure of a skip
list, for any key: when the call returns with the drawn level `v₁`, it
returns the same result with any other drawn level `v₂`, and the two sets
have the same nodes in the same level-0 order, with the same entries, and
the same size. -/
theorem SWF.add_key_any_level {h : Heap} {s : sorted_set} {order : List Nat}
    (wf : SWF h s order) {key : List Int} {length data v₁ v₂ : Nat} (hv₁ : 1 ≤ v₁)
    (hv₂ : 1 ≤ v₂) {r : sorted_set_add_key_result} {h₁ : Heap} {s₁ : sorted_set}
    (hadd : sorted_set_add_key h s key length data v₁ = some (r, h₁, s₁)) :
    ∃ h₂ s₂ order', sorted_set_add_key h s key length data v₂ = some (r, h₂, s₂) ∧
      SWF h₁ s₁ order' ∧ SWF h₂ s₂ order' ∧ entries h₂ order' = entries h₁ order' ∧
      s₂.size = s₁.size := by
  have hl0 : s.layers ≠ 0 := by have := wf.layers_pos; omega
  rcases heff : (if length = 0 then strlen key else some length) with _ | len
  · unfold sorted_set_add_key at hadd
    simp [heff] at hadd
  · rcases hs : search h s { next := [], key := key, length := len, data := 0 }
        (s.layers - 1) .set (List.replicate s.layers none) with _ | res
    · unfold sorted_set_add_key at hadd
      simp [heff, hl0, hs] at hadd
    · cases res with
      | none =>
        have e : ∀ v, sorted_set_add_key h s key length data v =
            some (SORTED_SET_ADD_KEY_DUPLICATE, h, s) := by
          intro v
          unfold sorted_set_add_key
          simp [heff, hl0, hs]
        rw [e v₁] at hadd
        simp only [Option.some.injEq, Prod.mk.injEq] at hadd
        obtain ⟨rfl, rfl, rfl⟩ := hadd
        exact ⟨h, s, order, e v₂, wf, wf, rfl, rfl⟩
      | some upd =>
        obtain ⟨P, Q, hPQ, hupd⟩ := wf.search_split (s.layers - 1)
          (List.replicate s.layers none) [] order .set (by omega) rfl
          (Or.inl ⟨rfl, rfl⟩)
          (by
            intro e he
            rw [wf.struct_chain_top (by omega)] at he
            simp at he)
          (by intro L' h1 h2; omega) (by simp) upd hs
        subst hPQ
        obtain ⟨h1', s1', hadd1, sp1⟩ :=
          @SWF.add_key_of_search h s P Q wf key length len data v₁ upd heff hs hupd
        obtain ⟨h2', s2', hadd2, sp2⟩ :=
          @SWF.add_key_of_search h s P Q wf key length len data v₂ upd heff hs hupd
        rw [hadd1] at hadd
        simp only [Option.some.injEq, Prod.mk.injEq] at hadd
        obtain ⟨rfl, rfl, rfl⟩ := hadd
        refine ⟨h2', s2', P ++ h.length :: Q, hadd2, SWF_of_spliced wf hv₁ sp1,
          SWF_of_spliced wf hv₂ sp2, ?_, ?_⟩
        · rw [sp2.entries_eq P Q wf.bound, sp1.entries_eq P Q wf.bound]
        · rw [sp2.size, sp1.size]

/-- The observable outcome of `sorted_set_add_key` does not depend on the
drawn level: on a set with the structure of a skip list and for any key,
when the call returns with the drawn level `v₁` it returns the same result
with the drawn level `v₂`, and the two sets have the same size and give the
same `sorted_set_apply` and `sorted_set_flatten_keys` results. -/
theorem add_key_level_irrelevant {h : Heap} {s : sorted_set} {order : List Nat}
    (wf : SWF h s order) {key : List Int} {length data v₁ v₂ : Nat} (hv₁ : 1 ≤ v₁)
    (hv₂ : 1 ≤ v₂) {r : sorted_set_add_key_result} {h₁ : Heap} {s₁ : sorted_set}
    (hadd : sorted_set_add_key h s key length data v₁ = some (r, h₁, s₁)) :
    ∃ h₂ s₂, sorted_set_add_key h s key length data v₂ = some (r, h₂, s₂) ∧
      s₂.size = s₁.size ∧
      (∃ es, sorted_set_apply h₁ s₁ = some es ∧ sorted_set_apply h₂ s₂ = some es) ∧
      ∀ b, sorted_set_flatten_keys h₂ s₂ b = sorted_set_flatten_keys h₁ s₁ b := by
  obtain ⟨h₂, s₂, order', hadd2, wf1, wf2, hent, hsize⟩ := wf.add_key_any_level hv₁ hv₂ hadd
  refine ⟨h₂, s₂, hadd2, hsize, ⟨entries h₁ order', wf1.struct_apply, ?_⟩, ?_⟩
  · rw [wf2.struct_apply, hent]
  · intro b
    rw [wf1.struct_flatten_keys, wf2.struct_flatten_keys, hent, hsize]

/-- On a well-formed set and for a NUL-terminated key passed with length 0
or its string length, `sorted_set_add_key` returns with every drawn level,
and every `sorted_set_lookup` of a NUL-terminated key gives the same result
after the call with level `v₁` as after the call with level `v₂`. -/
theorem WF.add_key_lookup_any_level {h : Heap} {s : sorted_set} {order : List Nat}
    (wf : WF h s order) {key : List Int} {length len : Nat} (data : Nat) {v₁ v₂ : Nat}
    (heff : (if length = 0 then strlen key else some length) = some len)
    (hv : strlen key = some len) (hv₁ : 1 ≤ v₁) (hv₂ : 1 ≤ v₂) :
    ∃ r h₁ s₁ h₂ s₂, sorted_set_add_key h s key length data v₁ = some (r, h₁, s₁) ∧
      sorted_set_add_key h s key length data v₂ = some (r, h₂, s₂) ∧
      ∀ q n, strlen q = some n →
        ∃ res, sorted_set_lookup h₁ s₁ q n = some res ∧
          sorted_set_lookup h₂ s₂ q n = some res := by
  obtain ⟨h₁, s₁, o₁, hadd1, wf1, hent1, _⟩ := wf.add_key data heff hv hv₁
  obtain ⟨h₂, s₂, o₂, hadd2, wf2, hent2, _⟩ := wf.add_key data heff hv hv₂
  refine ⟨_, h₁, s₁, h₂, s₂, hadd1, hadd2, ?_⟩
  intro q n hq
  exact ⟨_, wf1.lookup hq, by rw [wf2.lookup hq, hent2, hent1]⟩

/-! ## The claims -/

/-- C1. For every sequence of `sorted_set_add_key` calls on a freshly created
set, with NUL-terminated keys (passed with length 0 or their string length)
and any drawn levels (at least 1, as `random_level` returns), every call
succeeds and `sorted_set_size` afterwards is the number of distinct keys of
the sequence; and at every point of the sequence, a call that returns
DUPLICATE leaves the size as it was and a call that returns UNIQUE
increases it by exactly one. -/
theorem add_key_size_counts_distinct_keys (h0 : Heap) (calls : List add_call)
    (hv : ∀ c ∈ calls, ValidCall c) :
    (∃ rs h s, run_add_keys h0 sorted_set_create calls = some (rs, h, s) ∧
      sorted_set_size s = ((calls.map call_key).dedup).length) ∧
    (∀ cs₁ c cs₂, calls = cs₁ ++ c :: cs₂ →
      ∃ rs h₁ s₁ r h₂ s₂, run_add_keys h0 sorted_set_create cs₁ = some (rs, h₁, s₁) ∧
        sorted_set_add_key h₁ s₁ c.key c.length c.data c.new_level = some (r, h₂, s₂) ∧
        (r = SORTED_SET_ADD_KEY_DUPLICATE → sorted_set_size s₂ = sorted_set_size s₁) ∧
        (r = SORTED_SET_ADD_KEY_UNIQUE → sorted_set_size s₂ = sorted_set_size s₁ + 1)) := by
  constructor
  · obtain ⟨order, hrun, wf, hent, _, _⟩ := build_spec h0 calls hv
    refine ⟨_, _, _, hrun, ?_⟩
    have hsorted := wf.entries_sorted
    rw [hent] at hsorted
    have hperm : ((model_run [] calls).2.map ekey).Perm ((calls.map call_key).dedup) := by
      rw [List.perm_ext_iff_of_nodup (keys_nodup_of_sorted hsorted) (List.nodup_dedup _)]
      intro k
      rw [mem_keys_model_run, List.mem_dedup]
      simp
    have hlen := hperm.length_eq
    rw [List.length_map, ← hent, wf.entries_length] at hlen
    exact hlen
  · intro cs₁ c cs₂ hsplit
    have hv₁ : ∀ c' ∈ cs₁, ValidCall c' := fun c' hc' => hv c' (by rw [hsplit]; simp [hc'])
    have hvc : ValidCall c := hv c (by rw [hsplit]; simp)
    obtain ⟨order, hrun, wf, _, _, _⟩ := build_spec h0 cs₁ hv₁
    obtain ⟨len, hlen, heff, _, hlev⟩ := hvc.spec
    obtain ⟨h₂, s₂, _, hadd, _, _, _, _, _, hsize, _⟩ := wf.add_key c.data heff hlen hlev
    refine ⟨_, _, _, _, h₂, s₂, hrun, hadd, ?_, ?_⟩
    · intro hr
      rw [hr] at hsize
      simpa [sorted_set_size] using hsize
    · intro hr
      rw [hr] at hsize
      simpa [sorted_set_size] using hsize

/-- Witness for C1: scenario 2, the key `"a"` inserted twice. -/
theorem add_key_size_counts_distinct_keys_witness :
    (∀ c ∈ ex_calls_aa, ValidCall c) ∧
    ((∃ rs h s, run_add_keys [] sorted_set_create ex_calls_aa = some (rs, h, s) ∧
      sorted_set_size s = ((ex_calls_aa.map call_key).dedup).length) ∧
    (∀ cs₁ c cs₂, ex_calls_aa = cs₁ ++ c :: cs₂ →
      ∃ rs h₁ s₁ r h₂ s₂, run_add_keys [] sorted_set_create cs₁ = some (rs, h₁, s₁) ∧
        sorted_set_add_key h₁ s₁ c.key c.length c.data c.new_level = some (r, h₂, s₂) ∧
        (r = SORTED_SET_ADD_KEY_DUPLICATE → sorted_set_size s₂ = sorted_set_size s₁) ∧
        (r = SORTED_SET_ADD_KEY_UNIQUE → sorted_set_size s₂ = sorted_set_size s₁ + 1))) :=
  ⟨by decide, add_key_size_counts_distinct_keys [] ex_calls_aa (by decide)⟩

/-- For every set built from an empty set by `sorted_set_add_key` calls
with NUL-terminated keys passed with length 0 or their string length,
`sorted_set_apply` visits the entries in strictly ascending lexicographic
key order (the order of the NUL-terminated strings, which for keys of
positive chars is the lexicographic order of the keys themselves), the
visited keys are exactly the distinct inserted keys, each once, and every
visited entry is the entry of one of the calls. Inserting `("b",1)`,
`("a",2)`, `("c",3)` yields `[("a",2),("b",1),("c",3)]` whatever levels are
drawn. -/
theorem apply_visits_keys_ascending (h0 : Heap) (calls : List add_call)
    (hv : ∀ c ∈ calls, ValidCall c) :
    (∃ rs h s L, run_add_keys h0 sorted_set_create calls = some (rs, h, s) ∧
      sorted_set_apply h s = some L ∧
      L.Pairwise (fun a b => List.Lex (· < ·) (ekey a ++ [0]) (ekey b ++ [0])) ∧
      ((∀ c ∈ calls, ∀ x ∈ call_key c, (0 : Int) < x) →
        L.Pairwise (fun a b => List.Lex (· < ·) (ekey a) (ekey b))) ∧
      (L.map ekey).Perm ((calls.map call_key).dedup) ∧
      (∀ e ∈ L, ∃ c ∈ calls, e = call_entry c)) ∧
    (∀ v₁ v₂ v₃, 1 ≤ v₁ → 1 ≤ v₂ → 1 ≤ v₃ →
      ∃ rs h s, run_add_keys h0 sorted_set_create
          [⟨[98, 0], 0, 1, v₁⟩, ⟨[97, 0], 0, 2, v₂⟩, ⟨[99, 0], 0, 3, v₃⟩] = some (rs, h, s) ∧
        sorted_set_apply h s = some [([97, 0], 1, 2), ([98, 0], 1, 1), ([99, 0], 1, 3)]) := by
  constructor
  · obtain ⟨order, hrun, wf, hent, _, _⟩ := build_spec h0 calls hv
    have hcall : ∀ e ∈ entries (build h0 calls).1 order, ∃ c ∈ calls, e = call_entry c := by
      intro e he
      rw [hent, mem_model_run] at he
      rcases he with he | ⟨p, hp, _, he⟩
      · simp at he
      · exact ⟨p.1, (List.of_mem_zip hp).1, he⟩
    refine ⟨_, _, _, _, hrun, wf.apply, ?_, ?_, ?_, hcall⟩
    · exact wf.entries_sorted.imp_of_mem (fun {a b} ha hb hab =>
        (key_lt_iff_lex (strlen_take_nonul (wf.entries_valid a ha))
          (strlen_take_nonul (wf.entries_valid b hb))).mp hab)
    · intro hpos
      have hp : ∀ e ∈ entries (build h0 calls).1 order, ∀ x ∈ ekey e, (0 : Int) < x := by
        intro e he
        obtain ⟨c, hc, rfl⟩ := hcall e he
        exact hpos c hc
      exact wf.entries_sorted.imp_of_mem (fun {a b} ha hb hab =>
        (key_lt_iff_lex_pos (hp a ha) (hp b hb)).mp hab)
    · have hsorted := wf.entries_sorted
      rw [List.perm_ext_iff_of_nodup (keys_nodup_of_sorted hsorted) (List.nodup_dedup _)]
      intro k
      rw [hent, mem_keys_model_run, List.mem_dedup]
      simp
  · intro v₁ v₂ v₃ h₁ h₂ h₃
    obtain ⟨order, hrun, wf, hent, _, _⟩ := build_spec h0
      [⟨[98, 0], 0, 1, v₁⟩, ⟨[97, 0], 0, 2, v₂⟩, ⟨[99, 0], 0, 3, v₃⟩]
      (by
        intro c hc
        simp only [List.mem_cons, List.mem_singleton, List.not_mem_nil, or_false] at hc
        rcases hc with rfl | rfl | rfl
        · exact ⟨rfl, Or.inl rfl, h₁⟩
        · exact ⟨rfl, Or.inl rfl, h₂⟩
        · exact ⟨rfl, Or.inl rfl, h₃⟩)
    refine ⟨_, _, _, hrun, ?_⟩
    rw [wf.apply, hent]
    simp only [model_run, call_entry]
    decide

/-- The ascending order of `sorted_set_apply` in scenario 1. -/
theorem apply_visits_keys_ascending_witness :
    (∀ c ∈ ex_calls_abc, ValidCall c) ∧
    ∃ rs h s L, run_add_keys [] sorted_set_create ex_calls_abc = some (rs, h, s) ∧
      sorted_set_apply h s = some L ∧
      L.Pairwise (fun a b => List.Lex (· < ·) (ekey a ++ [0]) (ekey b ++ [0])) ∧
      ((∀ c ∈ ex_calls_abc, ∀ x ∈ call_key c, (0 : Int) < x) →
        L.Pairwise (fun a b => List.Lex (· < ·) (ekey a) (ekey b))) ∧
      (L.map ekey).Perm ((ex_calls_abc.map call_key).dedup) ∧
      (∀ e ∈ L, ∃ c ∈ ex_calls_abc, e = call_entry c) :=
  ⟨by decide, (apply_visits_keys_ascending [] ex_calls_abc (by decide)).1⟩

/-- C3, evaluated at a failing input. On an empty set, insert the key
`"abc"` (length 3) and then the key `"ab"`, given as the first 2 bytes of a
buffer `"abd"`. Both calls return UNIQUE, and `sorted_set_apply` visits
`"abc"` before `"ab"`, which is not ascending: `key_compare` compares
`max(3, 2) = 3` bytes and so reads the `d` behind the second key. -/
theorem apply_order_not_ascending_at_short_key :
    run_add_keys [] sorted_set_create ex_calls_prefix =
      some ([SORTED_SET_ADD_KEY_UNIQUE, SORTED_SET_ADD_KEY_UNIQUE], build [] ex_calls_prefix) ∧
    sorted_set_apply (build [] ex_calls_prefix).1 (build [] ex_calls_prefix).2 =
      some [([97, 98, 99, 0], 3, 1), ([97, 98, 100, 0], 2, 2)] ∧
    List.map ekey [(([97, 98, 99, 0], 3, 1) : Entry), ([97, 98, 100, 0], 2, 2)] =
      [[97, 98, 99], [97, 98]] ∧
    List.Lex (· < ·) ([97, 98] : List Int) [97, 98, 99] ∧
    ¬ List.Lex (· < ·) ([97, 98, 99] : List Int) [97, 98] := by
  refine ⟨by decide, by decide, by decide, ?_, ?_⟩
  · exact List.Lex.cons (List.Lex.cons List.Lex.nil)
  · intro hlex
    cases hlex with
    | cons h1 =>
      cases h1 with
      | cons h2 => cases h2
      | rel h2 => exact absurd h2 (by decide)
    | rel h1 => exact absurd h1 (by decide)

/-- For every set built from an empty set by `sorted_set_add_key` calls
with NUL-terminated keys passed with length 0 or their string length and every
NUL-terminated query key given with its string length, `sorted_set_lookup`
returns a non-null result if and only if one of the calls inserted that key
and returned UNIQUE; the result then holds the key pointer, length and data
of that call. In scenario 1, looking up `"a"` gives data 2 and looking up
`"z"` gives `NULL`. -/
theorem lookup_iff_inserted_unique (h0 : Heap) (calls : List add_call)
    (hv : ∀ c ∈ calls, ValidCall c) (k : List Int) (len : Nat) (hk : strlen k = some len) :
    (∃ rs h s res, run_add_keys h0 sorted_set_create calls = some (rs, h, s) ∧
      sorted_set_lookup h s k len = some res ∧
      (res.isSome = true ↔ ∃ p ∈ calls.zip rs,
        p.2 = SORTED_SET_ADD_KEY_UNIQUE ∧ call_key p.1 = k.take len) ∧
      (∀ e, res = some e → ∃ p ∈ calls.zip rs,
        p.2 = SORTED_SET_ADD_KEY_UNIQUE ∧ call_key p.1 = k.take len ∧ e = call_entry p.1)) ∧
    (∀ v₁ v₂ v₃, 1 ≤ v₁ → 1 ≤ v₂ → 1 ≤ v₃ →
      ∃ rs h s, run_add_keys h0 sorted_set_create
          [⟨[98, 0], 0, 1, v₁⟩, ⟨[97, 0], 0, 2, v₂⟩, ⟨[99, 0], 0, 3, v₃⟩] = some (rs, h, s) ∧
        sorted_set_lookup h s [97, 0] 1 = some (some ([97, 0], 1, 2)) ∧
        sorted_set_lookup h s [122, 0] 1 = some none) := by
  constructor
  · obtain ⟨order, hrun, wf, hent, _, _⟩ := build_spec h0 calls hv
    refine ⟨_, _, _, _, hrun, wf.lookup hk, ?_, ?_⟩
    · rw [hent, List.find?_isSome]
      constructor
      · rintro ⟨e, he, hek⟩
        rw [mem_model_run] at he
        rcases he with he | ⟨p, hp, hu, he⟩
        · simp at he
        · refine ⟨p, hp, hu, ?_⟩
          rw [call_key, ← he]
          simpa using hek
      · rintro ⟨p, hp, hu, hpk⟩
        refine ⟨call_entry p.1, ?_, by simpa [call_key] using hpk⟩
        rw [mem_model_run]
        exact Or.inr ⟨p, hp, hu, rfl⟩
    · intro e he
      rw [hent] at he
      have hmem := List.mem_of_find?_eq_some he
      have hek := List.find?_some he
      rw [mem_model_run] at hmem
      rcases hmem with hmem | ⟨p, hp, hu, hpe⟩
      · simp at hmem
      · refine ⟨p, hp, hu, ?_, hpe⟩
        rw [call_key, ← hpe]
        simpa using hek
  · intro v₁ v₂ v₃ h₁ h₂ h₃
    obtain ⟨order, hrun, wf, hent, _, _⟩ := build_spec h0
      [⟨[98, 0], 0, 1, v₁⟩, ⟨[97, 0], 0, 2, v₂⟩, ⟨[99, 0], 0, 3, v₃⟩]
      (by
        intro c hc
        simp only [List.mem_cons, List.mem_singleton, List.not_mem_nil, or_false] at hc
        rcases hc with rfl | rfl | rfl
        · exact ⟨rfl, Or.inl rfl, h₁⟩
        · exact ⟨rfl, Or.inl rfl, h₂⟩
        · exact ⟨rfl, Or.inl rfl, h₃⟩)
    refine ⟨_, _, _, hrun, ?_, ?_⟩
    · rw [wf.lookup (by decide : strlen [97, 0] = some 1), hent]
      simp only [model_run, call_entry]
      decide
    · rw [wf.lookup (by decide : strlen [122, 0] = some 1), hent]
      simp only [model_run, call_entry]
      decide

/-- Looking up `"c"` in the set of scenario 1. -/
theorem lookup_iff_inserted_unique_witness :
    ((∀ c ∈ ex_calls_abc, ValidCall c) ∧ strlen [99, 0] = some 1) ∧
    ∃ rs h s res, run_add_keys [] sorted_set_create ex_calls_abc = some (rs, h, s) ∧
      sorted_set_lookup h s [99, 0] 1 = some res ∧
      (res.isSome = true ↔ ∃ p ∈ ex_calls_abc.zip rs,
        p.2 = SORTED_SET_ADD_KEY_UNIQUE ∧ call_key p.1 = List.take 1 [99, 0]) ∧
      (∀ e, res = some e → ∃ p ∈ ex_calls_abc.zip rs,
        p.2 = SORTED_SET_ADD_KEY_UNIQUE ∧ call_key p.1 = List.take 1 [99, 0] ∧
          e = call_entry p.1) :=
  ⟨⟨by decide, by decide⟩,
    (lookup_iff_inserted_unique [] ex_calls_abc (by decide) [99, 0] 1 (by decide)).1⟩

/-- C4, evaluated at a failing input. On an empty set, insert the key
`"abc"` (length 3) and then the key `"ab"`, given as the first 2 bytes of a
buffer `"abd"`; both calls return UNIQUE. Looking up the key `"ab"` with its
true length 2, from a buffer `"ab"`, returns `NULL`, although the insertion
of `"ab"` returned UNIQUE; the same key looked up from a buffer `"abd"` is
found. The result depends on the byte behind the key, which `key_compare`
reads because it compares `max(3, 2) = 3` bytes. -/
theorem lookup_misses_short_key :
    run_add_keys [] sorted_set_create ex_calls_prefix =
      some ([SORTED_SET_ADD_KEY_UNIQUE, SORTED_SET_ADD_KEY_UNIQUE], build [] ex_calls_prefix) ∧
    List.take 2 ([97, 98, 0] : List Int) = List.take 2 [97, 98, 100, 0] ∧
    sorted_set_lookup (build [] ex_calls_prefix).1 (build [] ex_calls_prefix).2 [97, 98, 0] 2 =
      some none ∧
    sorted_set_lookup (build [] ex_calls_prefix).1 (build [] ex_calls_prefix).2
      [97, 98, 100, 0] 2 = some (some ([97, 98, 100, 0], 2, 2)) := by
  decide

/-- C5. When `sorted_set_add_key` returns DUPLICATE the heap and the set
header are exactly those it was given: size, layers, every link and every
stored key, length and data are as before, and so are the results of
`sorted_set_lookup` and `sorted_set_apply`. Inserting `"a"` with data 1 and
then with data 2 returns UNIQUE and then DUPLICATE, and leaves size 1 and
data 1 for `"a"`, whatever levels are drawn. -/
theorem add_key_duplicate_leaves_set_unchanged (h : Heap) (s : sorted_set)
    (key : List Int) (length data new_level : Nat) (h' : Heap) (s' : sorted_set)
    (hd : sorted_set_add_key h s key length data new_level =
      some (SORTED_SET_ADD_KEY_DUPLICATE, h', s')) :
    (h' = h ∧ s' = s ∧
      (∀ k l, sorted_set_lookup h' s' k l = sorted_set_lookup h s k l) ∧
      sorted_set_apply h' s' = sorted_set_apply h s) ∧
    (∀ h0 v₁ v₂, 1 ≤ v₁ → 1 ≤ v₂ →
      ∃ h₁ s₁, sorted_set_add_key h0 sorted_set_create [97, 0] 0 1 v₁ =
          some (SORTED_SET_ADD_KEY_UNIQUE, h₁, s₁) ∧
        sorted_set_add_key h₁ s₁ [97, 0] 0 2 v₂ = some (SORTED_SET_ADD_KEY_DUPLICATE, h₁, s₁) ∧
        sorted_set_size s₁ = 1 ∧
        sorted_set_lookup h₁ s₁ [97, 0] 1 = some (some ([97, 0], 1, 1))) := by
  constructor
  · obtain ⟨rfl, rfl⟩ := add_key_duplicate_state hd
    exact ⟨rfl, rfl, fun _ _ => rfl, rfl⟩
  · intro h0 v₁ v₂ h₁ h₂
    have hs : strlen [97, 0] = some 1 := by decide
    obtain ⟨h1, s1, o1, hadd, wf1, hent, _, _, _, hsize, _⟩ :=
      @WF.add_key h0 sorted_set_create [] (WF_create h0) [97, 0] 0 1 1 v₁ (by simp [hs]) hs h₁
    have e0 : entries h0 [] = [] := rfl
    rw [e0] at hadd hent hsize
    obtain ⟨h2, s2, o2, hadd2, _, _, _, _, _, _, _⟩ :=
      @WF.add_key h1 s1 o1 wf1 [97, 0] 0 1 2 v₂ (by simp [hs]) hs h₂
    rw [hent] at hadd2
    have hr1 : insert_result ([97, 0], 1, 1) [] = SORTED_SET_ADD_KEY_UNIQUE := by decide
    have hr2 : insert_result ([97, 0], 1, 2) (insert_entry ([97, 0], 1, 1) []) =
        SORTED_SET_ADD_KEY_DUPLICATE := by decide
    rw [hr1] at hadd hsize
    rw [hr2] at hadd2
    obtain ⟨rfl, rfl⟩ := add_key_duplicate_state hadd2
    refine ⟨h2, s2, hadd, hadd2, ?_, ?_⟩
    · simpa [sorted_set_size, sorted_set_create] using hsize
    · rw [wf1.lookup hs, hent]
      decide

/-- Witness for C5: the second insertion of `"a"` in scenario 2. -/
theorem add_key_duplicate_leaves_set_unchanged_witness :
    sorted_set_add_key (build [] [⟨[97, 0], 0, 1, 2⟩]).1 (build [] [⟨[97, 0], 0, 1, 2⟩]).2
        [97, 0] 0 2 1 = some (SORTED_SET_ADD_KEY_DUPLICATE,
          (build [] [⟨[97, 0], 0, 1, 2⟩]).1, (build [] [⟨[97, 0], 0, 1, 2⟩]).2) ∧
    sorted_set_size (build [] [⟨[97, 0], 0, 1, 2⟩]).2 = 1 ∧
    sorted_set_apply (build [] [⟨[97, 0], 0, 1, 2⟩]).1 (build [] [⟨[97, 0], 0, 1, 2⟩]).2 =
      sorted_set_apply (build [] [⟨[97, 0], 0, 1, 2⟩]).1 (build [] [⟨[97, 0], 0, 1, 2⟩]).2 :=
  ⟨by decide, by decide,
    (add_key_duplicate_leaves_set_unchanged _ _ [97, 0] 0 2 1 _ _ (by decide)).1.2.2.2⟩

/-- Two sets built one after the other in the same heap are both well-formed
in the final heap. -/
theorem build_pair_spec (ca cb : List add_call) (hva : ∀ c ∈ ca, ValidCall c)
    (hvb : ∀ c ∈ cb, ValidCall c) :
    ∃ oa ob, WF (build (build [] ca).1 cb).1 (build [] ca).2 oa ∧
      WF (build (build [] ca).1 cb).1 (build (build [] ca).1 cb).2 ob ∧
      entries (build (build [] ca).1 cb).1 oa = (model_run [] ca).2 ∧
      entries (build (build [] ca).1 cb).1 ob = (model_run [] cb).2 := by
  obtain ⟨oa, _, wa, hea, _, _⟩ := build_spec [] ca hva
  obtain ⟨ob, _, wb, heb, _, hfr⟩ := build_spec (build [] ca).1 cb hvb
  obtain ⟨wa', hea'⟩ := wa.frame (build (build [] ca).1 cb).1
    (fun i hi => hfr i (wa.valid i hi).lt)
  exact ⟨oa, ob, wa', wb, by rw [hea', hea], heb⟩

/-- For all well-formed sets `r` (required) and `v` (available) of one
heap (as sets built by the insertion functions from NUL-terminated keys
are), `sorted_set_size` of `sorted_set_difference r v` is 0 if and only if
every key of `r` is a key of `v`. -/
theorem difference_size_zero_iff_all_available {h : Heap} {r v : sorted_set}
    {or ov : List Nat} (wr : WF h r or) (wv : WF h v ov) (lv : Nat → Nat)
    (hlv : ∀ n, 1 ≤ lv n) :
    ∃ h' out LR LV, sorted_set_difference h r v lv = some (h', out) ∧
      sorted_set_apply h r = some LR ∧ sorted_set_apply h v = some LV ∧
      (sorted_set_size out = 0 ↔ ∀ e ∈ LR, ekey e ∈ LV.map ekey) := by
  obtain ⟨h', out, oo, hdiff, inv, hent⟩ := wr.difference wv lv hlv
  refine ⟨h', out, _, _, hdiff, wr.apply, wv.apply, ?_⟩
  rw [sorted_set_size, ← inv.wf.entries_length, hent, List.length_map, List.length_eq_zero,
    List.filter_eq_nil_iff]
  simp

/-- Required `{"b"}`, available `{"a","b","c"}`: nothing is missing. -/
theorem difference_size_zero_iff_all_available_witness :
    (∀ n : Nat, 1 ≤ (fun _ => 2 : Nat → Nat) n) ∧
    ∃ h' out LR LV, sorted_set_difference (build (build [] ex_calls_abc).1 ex_calls_b).1
        (build (build [] ex_calls_abc).1 ex_calls_b).2 (build [] ex_calls_abc).2
        (fun _ => 2) = some (h', out) ∧
      sorted_set_apply (build (build [] ex_calls_abc).1 ex_calls_b).1
        (build (build [] ex_calls_abc).1 ex_calls_b).2 = some LR ∧
      sorted_set_apply (build (build [] ex_calls_abc).1 ex_calls_b).1
        (build [] ex_calls_abc).2 = some LV ∧
      (sorted_set_size out = 0 ↔ ∀ e ∈ LR, ekey e ∈ LV.map ekey) := by
  obtain ⟨oa, ob, wa, wb, _, _⟩ :=
    build_pair_spec ex_calls_abc ex_calls_b (by decide) (by decide)
  exact ⟨fun _ => Nat.le_succ 1,
    difference_size_zero_iff_all_available wb wa (fun _ => 2) (fun _ => Nat.le_succ 1)⟩

/-- C7, evaluated at a failing input. The required set holds the key `"ab"`,
added by `sorted_set_add_key` as the first 2 bytes of a buffer `"abd"`; the
available set holds the key `"abd"` (length 3). The difference has size 0
and no entry, although the key `"ab"` of the required set is not stored in
the available set: `key_compare` compares `max(2, 3) = 3` bytes of the two
buffers and finds them equal. -/
theorem difference_size_zero_at_short_key :
    sorted_set_apply (build (build [] ex_calls_ab_of_abd).1 ex_calls_abd3).1
        (build [] ex_calls_ab_of_abd).2 = some [([97, 98, 100, 0], 2, 1)] ∧
    sorted_set_apply (build (build [] ex_calls_ab_of_abd).1 ex_calls_abd3).1
        (build (build [] ex_calls_ab_of_abd).1 ex_calls_abd3).2 =
      some [([97, 98, 100, 0], 3, 2)] ∧
    (∃ h out, sorted_set_difference (build (build [] ex_calls_ab_of_abd).1 ex_calls_abd3).1
        (build [] ex_calls_ab_of_abd).2 (build (build [] ex_calls_ab_of_abd).1 ex_calls_abd3).2
        (fun _ => 1) = some (h, out) ∧
      sorted_set_size out = 0 ∧ sorted_set_apply h out = some []) ∧
    ekey (([97, 98, 100, 0], 2, 1) : Entry) = [97, 98] ∧
    ekey (([97, 98, 100, 0], 3, 2) : Entry) = [97, 98, 100] := by
  refine ⟨by decide, by decide, ⟨_, _, rfl, by decide, by decide⟩, by decide, by decide⟩

/-- C8. `sorted_set_difference a b` does not modify its arguments. Whatever
the sets and their keys are, when the call returns every node that existed
before the call is unchanged in the heap (links, key, length, data), every
link read through `a` or `b` (whose headers, with size and layers, the call
only reads) is as before, and the nodes of the result are allocated by the
call, so none of them is a node of `a` or `b`. On well-formed sets the call
does return, `a` and `b` are well-formed with the same nodes afterwards and
their `sorted_set_apply` sequences are as before. -/
theorem difference_leaves_arguments_unchanged (h : Heap) (a b : sorted_set)
    (lv : Nat → Nat) (hlv : ∀ n, 1 ≤ lv n) :
    (∀ h' out, sorted_set_difference h a b lv = some (h', out) →
      (∀ i, i < h.length → h'[i]? = h[i]?) ∧
      (∀ (x : NodeRef) (L : Nat), (x = .set ∨ ∃ i, i < h.length ∧ x = .node i) →
        load_next h' a x L = load_next h a x L ∧ load_next h' b x L = load_next h b x L) ∧
      ∃ oo, SWF h' out oo ∧ ∀ j ∈ oo, h.length ≤ j) ∧
    (∀ oa ob, WF h a oa → WF h b ob →
      ∃ h' out oo, sorted_set_difference h a b lv = some (h', out) ∧
        WF h' a oa ∧ WF h' b ob ∧
        sorted_set_apply h' a = sorted_set_apply h a ∧
        sorted_set_apply h' b = sorted_set_apply h b ∧
        WF h' out oo ∧ (∀ j ∈ oo, j ∉ oa ∧ j ∉ ob)) := by
  constructor
  · intro h' out hd
    obtain ⟨oo, fr⟩ := difference_frame lv hlv hd
    refine ⟨fr.frame, ?_, oo, fr.swf, fr.fresh⟩
    intro x L hx
    rcases hx with rfl | ⟨i, hi, rfl⟩
    · exact ⟨rfl, rfl⟩
    · simp [load_next, next_array, fr.frame i hi]
  · intro oa ob wa wb
    obtain ⟨h', out, oo, hdiff, inv, _⟩ := wa.difference wb lv hlv
    obtain ⟨wa', hea⟩ := wa.frame h' (fun i hi => inv.frame i (wa.valid i hi).lt)
    obtain ⟨wb', heb⟩ := wb.frame h' (fun i hi => inv.frame i (wb.valid i hi).lt)
    refine ⟨h', out, oo, hdiff, wa', wb', ?_, ?_, inv.wf, ?_⟩
    · rw [wa'.apply, wa.apply, hea]
    · rw [wb'.apply, wb.apply, heb]
    · intro j hj
      have hjl := inv.fresh j hj
      refine ⟨?_, ?_⟩
      · intro hc; have := (wa.valid j hc).lt; omega
      · intro hc; have := (wb.valid j hc).lt; omega

/-- Witness for C8: scenario 3. -/
theorem difference_leaves_arguments_unchanged_witness :
    (∀ n : Nat, 1 ≤ (fun _ => 1 : Nat → Nat) n) ∧
    ∃ h' out, sorted_set_difference (build (build [] ex_calls_abc).1 ex_calls_b).1
        (build [] ex_calls_abc).2 (build (build [] ex_calls_abc).1 ex_calls_b).2
        (fun _ => 1) = some (h', out) ∧
      (∀ i, i < (build (build [] ex_calls_abc).1 ex_calls_b).1.length →
        h'[i]? = (build (build [] ex_calls_abc).1 ex_calls_b).1[i]?) ∧
      sorted_set_apply h' (build [] ex_calls_abc).2 =
        sorted_set_apply (build (build [] ex_calls_abc).1 ex_calls_b).1
          (build [] ex_calls_abc).2 := by
  obtain ⟨oa, ob, wa, wb, _, _⟩ :=
    build_pair_spec ex_calls_abc ex_calls_b (by decide) (by decide)
  have hthm := difference_leaves_arguments_unchanged
    (build (build [] ex_calls_abc).1 ex_calls_b).1 (build [] ex_calls_abc).2
    (build (build [] ex_calls_abc).1 ex_calls_b).2 (fun _ => 1) (fun _ => le_refl _)
  obtain ⟨h', out, _, hd, _, _, hap, _⟩ := hthm.2 oa ob wa wb
  exact ⟨fun _ => le_refl _, h', out, hd, (hthm.1 h' out hd).1, hap⟩

/-- C9. For every well-formed set `a`, `sorted_set_difference a a` is the
empty set: the call returns, its result has size 0 and `sorted_set_apply`
visits no key in it. This needs the structure of the skip list only, and
that every key buffer holds its `length` chars, as in a well-formed set;
the heap is left as it was. -/
theorem difference_self_is_empty {h : Heap} {a : sorted_set} {oa : List Nat}
    (wa : SWF h a oa) (hb : ∀ i ∈ oa, ∀ nd, h[i]? = some nd → nd.length ≤ nd.key.length)
    (lv : Nat → Nat) :
    ∃ h' out, sorted_set_difference h a a lv = some (h', out) ∧
      sorted_set_size out = 0 ∧ sorted_set_apply h' out = some [] ∧ h' = h :=
  ⟨h, sorted_set_create, wa.difference_self hb lv, rfl, (SWF_create h).struct_apply, rfl⟩

/-- Witness for C9: the set of scenario 1 minus itself. -/
theorem difference_self_is_empty_witness :
    ∃ oa, WF (build [] ex_calls_abc).1 (build [] ex_calls_abc).2 oa ∧
      ∃ h' out, sorted_set_difference (build [] ex_calls_abc).1 (build [] ex_calls_abc).2
          (build [] ex_calls_abc).2 (fun n => n + 1) = some (h', out) ∧
        sorted_set_size out = 0 ∧ sorted_set_apply h' out = some [] ∧
        h' = (build [] ex_calls_abc).1 := by
  obtain ⟨oa, _, wa, _⟩ := build_spec [] ex_calls_abc (by decide)
  exact ⟨oa, wa, difference_self_is_empty wa.toSWF wa.key_in_buffer (fun n => n + 1)⟩

/-- C10. For every set built from an empty set by `sorted_set_add_key`
calls, whatever the keys, the lengths given and the levels drawn (at least
1, as `random_level` returns), `sorted_set_flatten_keys` returns an array of
exactly `sorted_set_size` keys, stores that count in `*n_keys_out` when the
pointer is not null, and the `i`-th array entry is the key pointer of the
`i`-th element visited by `sorted_set_apply`. The calls that build the set
all return when the keys are NUL-terminated and passed with length 0 or
their string length. -/
theorem flatten_keys_matches_apply (h0 : Heap) (calls : List add_call)
    (hlev : ∀ c ∈ calls, 1 ≤ c.new_level) (n_keys_out : Bool) :
    (∀ rs h s, run_add_keys h0 sorted_set_create calls = some (rs, h, s) →
      ∃ keys L, sorted_set_flatten_keys h s n_keys_out =
          some (keys, if n_keys_out then some (sorted_set_size s) else none) ∧
        keys.length = sorted_set_size s ∧
        sorted_set_apply h s = some L ∧
        (∀ i : Nat, keys[i]? = (L[i]?).map (fun e : Entry => e.1))) ∧
    ((∀ c ∈ calls, ValidCall c) →
      ∃ rs h s, run_add_keys h0 sorted_set_create calls = some (rs, h, s)) := by
  constructor
  · intro rs h s hrun
    obtain ⟨order, wf⟩ := (SWF_create h0).struct_run_add_keys calls hlev hrun
    refine ⟨_, _, wf.struct_flatten_keys n_keys_out, ?_, wf.struct_apply, ?_⟩
    · rw [List.length_map, entries, List.length_map, sorted_set_size, wf.size_eq]
    · intro i
      rw [List.getElem?_map]
  · intro hv
    obtain ⟨order, hrun, _⟩ := build_spec h0 calls hv
    exact ⟨_, _, _, hrun⟩

/-- Witness for C10: the keys `"abc"` and `"ab"`, the second one given as
the first 2 bytes of a buffer `"abd"`. -/
theorem flatten_keys_matches_apply_witness :
    (∀ c ∈ ex_calls_prefix, 1 ≤ c.new_level) ∧
    run_add_keys [] sorted_set_create ex_calls_prefix =
      some ([SORTED_SET_ADD_KEY_UNIQUE, SORTED_SET_ADD_KEY_UNIQUE], build [] ex_calls_prefix) ∧
    ∃ keys L, sorted_set_flatten_keys (build [] ex_calls_prefix).1 (build [] ex_calls_prefix).2
          true =
        some (keys, if true = true then some (sorted_set_size (build [] ex_calls_prefix).2)
          else none) ∧
      keys.length = sorted_set_size (build [] ex_calls_prefix).2 ∧
      sorted_set_apply (build [] ex_calls_prefix).1 (build [] ex_calls_prefix).2 = some L ∧
      (∀ i : Nat, keys[i]? = (L[i]?).map (fun e : Entry => e.1)) :=
  ⟨by decide, by decide,
    (flatten_keys_matches_apply [] ex_calls_prefix (by decide) true).1
      [SORTED_SET_ADD_KEY_UNIQUE, SORTED_SET_ADD_KEY_UNIQUE] _ _ (by decide)⟩

/-- For a maker of `n ≥ 2` keys and at most `n` additions: every addition
returns, the `k`-th one returns true exactly when `k = n`, and afterwards
`sorted_set_maker_complete` tells whether `n` keys were added. -/
theorem maker_add_keys_complete (h0 : Heap) {n : Nat} (hn : 2 ≤ n) (es : List Entry)
    (hes : es.length ≤ n) :
    ∃ h1 m rs h2 m2, sorted_set_maker_create h0 n = some (h1, m) ∧
      sorted_set_maker_complete m = false ∧
      maker_add_keys h1 m es = some (rs, h2, m2) ∧ rs.length = es.length ∧
      (∀ i, i < es.length → rs[i]? = some (decide (i + 1 = n))) ∧
      sorted_set_maker_complete m2 = decide (es.length = n) := by
  obtain ⟨lm, h1, s, upd, _, hcreate, inv⟩ := maker_create_spec h0 hn
  obtain ⟨rs, h2, m2, hadd, mf, hlen, hrs, _⟩ :=
    MakerFill.add_keys es 0 [] h1 _ (by omega) (inv.toFill (by omega))
  refine ⟨h1, _, rs, h2, m2, hcreate, rfl, hadd, hlen, ?_, ?_⟩
  · intro i hi
    rw [hrs i hi]
    simp
  · rw [sorted_set_maker_complete, mf.next_eq]
    by_cases hlt : es.length < n
    · simp [hlt, show es.length ≠ n by omega]
    · simp [hlt, show es.length = n by omega]

/-- C11, evaluated at a failing input. For `n = 1` the call
`sorted_set_maker_create(1)` has no defined result: it computes 0 layers and
then reads `landmarks[SIZE_MAX]`. So there is no maker on which the first
call of `sorted_set_maker_add_key` could return true, and none on which
`sorted_set_maker_complete` could be false after the creation. -/
theorem maker_create_one_no_first_call :
    (sorted_set_maker_create [] 1).bind
        (fun st => sorted_set_maker_add_key st.1 st.2 [97, 0] 1 1) = none ∧
    (sorted_set_maker_create [] 1).map (fun st => sorted_set_maker_complete st.2) = none := by
  decide

/-- C12, evaluated at a failing input. For the one key `"a"`, the set built
by `sorted_set_add_key` holds the entry `("a", 1, 1)`, but creating a maker
for one key, adding the key and finalizing has no defined result, because
`sorted_set_maker_create(1)` has none. -/
theorem maker_build_one_undefined :
    maker_build [] [([97, 0], 1, 1)] = none ∧
    sorted_set_apply (build [] [⟨[97, 0], 1, 1, 1⟩]).1 (build [] [⟨[97, 0], 1, 1, 1⟩]).2 =
      some [([97, 0], 1, 1)] := by
  decide

/-- C13, evaluated at a failing input. A maker for 2 keys, the keys `"a"`
and `"b"` added and the maker finalized: the set has two nodes reachable
from `head[0]`, which `sorted_set_apply` visits, but `sorted_set_size` is 0.
`sorted_set_maker_create` sets `size` to 0 and no maker function changes
it. -/
theorem maker_build_size_zero :
    maker_build [] [([97, 0], 1, 1), ([98, 0], 1, 2)] =
      some ([false, true],
        [{ next := [some 1], key := [97, 0], length := 1, data := 1 },
         { next := [none], key := [98, 0], length := 1, data := 2 }],
        { next := [some 0], layers := 1, size := 0 }) ∧
    sorted_set_size { next := [some 0], layers := 1, size := 0 } = 0 ∧
    sorted_set_apply
        [{ next := [some 1], key := [97, 0], length := 1, data := 1 },
         { next := [none], key := [98, 0], length := 1, data := 2 }]
        { next := [some 0], layers := 1, size := 0 } =
      some [([97, 0], 1, 1), ([98, 0], 1, 2)] := by
  decide

/-- C14, evaluated at a failing input. For `n = 1` the function
`sorted_set_maker_create` computes `layers = 0`, so `landmarks` has no
entries; the landmarks loop does not run; and for node 0 the loop
`for (j = layers - 1; j > 0; j--)` is entered with `j = SIZE_MAX` and reads
`landmarks[SIZE_MAX]`, which is out of range. The call has no defined
result. -/
theorem maker_create_one_out_of_range :
    maker_layers 1 = 0 ∧
    size_dec (maker_layers 1) = 2 ^ 64 - 1 ∧
    maker_landmarks_loop 1 (1 / 2) (size_dec (maker_layers 1))
      (List.replicate (maker_layers 1) none) = some [] ∧
    maker_level_loop [] 0 (size_dec (maker_layers 1)) = none ∧
    sorted_set_maker_create [] 1 = none := by
  decide

/-- C15. Function `sorted_set_maker_add_key` performs no key comparison: for every
`n ≥ 2` and every sequence of `n` triples `(key, length, data)`, sorted or
not, with or without repeats, creating a maker for `n` keys, adding the
triples and finalizing returns, and `sorted_set_apply` on the set visits
exactly those triples in the order they were added. -/
theorem maker_apply_visits_added_triples (h0 : Heap) (es : List Entry)
    (hn : 2 ≤ es.length) :
    ∃ rs h s, maker_build h0 es = some (rs, h, s) ∧ sorted_set_apply h s = some es := by
  obtain ⟨rs, h, s, hb, _, _, swf, hent, _⟩ := maker_build_spec h0 es hn
  refine ⟨rs, h, s, hb, ?_⟩
  rw [← apply_size_irrel h s es.length, swf.struct_apply, hent]

/-- Witness for C15: the keys `"b"`, `"a"`, `"b"`, not sorted and with a
repeat. -/
theorem maker_apply_visits_added_triples_witness :
    2 ≤ [(([98, 0], 1, 1) : Entry), ([97, 0], 1, 2), ([98, 0], 1, 3)].length ∧
    ∃ rs h s, maker_build [] [([98, 0], 1, 1), ([97, 0], 1, 2), ([98, 0], 1, 3)] =
        some (rs, h, s) ∧
      sorted_set_apply h s = some [([98, 0], 1, 1), ([97, 0], 1, 2), ([98, 0], 1, 3)] :=
  ⟨by decide, maker_apply_visits_added_triples []
    [([98, 0], 1, 1), ([97, 0], 1, 2), ([98, 0], 1, 3)] (by decide)⟩

/-- C18. For every `n > 0`, the layer count `sorted_set_maker_create(n)`
computes and stores in the set is `floor(log2(n))`: this is the value of its
first loop, it is the `layers` field of the set of every maker the call
returns, and for `n ≥ 2` the call does return. -/
theorem maker_create_layers_log2 (n : Nat) (hn : 0 < n) :
    maker_layers n = Nat.log 2 n ∧
    (∀ h h' m, sorted_set_maker_create h n = some (h', m) →
      m.sorted_set.layers = Nat.log 2 n) ∧
    (2 ≤ n → ∀ h, ∃ h' m, sorted_set_maker_create h n = some (h', m) ∧
      m.sorted_set.layers = Nat.log 2 n) := by
  refine ⟨maker_layers_eq n, ?_, ?_⟩
  · intro h h' m hc
    by_cases h2 : 2 ≤ n
    · obtain ⟨lm, h1, s, upd, _, hcreate, inv⟩ := maker_create_spec h h2
      rw [hcreate] at hc
      simp only [Option.some.injEq, Prod.mk.injEq] at hc
      rw [← hc.2]
      exact inv.layers_eq
    · have h1 : n = 1 := by omega
      subst h1
      have : sorted_set_maker_create h 1 = none := rfl
      rw [this] at hc
      cases hc
  · intro h2 h
    obtain ⟨lm, h1, s, upd, _, hcreate, inv⟩ := maker_create_spec h h2
    exact ⟨h1, _, hcreate, inv.layers_eq⟩

/-- Witness for C18: a maker for 5 keys has 2 layers. -/
theorem maker_create_layers_log2_witness :
    0 < 5 ∧ maker_layers 5 = Nat.log 2 5 ∧
    ∃ h' m, sorted_set_maker_create [] 5 = some (h', m) ∧ m.sorted_set.layers = 2 := by
  have hthm := maker_create_layers_log2 5 (by decide)
  obtain ⟨h', m, hc, hl⟩ := hthm.2.2 (by decide) []
  have h2 : Nat.log 2 5 = 2 := by
    simp [Nat.log]
  exact ⟨by decide, hthm.1, h', m, hc, by rw [hl, h2]⟩

/-- C16. For every set and every NUL-terminated key `k`,
`sorted_set_add_key(set, k, 0, d)` is the same computation as
`sorted_set_add_key(set, k, strlen(k), d)` with the same drawn level: the
same result and the same set and heap. When the result is UNIQUE on a set
with the structure of a skip list, the new node holds the key pointer, the
length `strlen(k)` and the data. -/
theorem add_key_length_zero_is_strlen (h : Heap) (s : sorted_set) (key : List Int)
    (n d new_level : Nat) (hk : strlen key = some n) :
    sorted_set_add_key h s key 0 d new_level = sorted_set_add_key h s key n d new_level ∧
    (∀ order h' s', SWF h s order → 1 ≤ new_level →
      sorted_set_add_key h s key 0 d new_level = some (SORTED_SET_ADD_KEY_UNIQUE, h', s') →
      ∃ nd, h'[h.length]? = some nd ∧ nd.key = key ∧ nd.length = n ∧ nd.data = d) := by
  constructor
  · unfold sorted_set_add_key
    by_cases hn : n = 0
    · subst hn; rfl
    · simp only [if_true, hk, hn, if_false]
  · intro order h' s' wf hlev hadd
    rcases wf.struct_add_key hlev hadd with ⟨hc, _⟩ | ⟨_, pre, post, len, _, heff, sp, _⟩
    · cases hc
    · simp only [if_true, hk, Option.some.injEq] at heff
      subst heff
      obtain ⟨nd, hnd, h1, h2, h3, _⟩ := sp.fresh
      exact ⟨nd, hnd, h1, h2, h3⟩

/-- Witness for C16: the key `"b"` added to the set `{"a"}` with length 0
and with length 1. -/
theorem add_key_length_zero_is_strlen_witness :
    strlen [98, 0] = some 1 ∧
    sorted_set_add_key (build [] [⟨[97, 0], 0, 1, 2⟩]).1 (build [] [⟨[97, 0], 0, 1, 2⟩]).2
        [98, 0] 0 7 3 =
      sorted_set_add_key (build [] [⟨[97, 0], 0, 1, 2⟩]).1 (build [] [⟨[97, 0], 0, 1, 2⟩]).2
        [98, 0] 1 7 3 :=
  ⟨by decide, (add_key_length_zero_is_strlen _ _ [98, 0] 1 7 3 (by decide)).1⟩

/-- C17, amended. When `lengths` is null, or no entry of `lengths` that is
used is 0, `sorted_set_add_keys_copy(set, keys, lengths, data, n)` is the
same computation as the calls
`sorted_set_add_key_copy(set, keys[i], L_i, D_i)` for `i = 0 .. n-1` in
order, with `L_i = lengths[i]` (0 when `lengths` is null) and
`D_i = data[i]` (`NULL` when `data` is null) and the same drawn levels: it
has a result when they have, and leaves the same set and heap. -/
theorem add_keys_copy_is_add_key_copy_calls (keys : List (List Int))
    (lengths : Option (List Nat)) (data : Option (List Nat)) (lv : Nat → Nat)
    (hl : ∀ ls : List Nat, lengths = some ls → ∀ i : Nat, ls[i]? ≠ some 0) (n : Nat) (h : Heap)
    (s : sorted_set) :
    sorted_set_add_keys_copy h s keys lengths data n lv =
      add_key_copy_calls keys lengths data lv n 0 h s := by
  unfold sorted_set_add_keys_copy
  generalize (0 : Nat) = i
  induction n generalizing i h s with
  | zero => rfl
  | succ m ih =>
    simp only [add_keys_copy_loop, add_key_copy_calls]
    rcases hkey : keys[i]? with _ | key
    · rfl
    · rcases hd : (match data with
        | some ds => ds[i]?
        | none => some 0) with _ | d
      · cases lengths with
        | none =>
          simp only [hd]
          rcases strlen key with _ | len <;> simp
        | some ls =>
          simp only [hd]
          rcases ls[i]? with _ | len <;> simp
      · cases lengths with
        | none =>
          simp only [hd]
          rcases hs : strlen key with _ | len
          · simp [sorted_set_add_key_copy, strdup, hs]
          · have hcopy : util_strndup key len = some (key.take len ++ [0]) := by
              simp [util_strndup, strnlen_of_strlen hs]
            have hdup : strdup key = some (key.take len ++ [0]) := by
              simp [strdup, hs]
            have heq := (add_key_length_zero_is_strlen h s (key.take len ++ [0]) len d (lv i)
              (strlen_copy hs)).1
            simp only [hcopy, sorted_set_add_key_copy, ne_eq, not_true_eq_false, if_false,
              hdup, heq]
            rcases sorted_set_add_key h s (key.take len ++ [0]) len d (lv i) with
              _ | ⟨r, h', s'⟩
            · rfl
            · exact ih h' s' (i + 1)
        | some ls =>
          simp only [hd]
          rcases hlen : ls[i]? with _ | len
          · rfl
          · have hne : len ≠ 0 := by
              intro h0
              subst h0
              exact hl ls rfl i hlen
            simp only [sorted_set_add_key_copy, ne_eq, hne, not_false_eq_true, if_true]
            rcases util_strndup key len with _ | k
            · rfl
            · simp only
              rcases sorted_set_add_key h s k len d (lv i) with _ | ⟨r, h', s'⟩
              · rfl
              · exact ih h' s' (i + 1)

/-- Witness for C17, amended: the keys `"b"`, `"a"` with lengths 1, 1 and no
data. -/
theorem add_keys_copy_is_add_key_copy_calls_witness :
    (∀ ls : List Nat, some [1, 1] = some ls → ∀ i : Nat, ls[i]? ≠ some 0) ∧
    sorted_set_add_keys_copy [] sorted_set_create [[98, 0], [97, 0]] (some [1, 1]) none 2
        (fun _ => 1) =
      add_key_copy_calls [[98, 0], [97, 0]] (some [1, 1]) none (fun _ => 1) 2 0 []
        sorted_set_create := by
  have hl : ∀ ls : List Nat, some [1, 1] = some ls → ∀ i : Nat, ls[i]? ≠ some 0 := by
    intro ls hls i
    cases hls
    match i with
    | 0 => simp
    | 1 => simp
    | i + 2 => simp
  exact ⟨hl, add_keys_copy_is_add_key_copy_calls _ _ _ _ hl 2 [] sorted_set_create⟩

/-- C17, counterexample. With `keys = {"a"}` and `lengths = {0}`, on an empty
set, `sorted_set_add_keys_copy` stores the empty key with length 0 (it
copies `lengths[0] = 0` bytes of `"a"`), whereas
`sorted_set_add_key_copy(set, "a", 0, NULL)` stores the key `"a"` with
length 1. -/
theorem add_keys_copy_zero_length_counterexample :
    (sorted_set_add_keys_copy [] sorted_set_create [[97, 0]] (some [0]) none 1
        (fun _ => 1)).map (fun st => sorted_set_apply st.1 st.2) =
      some (some [(([0], 0, 0) : Entry)]) ∧
    (add_key_copy_calls [[97, 0]] (some [0]) none (fun _ => 1) 1 0 []
        sorted_set_create).map (fun st => sorted_set_apply st.1 st.2) =
      some (some [(([97, 0], 1, 0) : Entry)]) :=
  ⟨by decide, by decide⟩

/-- C25, amended. For keys held in NUL-terminated buffers with no embedded
NUL and length equal to their string length, `key_compare(a, b)` is defined;
it is 0 if and only if the keys have the same length and bytes; it is
negative if and only if, at the first position where the NUL-terminated
strings differ, the char of `a` is smaller than the char of `b` as a `char`
value, and positive if and only if it is greater. When all chars of the
keys are positive this is the lexicographic order of the keys, in which a
proper prefix is smaller than its extension; in general a proper prefix is
smaller than its extension exactly when the char of the extension behind
the prefix is positive. -/
theorem key_compare_on_strings (a b : node) (ha : strlen a.key = some a.length)
    (hb : strlen b.key = some b.length) :
    ∃ c, key_compare a b = some c ∧
      (c = 0 ↔ a.key.take a.length = b.key.take b.length) ∧
      (c < 0 ↔ List.Lex (· < ·) (a.key.take a.length ++ [0]) (b.key.take b.length ++ [0])) ∧
      (0 < c ↔ List.Lex (· < ·) (b.key.take b.length ++ [0]) (a.key.take a.length ++ [0])) ∧
      ((∀ x ∈ a.key.take a.length, (0 : Int) < x) → (∀ x ∈ b.key.take b.length, (0 : Int) < x) →
        (c < 0 ↔ List.Lex (· < ·) (a.key.take a.length) (b.key.take b.length))) ∧
      (∀ y rest, b.key.take b.length = a.key.take a.length ++ y :: rest →
        (c < 0 ↔ 0 < y)) := by
  have hna := strlen_take_nonul ha
  have hnb := strlen_take_nonul hb
  refine ⟨_, key_compare_cstr ha hb, ?_, ?_, ?_, ?_, ?_⟩
  · constructor
    · exact str_cmp_eq_zero hna hnb
    · intro he
      rw [he]
      exact str_cmp_self _
  · exact key_lt_iff_lex hna hnb
  · rw [← key_lt_iff_lex hnb hna, key_lt, str_cmp_neg]
    omega
  · intro hpa hpb
    exact key_lt_iff_lex_pos hpa hpb
  · intro y rest he
    rw [he, str_cmp_prefix]
    omega

/-- Witness for C25, amended: the keys `"ab"` and `"abc"`. -/
theorem key_compare_on_strings_witness :
    (strlen [97, 98, 0] = some 2 ∧ strlen [97, 98, 99, 0] = some 3) ∧
    ∃ c, key_compare { next := [], key := [97, 98, 0], length := 2, data := 0 }
        { next := [], key := [97, 98, 99, 0], length := 3, data := 0 } = some c ∧
      (c < 0 ↔ List.Lex (· < ·) ([97, 98, 0] : List Int) [97, 98, 99, 0]) := by
  obtain ⟨c, hc, _, h2, _⟩ := key_compare_on_strings
    { next := [], key := [97, 98, 0], length := 2, data := 0 }
    { next := [], key := [97, 98, 99, 0], length := 3, data := 0 } (by decide) (by decide)
  exact ⟨⟨by decide, by decide⟩, c, hc, h2⟩

/-- C25, counterexample. The key `"a"` is a proper prefix of the key of two
chars `a` and `-128` (the byte 0x80, where `char` is signed), both held in
NUL-terminated buffers with their string lengths; `key_compare` of the two
is 128, positive: the prefix does not count as smaller than its
extension. -/
theorem key_compare_prefix_counterexample :
    strlen [97, 0] = some 1 ∧ strlen [97, -128, 0] = some 2 ∧
    key_compare { next := [], key := [97, 0], length := 1, data := 0 }
      { next := [], key := [97, -128, 0], length := 2, data := 0 } = some 128 := by
  decide

/-- C26. Function `key_compare` scans the indices `0 .. max(len_a, len_b) - 1`. For
every pair of keys of different lengths whose first `min(len_a, len_b)`
chars agree, it reads the shorter key `a` at the index equal to its length:
the comparison goes on at that index, in either argument order, its result
is decided there when the two buffers differ there, and it is undefined when
the buffer of the shorter key ends with the key. -/
theorem key_compare_reads_behind_shorter_key (a b : node) (hlen : a.length < b.length)
    (hpre : ∀ i, i < a.length → ∃ x, a.key[i]? = some x ∧ b.key[i]? = some x) :
    key_compare a b = key_compare_loop a b 0 (max a.length b.length) ∧
    key_compare a b = (match a.key[a.length]?, b.key[a.length]? with
      | some x, some y =>
        if x ≠ y then some (x - y)
        else key_compare_loop a b (a.length + 1) (b.length - a.length - 1)
      | _, _ => none) ∧
    key_compare b a = (match b.key[a.length]?, a.key[a.length]? with
      | some y, some x =>
        if y ≠ x then some (y - x)
        else key_compare_loop b a (a.length + 1) (b.length - a.length - 1)
      | _, _ => none) ∧
    (a.key.length = a.length → key_compare a b = none ∧ key_compare b a = none) := by
  have hmax : (if a.length > b.length then a.length else b.length) = b.length := by
    rw [if_neg (by omega)]
  have hmax' : (if b.length > a.length then b.length else a.length) = b.length := by
    rw [if_pos (by omega)]
  have hsplit : b.length = a.length + ((b.length - a.length - 1) + 1) := by omega
  have hab : key_compare a b = (match a.key[a.length]?, b.key[a.length]? with
      | some x, some y =>
        if x ≠ y then some (x - y)
        else key_compare_loop a b (a.length + 1) (b.length - a.length - 1)
      | _, _ => none) := by
    unfold key_compare
    simp only [hmax]
    rw [hsplit, key_compare_loop_skip a b a.length 0 _ (by simpa using hpre)]
    simp only [Nat.zero_add]
    rw [key_compare_loop]
    simp only [← hsplit]
  have hba : key_compare b a = (match b.key[a.length]?, a.key[a.length]? with
      | some y, some x =>
        if y ≠ x then some (y - x)
        else key_compare_loop b a (a.length + 1) (b.length - a.length - 1)
      | _, _ => none) := by
    unfold key_compare
    simp only [hmax']
    rw [hsplit, key_compare_loop_skip b a a.length 0 _ (by
      intro j hj
      obtain ⟨x, h1, h2⟩ := hpre j hj
      exact ⟨x, by simpa using h2, by simpa using h1⟩)]
    simp only [Nat.zero_add]
    rw [key_compare_loop]
    simp only [← hsplit]
  refine ⟨?_, hab, hba, ?_⟩
  · unfold key_compare
    simp only [hmax, max_eq_right (le_of_lt hlen)]
  · intro hbuf
    have hnone : a.key[a.length]? = none := List.getElem?_eq_none (by omega)
    rw [hab, hba, hnone]
    refine ⟨rfl, ?_⟩
    rcases b.key[a.length]? with _ | y <;> rfl

/-- Witness for C26: the key `"ab"` held in a buffer `"abd"` and the key
`"abc"`: the result is decided by the `d` behind the first key. -/
theorem key_compare_reads_behind_shorter_key_witness :
    (2 < 3 ∧ ∀ i, i < 2 → ∃ x, ([97, 98, 100, 0] : List Int)[i]? = some x ∧
      ([97, 98, 99, 0] : List Int)[i]? = some x) ∧
    key_compare { next := [], key := [97, 98, 100, 0], length := 2, data := 0 }
      { next := [], key := [97, 98, 99, 0], length := 3, data := 0 } = some 1 := by
  have hpre : ∀ i, i < 2 → ∃ x, ([97, 98, 100, 0] : List Int)[i]? = some x ∧
      ([97, 98, 99, 0] : List Int)[i]? = some x := by
    intro i hi
    interval_cases i
    · exact ⟨97, rfl, rfl⟩
    · exact ⟨98, rfl, rfl⟩
  have h := (key_compare_reads_behind_shorter_key
    { next := [], key := [97, 98, 100, 0], length := 2, data := 0 }
    { next := [], key := [97, 98, 99, 0], length := 3, data := 0 } (by decide) hpre).2.1
  exact ⟨⟨by decide, hpre⟩, by rw [h]; decide⟩

/-- C30. Function `key_compare` is antisymmetric and reflexive: for all keys `a`
and `b`, read from the same buffers, `key_compare(b, a)` is defined exactly
when `key_compare(a, b)` is and is its negation; and `key_compare(a, a)` is
0 for every key whose buffer holds its `length` chars. -/
theorem key_compare_antisymmetric_reflexive (a b : node) :
    key_compare b a = (key_compare a b).map (fun c => -c) ∧
    (a.length ≤ a.key.length → key_compare a a = some 0) :=
  ⟨key_compare_swap a b, key_compare_self a⟩

/-- Witness for C30: the keys `"ab"` (in a buffer `"abd"`) and `"abc"`. -/
theorem key_compare_antisymmetric_reflexive_witness :
    key_compare { next := [], key := [97, 98, 99, 0], length := 3, data := 0 }
        { next := [], key := [97, 98, 100, 0], length := 2, data := 0 } =
      (key_compare { next := [], key := [97, 98, 100, 0], length := 2, data := 0 }
        { next := [], key := [97, 98, 99, 0], length := 3, data := 0 }).map (fun c => -c) ∧
    key_compare { next := [], key := [97, 98, 100, 0], length := 2, data := 0 }
      { next := [], key := [97, 98, 100, 0], length := 2, data := 0 } = some 0 :=
  ⟨(key_compare_antisymmetric_reflexive _ _).1,
    (key_compare_antisymmetric_reflexive
      { next := [], key := [97, 98, 100, 0], length := 2, data := 0 }
      { next := [], key := [97, 98, 99, 0], length := 3, data := 0 }).2 (by decide)⟩

/-- C28. Function `sorted_set_lookup` does not compute a zero length as
`sorted_set_add_key` does: with length 0 the probe has length 0, so
`key_compare` with a stored key scans the stored length only, the first
chars of the query against the stored key. For the set holding only `"ab"`,
`lookup("abc", 0)` returns the entry of `"ab"` while `lookup("abc", 3)`
returns no match; `"abc"` was never inserted: adding it with length 0
returns UNIQUE and stores it with length 3. -/
theorem lookup_length_zero_not_computed :
    (∀ (key : List Int) (nd : node),
      key_compare { next := [], key := key, length := 0, data := 0 } nd =
        key_compare_loop { next := [], key := key, length := 0, data := 0 } nd 0 nd.length) ∧
    sorted_set_apply (build [] ex_calls_ab).1 (build [] ex_calls_ab).2 =
      some [([97, 98, 0], 2, 7)] ∧
    sorted_set_lookup (build [] ex_calls_ab).1 (build [] ex_calls_ab).2 [97, 98, 99, 0] 0 =
      some (some ([97, 98, 0], 2, 7)) ∧
    sorted_set_lookup (build [] ex_calls_ab).1 (build [] ex_calls_ab).2 [97, 98, 99, 0] 3 =
      some none ∧
    (∃ h s, sorted_set_add_key (build [] ex_calls_ab).1 (build [] ex_calls_ab).2
        [97, 98, 99, 0] 0 8 1 = some (SORTED_SET_ADD_KEY_UNIQUE, h, s) ∧
      sorted_set_apply h s = some [([97, 98, 0], 2, 7), ([97, 98, 99, 0], 3, 8)]) := by
  refine ⟨?_, by decide, by decide, by decide, ⟨_, _, rfl, by decide⟩⟩
  intro key nd
  unfold key_compare
  have : (if (0 : Nat) > nd.length then 0 else nd.length) = nd.length := by
    rw [if_neg (by omega)]
  simp only [this]

/-- C29. Function `sorted_set_maker_add_key` stores its length argument verbatim:
keys added with length 0 are stored with length 0, whatever their bytes, and
`sorted_set_apply` on the finalized set reports length 0 for them, whereas
`sorted_set_add_key` called with the same NUL-terminated key and length 0
stores its string length; and `key_compare` of two nodes of length 0 is 0
whatever their bytes. -/
theorem maker_add_key_stores_length_verbatim (h0 : Heap) (k1 k2 : List Int)
    (d1 d2 n v : Nat) (hk : strlen k1 = some n) (hv : 1 ≤ v) :
    (∃ rs h s, maker_build h0 [(k1, 0, d1), (k2, 0, d2)] = some (rs, h, s) ∧
      sorted_set_apply h s = some [(k1, 0, d1), (k2, 0, d2)]) ∧
    (∃ h s, sorted_set_add_key h0 sorted_set_create k1 0 d1 v =
        some (SORTED_SET_ADD_KEY_UNIQUE, h, s) ∧
      sorted_set_apply h s = some [(k1, n, d1)]) ∧
    (∀ a b : node, a.length = 0 → b.length = 0 → key_compare a b = some 0) := by
  refine ⟨?_, ?_, ?_⟩
  · obtain ⟨rs, h, s, hb, _, _, swf, hent, _⟩ :=
      maker_build_spec h0 [(k1, 0, d1), (k2, 0, d2)] (by simp)
    refine ⟨rs, h, s, hb, ?_⟩
    rw [← apply_size_irrel h s [(k1, 0, d1), (k2, 0, d2)].length, swf.struct_apply, hent]
  · obtain ⟨h', s', o', hadd, wf', hent, _⟩ :=
      @WF.add_key h0 sorted_set_create [] (WF_create h0) k1 0 n d1 v (by simp [hk]) hk hv
    have e0 : entries h0 [] = [] := rfl
    rw [e0] at hadd hent
    have hr : insert_result (k1, n, d1) [] = SORTED_SET_ADD_KEY_UNIQUE := by
      simp [insert_result]
    have hi : insert_entry (k1, n, d1) [] = [(k1, n, d1)] := by
      simp [insert_entry]
    rw [hr] at hadd
    exact ⟨h', s', hadd, by rw [wf'.apply, hent, hi]⟩
  · intro a b ha hb
    unfold key_compare
    simp [ha, hb, key_compare_loop]

/-- Witness for C29: the keys `"b"` and `"a"`. -/
theorem maker_add_key_stores_length_verbatim_witness :
    (strlen [98, 0] = some 1 ∧ 1 ≤ 2) ∧
    (∃ rs h s, maker_build [] [([98, 0], 0, 1), ([97, 0], 0, 2)] = some (rs, h, s) ∧
      sorted_set_apply h s = some [([98, 0], 0, 1), ([97, 0], 0, 2)]) ∧
    (∃ h s, sorted_set_add_key [] sorted_set_create [98, 0] 0 1 2 =
        some (SORTED_SET_ADD_KEY_UNIQUE, h, s) ∧
      sorted_set_apply h s = some [([98, 0], 1, 1)]) := by
  have h := maker_add_key_stores_length_verbatim [] [98, 0] [97, 0] 1 2 1 2 (by decide)
    (by decide)
  exact ⟨⟨by decide, by decide⟩, h.1, h.2.1⟩

/-- C21. On the incremental path the layer count is the maximum level in
use. Function `sorted_set_create` gives `layers = 1`; a `sorted_set_add_key` call
that returns DUPLICATE leaves `layers`, one that returns UNIQUE with drawn
level `v` leaves `layers = max(old layers, v)` and links the new node
directly from `head[i]`, with a `NULL` successor, for every
`old layers ≤ i < v`; so after any sequence of calls on a created set that
returns, `layers` is at least 1, it is the largest of 1 and the levels
drawn by the calls that returned UNIQUE, no node of the set has more levels,
some node has exactly `layers` levels unless `layers` is 1, and `layers` is
at least what it was after any first part of the sequence. -/
theorem layers_is_max_level (h0 : Heap) (calls : List add_call)
    (hlev : ∀ c ∈ calls, 1 ≤ c.new_level) :
    sorted_set_create.layers = 1 ∧
    (∀ h s order key length data v r h' s', SWF h s order → 1 ≤ v →
      sorted_set_add_key h s key length data v = some (r, h', s') →
      (r = SORTED_SET_ADD_KEY_DUPLICATE → s'.layers = s.layers) ∧
      (r = SORTED_SET_ADD_KEY_UNIQUE → s'.layers = max s.layers v ∧
        ∀ i, s.layers ≤ i → i < v →
          load_next h' s' .set i = some (some h.length) ∧
          load_next h' s' (.node h.length) i = some none)) ∧
    (∀ rs h s, run_add_keys h0 sorted_set_create calls = some (rs, h, s) →
      1 ≤ s.layers ∧
      s.layers = (unique_calls calls rs).foldl (fun m c => max m c.new_level) 1 ∧
      ∃ order, Linked h s 0 .set order ∧ (∀ i ∈ order, level h i ≤ s.layers) ∧
        (s.layers = 1 ∨ ∃ i ∈ order, level h i = s.layers)) ∧
    (∀ cs₁ cs₂ rs h s, calls = cs₁ ++ cs₂ →
      run_add_keys h0 sorted_set_create calls = some (rs, h, s) →
      ∃ rs₁ h₁ s₁, run_add_keys h0 sorted_set_create cs₁ = some (rs₁, h₁, s₁) ∧
        s₁.layers ≤ s.layers) := by
  refine ⟨rfl, ?_, ?_, ?_⟩
  · intro h s order key length data v r h' s' wf hv hadd
    exact wf.add_key_layers hv hadd
  · intro rs h s hrun
    obtain ⟨order, wf, hat, _, hfold⟩ :=
      (SWF_create h0).run_layers (Or.inl rfl) calls hlev hrun
    exact ⟨wf.layers_pos, hfold, order, wf.struct_head_zero.2, fun i hi => (wf.lvl i hi).2, hat⟩
  · intro cs₁ cs₂ rs h s hsplit hrun
    subst hsplit
    obtain ⟨rs₁, h₁, s₁, rs₂, hr1, hr2, _⟩ := run_add_keys_append cs₁ cs₂ _ _ _ _ _ hrun
    have hl1 : ∀ c ∈ cs₁, 1 ≤ c.new_level := fun c hc => hlev c (by simp [hc])
    have hl2 : ∀ c ∈ cs₂, 1 ≤ c.new_level := fun c hc => hlev c (by simp [hc])
    obtain ⟨o1, wf1, hat1, _, _⟩ := (SWF_create h0).run_layers (Or.inl rfl) cs₁ hl1 hr1
    obtain ⟨o2, _, _, hle, _⟩ := wf1.run_layers hat1 cs₂ hl2 hr2
    exact ⟨rs₁, h₁, s₁, hr1, hle⟩

/-- Witness for C21: scenario 1 with drawn levels 1, 3 and 2 ends with 3
layers. -/
theorem layers_is_max_level_witness :
    (∀ c ∈ ex_calls_abc, 1 ≤ c.new_level) ∧
    run_add_keys [] sorted_set_create ex_calls_abc =
      some ([SORTED_SET_ADD_KEY_UNIQUE, SORTED_SET_ADD_KEY_UNIQUE, SORTED_SET_ADD_KEY_UNIQUE],
        build [] ex_calls_abc) ∧
    (build [] ex_calls_abc).2.layers = 3 ∧
    1 ≤ (build [] ex_calls_abc).2.layers ∧
    (build [] ex_calls_abc).2.layers =
      (unique_calls ex_calls_abc
        [SORTED_SET_ADD_KEY_UNIQUE, SORTED_SET_ADD_KEY_UNIQUE, SORTED_SET_ADD_KEY_UNIQUE]).foldl
        (fun m c => max m c.new_level) 1 := by
  have h := (layers_is_max_level [] ex_calls_abc (by decide)).2.2.1
    [SORTED_SET_ADD_KEY_UNIQUE, SORTED_SET_ADD_KEY_UNIQUE, SORTED_SET_ADD_KEY_UNIQUE]
    (build [] ex_calls_abc).1 (build [] ex_calls_abc).2 (by decide)
  exact ⟨by decide, by decide, by decide, h.1, h.2.1⟩

/-- C27, failing input. The set holding `"abc"` (length 3) and the key
`"ab"` given as the first 2 bytes of the buffer `"abd"`, added once with
drawn level 1 and once with drawn level 2. Both runs return UNIQUE and leave
the same size and the same level-0 sequence of (key, length, data); but
`sorted_set_lookup("ab", 2)` finds nothing after the run with level 1 and
returns the entry of the new key after the run with level 2. -/
theorem lookup_depends_on_level_at_short_key :
    (∃ h1 s1 h2 s2,
      sorted_set_add_key (build [] ex_calls_abc3).1 (build [] ex_calls_abc3).2
        [97, 98, 100, 0] 2 2 1 = some (SORTED_SET_ADD_KEY_UNIQUE, h1, s1) ∧
      sorted_set_add_key (build [] ex_calls_abc3).1 (build [] ex_calls_abc3).2
        [97, 98, 100, 0] 2 2 2 = some (SORTED_SET_ADD_KEY_UNIQUE, h2, s2) ∧
      s1.size = 2 ∧ s2.size = 2 ∧
      sorted_set_apply h1 s1 = some [([97, 98, 99, 0], 3, 1), ([97, 98, 100, 0], 2, 2)] ∧
      sorted_set_apply h2 s2 = some [([97, 98, 99, 0], 3, 1), ([97, 98, 100, 0], 2, 2)] ∧
      sorted_set_lookup h1 s1 [97, 98, 0] 2 = some none ∧
      sorted_set_lookup h2 s2 [97, 98, 0] 2 = some (some ([97, 98, 100, 0], 2, 2))) := by
  refine ⟨_, _, _, _, rfl, rfl, ?_, ?_, ?_, ?_, ?_, ?_⟩ <;> decide

/-- C23, counterexample. The skeleton of `sorted_set_maker_create(6)`: the
nodes at positions 0 .. 5 have the levels 2, 1, 1, 2, 1, 1. Position 2 has
level 1, though the highest power of two dividing 2 has the exponent 1; and
position 3, which is odd, has level 2: the stride of layer 1 is
`floor(6 / 2) = 3`, not a power of two. -/
theorem maker_levels_six_counterexample :
    ∃ h m, sorted_set_maker_create [] 6 = some (h, m) ∧
      (List.range 6).map (level h) = [2, 1, 1, 2, 1, 1] ∧
      (2 ^ 1 ∣ 2 ∧ ¬ 2 ^ 2 ∣ 2 ∧ level h 2 ≠ 1 + 1) ∧
      (2 ^ 0 ∣ 3 ∧ ¬ 2 ^ 1 ∣ 3 ∧ level h 3 ≠ 0 + 1) :=
  ⟨_, _, rfl, by decide, by decide, by decide⟩

/-- C23, amended. For every `n ≥ 2`, with `L = floor(log2(n))`, the strides
`sorted_set_maker_create(n)` stores in `landmarks[j]` are
`floor(n / 2^(L-j))` for `1 ≤ j < L`, and in the skeleton it returns the
node at every position `i` has level `1 + v`, where `v` is the largest `j`
in `1 .. L-1` with `i mod floor(n / 2^(L-j)) = 0`, or 0 if there is none,
and position 0 has level `L`. When `n` is a power of two, `n = 2^L`, these
strides are the powers of two `2^j`, and the node at every position
`0 < i < n` has the level (exponent of the highest power of two dividing
`i`) + 1. -/
theorem maker_levels_by_strides (h0 : Heap) (n : Nat) (hn : 2 ≤ n) :
    (∃ lm, maker_landmarks_loop n (n / 2) (size_dec (maker_layers n))
        (List.replicate (maker_layers n) none) = some lm ∧
      (∀ j, 1 ≤ j → j < Nat.log 2 n → lm[j]? = some (some (n / 2 ^ (Nat.log 2 n - j)))) ∧
      (∀ L, n = 2 ^ L → ∀ j, 1 ≤ j → j < L → lm[j]? = some (some (2 ^ j)))) ∧
    ∃ h s, sorted_set_maker_create h0 n =
        some (h, { sorted_set := s, next := some h0.length }) ∧
      s.layers = Nat.log 2 n ∧
      level h h0.length = Nat.log 2 n ∧
      (∀ i, i < n → ∃ v, level h (h0.length + i) = 1 + v ∧ v < Nat.log 2 n ∧
        (v = 0 ∨ i % (n / 2 ^ (Nat.log 2 n - v)) = 0) ∧
        ∀ j, v < j → j < Nat.log 2 n → i % (n / 2 ^ (Nat.log 2 n - j)) ≠ 0) ∧
      (∀ L, n = 2 ^ L → s.layers = L ∧ level h h0.length = L ∧
        ∀ i, 1 ≤ i → i < n → ∃ v, level h (h0.length + i) = v + 1 ∧
          2 ^ v ∣ i ∧ ¬ 2 ^ (v + 1) ∣ i) := by
  have hstride : ∀ L j, j ≤ L → 2 ^ L / 2 ^ (L - j) = 2 ^ j := by
    intro L j hj
    rw [Nat.pow_div (by omega) (by decide)]
    congr 1
    omega
  constructor
  · obtain ⟨lm, hlm, _, hval⟩ := maker_landmarks_spec hn
    refine ⟨lm, hlm, hval, ?_⟩
    intro L hL j h1 h2
    subst hL
    have hlog : Nat.log 2 (2 ^ L) = L := Nat.log_pow (by decide) L
    have := hval j h1 (by rw [hlog]; exact h2)
    rw [hlog, hstride L j (by omega)] at this
    exact this
  · obtain ⟨lm, h, s, upd, hlm, hcreate, inv⟩ := maker_create_spec h0 hn
    have hz := inv.level_zero hn hlm
    have hl := inv.level_largest hn hlm
    refine ⟨h, s, hcreate, inv.layers_eq, hz, hl, ?_⟩
    intro L hL
    subst hL
    have hlog : Nat.log 2 (2 ^ L) = L := Nat.log_pow (by decide) L
    rw [hlog] at hz hl
    refine ⟨by rw [inv.layers_eq, hlog], hz, ?_⟩
    intro i hi1 hi2
    obtain ⟨v, hlev, hvL, hdiv, hmax⟩ := hl i hi2
    refine ⟨v, by rw [hlev]; omega, ?_, ?_⟩
    · rcases hdiv with rfl | hdiv
      · simp
      · rw [hstride L v (by omega)] at hdiv
        exact Nat.dvd_of_mod_eq_zero hdiv
    · intro hd
      by_cases hv : v + 1 < L
      · have := hmax (v + 1) (by omega) hv
        rw [hstride L (v + 1) (by omega)] at this
        exact this (Nat.mod_eq_zero_of_dvd hd)
      · have hv' : v + 1 = L := by omega
        rw [hv'] at hd
        have := Nat.le_of_dvd (by omega) hd
        omega

/-- Witness for C23, amended: the skeleton of a maker for `8 = 2^3` keys. -/
theorem maker_levels_by_strides_witness :
    2 ≤ 8 ∧
    ∃ h s, sorted_set_maker_create [] 8 =
        some (h, { sorted_set := s, next := some 0 }) ∧
      s.layers = 3 ∧
      level h 0 = 3 ∧
      (∀ i, i < 8 → ∃ v, level h (0 + i) = 1 + v ∧ v < Nat.log 2 8 ∧
        (v = 0 ∨ i % (8 / 2 ^ (Nat.log 2 8 - v)) = 0) ∧
        ∀ j, v < j → j < Nat.log 2 8 → i % (8 / 2 ^ (Nat.log 2 8 - j)) ≠ 0) ∧
      ∀ i, 1 ≤ i → i < 8 → ∃ v, level h (0 + i) = v + 1 ∧
        2 ^ v ∣ i ∧ ¬ 2 ^ (v + 1) ∣ i := by
  obtain ⟨h, s, hc, _, _, hgen, hpow⟩ := (maker_levels_by_strides [] 8 (by decide)).2
  obtain ⟨h1, h2, h3⟩ := hpow 3 (by decide)
  exact ⟨by decide, h, s, hc, h1, h2, hgen, h3⟩

end SortedSet
